import Mathlib

/-!
# Advent of Code 2020 solvers: a shallow embedding and its properties

Each day of the repository is a namespace (`Day01`, `Day02`, ...) holding the
functions of `dayNN/index.js` as Lean functions under the names they have in the
source. Where the source computes with numbers that the input can make large
(the sums and products of day 1, the bag totals of day 7, the waits of day 13
part one) they are `JsNumber` values, whose arithmetic rounds as binary64 does;
seat IDs, counters, lengths and grid indices, which stay far below 2^53, are
`Int` or `Nat`. The numbers of day 12, which are divided by 90, are rationals,
BigInt values are `Int` with the truncating `Int.tmod` and `Int.tdiv`, strings
are `String` or `List Char`, `null` is `none`. A `while` loop with no a priori
bound takes a bound on its iterations and yields a `Run` value.

The definitions come first, the lemmas and theorems after them.
-/

set_option autoImplicit false
/-! ## Definitions -/

/-- Outcome of running a piece of the program under a bound on loop iterations. -/
inductive Run (α : Type) where
  /-- the call returned this value -/
  | done (value : α)
  /-- the call raised a JavaScript exception -/
  | threw
  /-- the iteration bound was used up before the loop ended -/
  | timeout
  deriving DecidableEq, Repr

namespace Run

/-- Apply a function to a returned value. -/
def map {α β : Type} (f : α → β) : Run α → Run β
  | done a => done (f a)
  | threw => threw
  | timeout => timeout

end Run

/-- A JavaScript number whose value is an integer, an infinity or NaN. A finite
value is meant to be one that binary64 holds; the sign of a zero is not kept,
since none of `+`, `-`, `*`, `%`, `<`, `===` and the lookup of a Set tells `-0`
from `0`. -/
inductive JsNumber where
  | finite (value : Int)
  | infinite (negative : Bool)
  | nan
  deriving DecidableEq, Repr

namespace JsNumber

/-- The spacing of the binary64 values around the magnitude `a`, which is
`2 ^ 53` or more: the least power of two `unit` with `a / unit < 2 ^ 53`, tried
from `unit` on, and the number of doublings still allowed after it. The
spacings of binary64 end at `2 ^ 971`, that is after 971 doublings of 1; `none`
when `a` is beyond them. -/
def spacing : Nat → Nat → Nat → Option (Nat × Nat)
  | 0, a, unit => if a / unit < 2 ^ 53 then some (unit, 0) else none
  | doublings + 1, a, unit =>
    if a / unit < 2 ^ 53 then some (unit, doublings + 1) else spacing doublings a (2 * unit)

/-- The binary64 value of the integer `x`, as the arithmetic of JavaScript rounds
an exact result: `x` itself below `2 ^ 53` in magnitude, otherwise the nearest
multiple of the spacing at `x`, a tie going to the even multiple, and an
infinity when that is `2 ^ 1024` or more. -/
def ofInt (x : Int) : JsNumber :=
  if x.natAbs < 2 ^ 53 then finite x
  else
    match spacing 971 x.natAbs 1 with
    | none => infinite (decide (x < 0))
    | some (unit, doublingsLeft) =>
      let q := x.natAbs / unit
      let r := x.natAbs % unit
      let significand := if 2 * r > unit ∨ (2 * r = unit ∧ q % 2 = 1) then q + 1 else q
      if significand = 2 ^ 53 ∧ doublingsLeft = 0 then infinite (decide (x < 0))
      else finite (if x < 0 then -((significand * unit : Nat) : Int)
        else ((significand * unit : Nat) : Int))

/-- The unary `-`. -/
def neg : JsNumber → JsNumber
  | finite a => finite (-a)
  | infinite negative => infinite (!negative)
  | nan => nan

/-- The operator `+` of two numbers. -/
def add : JsNumber → JsNumber → JsNumber
  | finite a, finite b => ofInt (a + b)
  | finite _, infinite negative => infinite negative
  | infinite negative, finite _ => infinite negative
  | infinite negative, infinite negative' => if negative = negative' then infinite negative else nan
  | _, _ => nan

/-- The operator `-` of two numbers. -/
def sub (a b : JsNumber) : JsNumber := add a (neg b)

/-- The operator `*` of two numbers. -/
def mul : JsNumber → JsNumber → JsNumber
  | finite a, finite b => ofInt (a * b)
  | finite a, infinite negative => if a = 0 then nan else infinite (xor negative (decide (a < 0)))
  | infinite negative, finite b => if b = 0 then nan else infinite (xor negative (decide (b < 0)))
  | infinite negative, infinite negative' => infinite (xor negative negative')
  | _, _ => nan

/-- The operator `%` of two numbers: the remainder of the truncating division,
which binary64 always holds. -/
def rem : JsNumber → JsNumber → JsNumber
  | finite a, finite b => if b = 0 then nan else finite (Int.tmod a b)
  | finite a, infinite _ => finite a
  | _, _ => nan

/-- The operator `<` of two numbers; false when one of them is NaN. -/
def lt : JsNumber → JsNumber → Bool
  | finite a, finite b => decide (a < b)
  | finite _, infinite negative => !negative
  | infinite negative, finite _ => negative
  | infinite negative, infinite negative' => negative && !negative'
  | _, _ => false

end JsNumber

namespace Day01

/-- The constant `TARGET_SUM`. -/
def TARGET_SUM : JsNumber := JsNumber.finite 2020

/-- The `for (const n of numbers)` loop of `solvePart1`; `seen` holds the
values added to the Set so far (only membership is ever asked of it). -/
def pairLoop : List JsNumber → List JsNumber → Option JsNumber
  | [], _ => none
  | n :: rest, seen =>
    let needed := TARGET_SUM.sub n
    if needed ∈ seen then some (n.mul needed) else pairLoop rest (n :: seen)

/-- `solvePart1(numbers)`; `none` stands for `null`. -/
def solvePart1 (numbers : List JsNumber) : Option JsNumber :=
  pairLoop numbers []

/-- The `for (let j = i + 1; ...)` loop of `solvePart2`, run over the suffix
after position `i`, with its own Set `seen`. -/
def innerLoop (first remainingTarget : JsNumber) :
    List JsNumber → List JsNumber → Option JsNumber
  | [], _ => none
  | second :: rest, seen =>
    let needed := remainingTarget.sub second
    if needed ∈ seen then some ((first.mul second).mul needed)
    else innerLoop first remainingTarget rest (second :: seen)

/-- The `for (let i = 0; ...)` loop of `solvePart2` over the remaining suffix. -/
def outerLoop : List JsNumber → Option JsNumber
  | [] => none
  | first :: rest =>
    match innerLoop first (TARGET_SUM.sub first) rest [] with
    | some product => some product
    | none => outerLoop rest

/-- `solvePart2(numbers)`; `none` stands for `null`. -/
def solvePart2 (numbers : List JsNumber) : Option JsNumber :=
  outerLoop numbers

end Day01

namespace Day02

/-- The record `parseLine` returns: two numbers read by `\d+`, one letter and
the password text (its characters in order). -/
structure Entry where
  firstNumber : Nat
  secondNumber : Nat
  policyCharacter : Char
  password : List Char
  deriving DecidableEq, Repr

/-- The counting loop of `isValidPart1`: `count` after the characters of `chars`. -/
def countLoop (policyCharacter : Char) : List Char → Nat → Nat
  | [], count => count
  | ch :: rest, count =>
    if ch = policyCharacter then countLoop policyCharacter rest (count + 1)
    else countLoop policyCharacter rest count

/-- `isValidPart1(entry)`. -/
def isValidPart1 (entry : Entry) : Bool :=
  let count := countLoop entry.policyCharacter entry.password 0
  decide (count ≥ entry.firstNumber) && decide (count ≤ entry.secondNumber)

/-- `password[index]` for an integer index; `none` stands for `undefined`, which
is what an index below 0 or past the end gives. -/
def charAtIndex (password : List Char) (index : Int) : Option Char :=
  if index < 0 then none else password[index.toNat]?

/-- `isValidPart2(entry)`. -/
def isValidPart2 (entry : Entry) : Bool :=
  let firstIndex : Int := (entry.firstNumber : Int) - 1
  let secondIndex : Int := (entry.secondNumber : Int) - 1
  let firstMatches := decide (charAtIndex entry.password firstIndex = some entry.policyCharacter)
  let secondMatches := decide (charAtIndex entry.password secondIndex = some entry.policyCharacter)
  (firstMatches || secondMatches) && !(firstMatches && secondMatches)

/-- `part1` of `solve`, over the parsed entries: `entries.filter(isValidPart1).length`. -/
def part1 (entries : List Entry) : Nat :=
  (entries.filter isValidPart1).length

/-- `part2` of `solve`, over the parsed entries: `entries.filter(isValidPart2).length`. -/
def part2 (entries : List Entry) : Nat :=
  (entries.filter isValidPart2).length

/-- Entry `wide` is entry `entry` with its bounds widened: same letter and
password, a lower or equal first number, a higher or equal second number. -/
def Widens (entry wide : Entry) : Prop :=
  wide.policyCharacter = entry.policyCharacter ∧ wide.password = entry.password ∧
    wide.firstNumber ≤ entry.firstNumber ∧ entry.secondNumber ≤ wide.secondNumber

end Day02

namespace Day03

/-- The read `mapLines[row][col % rowWidth]`; `none` stands for `undefined`,
which is also what the index `NaN` of a zero `rowWidth` gives. -/
def cellAt (mapLines : List (List Char)) (rowWidth row col : Nat) : Option Char :=
  match mapLines[row]? with
  | none => none
  | some rowCells => if rowWidth = 0 then none else rowCells[(col % rowWidth)]?

/-- The `while (row < mapHeight)` loop of `countTreesOnSlope`, carrying `row`,
`col` and `treeCount`; `fuel` bounds its rounds. -/
def slopeLoop (mapLines : List (List Char)) (rowWidth rightStep downStep : Nat) :
    Nat → Nat → Nat → Nat → Run Nat
  | 0, _, _, _ => Run.timeout
  | fuel + 1, row, col, treeCount =>
    if row < mapLines.length then
      slopeLoop mapLines rowWidth rightStep downStep fuel (row + downStep) (col + rightStep)
        (if cellAt mapLines rowWidth row col = some '#' then treeCount + 1 else treeCount)
    else Run.done treeCount

/-- `countTreesOnSlope(mapLines, rightStep, downStep)` for steps that are
non-negative integers; reading `mapLines[0].length` of an empty map raises. -/
def countTreesOnSlope (fuel : Nat) (mapLines : List (List Char)) (rightStep downStep : Nat) :
    Run Nat :=
  match mapLines with
  | [] => Run.threw
  | firstLine :: _ => slopeLoop mapLines firstLine.length rightStep downStep fuel 0 0 0

/-- The cell the `k`-th step of the walk stands on is a tree: row `k * downStep`,
column `(k * rightStep) mod width`. -/
def TreeAtStep (mapLines : List (List Char)) (width rightStep downStep k : Nat) : Prop :=
  ∃ rowCells, mapLines[k * downStep]? = some rowCells ∧ rowCells[((k * rightStep) % width)]? = some '#'

end Day03

namespace Day04

/-- A passport object: its own properties in the order they are looked up, each
key with the value stored under it. A value is a text or, for a token that had
no colon, `undefined` (here `none`). -/
abbrev Passport := List (String × Option (List Char))

/-- The constant `REQUIRED_FIELDS`. -/
def REQUIRED_FIELDS : List String := ["byr", "iyr", "eyr", "hgt", "hcl", "ecl", "pid"]

/-- `Object.prototype.hasOwnProperty.call(passport, field)`. -/
def hasOwnProperty (passport : Passport) (field : String) : Bool :=
  passport.any (fun kv => kv.1 = field)

/-- The property read `passport.field`; a key that is absent reads as `undefined`. -/
def getField (passport : Passport) (field : String) : Option (List Char) :=
  match passport.lookup field with
  | some value => value
  | none => none

/-- `hasAllRequiredFields(passport)`. -/
def hasAllRequiredFields (passport : Passport) : Bool :=
  REQUIRED_FIELDS.all (fun field => hasOwnProperty passport field)

/-- The text a regular expression tests when handed a value: `undefined` is
converted to the text "undefined". -/
def toText : Option (List Char) → List Char
  | some s => s
  | none => "undefined".toList

/-- The class `\d`: the ten ASCII digits. -/
def isDigit (c : Char) : Bool := decide ('0' ≤ c) && decide (c ≤ '9')

/-- The class `[0-9a-f]`. -/
def isLowerHex (c : Char) : Bool :=
  (decide ('0' ≤ c) && decide (c ≤ '9')) || (decide ('a' ≤ c) && decide (c ≤ 'f'))

/-- `Number(text)` for a text of decimal digits. -/
def decimalValue (digits : List Char) : Nat :=
  digits.foldl (fun acc c => 10 * acc + (c.toNat - '0'.toNat)) 0

/-- `isValidYear(value, min, max)`: the test of `/^\d{4}$/`, then the range. -/
def isValidYear (value : Option (List Char)) (min max : Nat) : Bool :=
  let text := toText value
  if !(decide (text.length = 4) && text.all isDigit) then false
  else
    let year := decimalValue text
    decide (year ≥ min) && decide (year ≤ max)

/-- The match of `/^(\d+)(cm|in)$/`: the greedy run of digits, which may not be
empty, then exactly "cm" or "in"; the two groups are returned. -/
def matchHeight (text : List Char) : Option (List Char × List Char) :=
  let amountText := text.takeWhile isDigit
  let unit := text.dropWhile isDigit
  if amountText ≠ [] ∧ (unit = ['c', 'm'] ∨ unit = ['i', 'n']) then some (amountText, unit)
  else none

/-- `isValidHeight(value)`; calling `.match` on `undefined` raises a TypeError. -/
def isValidHeight (value : Option (List Char)) : Run Bool :=
  match value with
  | none => Run.threw
  | some text =>
    match matchHeight text with
    | none => Run.done false
    | some (amountText, unit) =>
      let amount := decimalValue amountText
      if unit = ['c', 'm'] then Run.done (decide (amount ≥ 150) && decide (amount ≤ 193))
      else Run.done (decide (amount ≥ 59) && decide (amount ≤ 76))

/-- `isValidHairColor(value)`: the test of `/^#[0-9a-f]{6}$/`. -/
def isValidHairColor (value : Option (List Char)) : Bool :=
  match toText value with
  | '#' :: rest => decide (rest.length = 6) && rest.all isLowerHex
  | _ => false

/-- `isValidEyeColor(value)`: membership in the array of seven codes. -/
def isValidEyeColor (value : Option (List Char)) : Bool :=
  match value with
  | none => false
  | some text =>
    ["amb".toList, "blu".toList, "brn".toList, "gry".toList, "grn".toList, "hzl".toList,
      "oth".toList].contains text

/-- `isValidPassportId(value)`: the test of `/^\d{9}$/`. -/
def isValidPassportId (value : Option (List Char)) : Bool :=
  let text := toText value
  decide (text.length = 9) && text.all isDigit

/-- `isStrictlyValid(passport)`; the chain of `&&` stops at the first false
operand, so the later validators are not called after it. -/
def isStrictlyValid (passport : Passport) : Run Bool :=
  if !hasAllRequiredFields passport then Run.done false
  else if !isValidYear (getField passport "byr") 1920 2002 then Run.done false
  else if !isValidYear (getField passport "iyr") 2010 2020 then Run.done false
  else if !isValidYear (getField passport "eyr") 2020 2030 then Run.done false
  else
    match isValidHeight (getField passport "hgt") with
    | Run.threw => Run.threw
    | Run.timeout => Run.timeout
    | Run.done false => Run.done false
    | Run.done true =>
      if !isValidHairColor (getField passport "hcl") then Run.done false
      else if !isValidEyeColor (getField passport "ecl") then Run.done false
      else Run.done (isValidPassportId (getField passport "pid"))

/-- A text of exactly `n` digits whose decimal value lies in `lo..hi`. -/
def DigitsInRange (n lo hi : Nat) (value : Option (List Char)) : Prop :=
  ∃ text, value = some text ∧ text.length = n ∧ (∀ c ∈ text, isDigit c = true) ∧
    lo ≤ decimalValue text ∧ decimalValue text ≤ hi

/-- A height: a non-empty digit text followed by "cm" with value in 150..193,
or followed by "in" with value in 59..76. -/
def HeightOk (value : Option (List Char)) : Prop :=
  ∃ digits, digits ≠ [] ∧ (∀ c ∈ digits, isDigit c = true) ∧
    ((value = some (digits ++ ['c', 'm']) ∧ 150 ≤ decimalValue digits ∧ decimalValue digits ≤ 193) ∨
     (value = some (digits ++ ['i', 'n']) ∧ 59 ≤ decimalValue digits ∧ decimalValue digits ≤ 76))

/-- A hair colour: '#' followed by exactly six characters from 0-9a-f. -/
def HairColorOk (value : Option (List Char)) : Prop :=
  ∃ rest, value = some ('#' :: rest) ∧ rest.length = 6 ∧ ∀ c ∈ rest, isLowerHex c = true

/-- An eye colour: one of the seven codes. -/
def EyeColorOk (value : Option (List Char)) : Prop :=
  ∃ code ∈ ["amb", "blu", "brn", "gry", "grn", "hzl", "oth"], value = some code.toList

/-- A passport ID: exactly nine digits. -/
def PassportIdOk (value : Option (List Char)) : Prop :=
  ∃ text, value = some text ∧ text.length = 9 ∧ ∀ c ∈ text, isDigit c = true

/-- The strict validity of the specification: all seven keys are present and
every one of their values passes its rule. -/
def StrictSpec (passport : Passport) : Prop :=
  (∀ field ∈ ["byr", "iyr", "eyr", "hgt", "hcl", "ecl", "pid"],
      ∃ value, (field, value) ∈ passport) ∧
    DigitsInRange 4 1920 2002 (getField passport "byr") ∧
    DigitsInRange 4 2010 2020 (getField passport "iyr") ∧
    DigitsInRange 4 2020 2030 (getField passport "eyr") ∧
    HeightOk (getField passport "hgt") ∧
    HairColorOk (getField passport "hcl") ∧
    EyeColorOk (getField passport "ecl") ∧
    PassportIdOk (getField passport "pid")

end Day04

namespace Day05

/-- The characters `parseInt` skips at the start of its input (WhiteSpace and
LineTerminator of ECMAScript). -/
def isStrWhiteSpace (c : Char) : Bool :=
  let n := c.toNat
  n = 0x20 || n = 0x09 || n = 0x0A || n = 0x0D || n = 0x0B || n = 0x0C ||
  n = 0xA0 || n = 0xFEFF || n = 0x2028 || n = 0x2029 || n = 0x1680 ||
  (decide (0x2000 ≤ n) && decide (n ≤ 0x200A)) || n = 0x202F || n = 0x205F ||
  n = 0x3000

/-- The value of a string of binary digits, most significant first. -/
def binaryDigitsValue (digits : List Char) : Int :=
  digits.foldl (fun acc c => 2 * acc + (if c = '1' then 1 else 0)) 0

/-- `parseInt(text, 2)`: skip leading white space, read an optional sign, then
the longest run of the digits 0 and 1; `none` stands for `NaN`, the result when
that run is empty. -/
def parseIntRadix2 (text : List Char) : Option Int :=
  let trimmed := text.dropWhile isStrWhiteSpace
  let sign : Int := match trimmed with
    | '-' :: _ => -1
    | _ => 1
  let body := match trimmed with
    | '-' :: rest => rest
    | '+' :: rest => rest
    | _ => trimmed
  let digits := body.takeWhile (fun c => c = '0' || c = '1')
  if digits = [] then none else some (sign * binaryDigitsValue digits)

/-- `.replace(/[FL]/g, "0")` then `.replace(/[BR]/g, "1")` on one character. -/
def replaceLetter (c : Char) : Char :=
  let c0 := if c = 'F' ∨ c = 'L' then '0' else c
  if c0 = 'B' ∨ c0 = 'R' then '1' else c0

/-- `seatIdFromCode(boardingPassCode)`. -/
def seatIdFromCode (boardingPassCode : List Char) : Option Int :=
  let binaryString := boardingPassCode.map replaceLetter
  parseIntRadix2 binaryString

/-- A valid boarding-pass code: ten characters, the first seven from F and B,
the last three from L and R. -/
def ValidCode (code : List Char) : Prop :=
  code.length = 10 ∧ (∀ c ∈ code.take 7, c = 'F' ∨ c = 'B') ∧
    (∀ c ∈ code.drop 7, c = 'L' ∨ c = 'R')

instance (code : List Char) : Decidable (ValidCode code) := by
  unfold ValidCode; infer_instance

/-- The binary number read from `chars` where `one` stands for 1 and every other
character for 0, most significant first. -/
def binaryRead (one : Char) (chars : List Char) : Int :=
  chars.foldl (fun acc c => 2 * acc + (if c = one then 1 else 0)) 0

/-- The row of a code: the first seven characters, F = 0 and B = 1. -/
def rowOf (code : List Char) : Int := binaryRead 'B' (code.take 7)

/-- The column of a code: the last three characters, L = 0 and R = 1. -/
def columnOf (code : List Char) : Int := binaryRead 'R' (code.drop 7)

/-- `seatIds.sort((a, b) => a - b)`: the IDs in ascending order. -/
def sortAscending (seatIds : List Int) : List Int :=
  seatIds.insertionSort (fun a b => a ≤ b)

/-- The `for (let i = 1; ...)` loop of `solve` over the sorted IDs: at each
step `previousId` and `currentId` are the first two of the remaining list. -/
def gapLoop : List Int → Option Int
  | previousId :: currentId :: rest =>
    if currentId - previousId = 2 then some (previousId + 1)
    else gapLoop (currentId :: rest)
  | _ => none

/-- `part2` of `solve`, from the list of seat IDs; `none` stands for `null`. -/
def part2 (seatIds : List Int) : Option Int :=
  gapLoop (sortAscending seatIds)

/-- An ID `m` that is missing from `ids` while both its neighbours are there. -/
def MissingBetween (ids : List Int) (m : Int) : Prop :=
  m ∉ ids ∧ m - 1 ∈ ids ∧ m + 1 ∈ ids

end Day05

namespace Day06

/-- `groupBlock.split("\n")`: the pieces between newline characters, the empty
pieces included. -/
def splitNewline : List Char → List (List Char)
  | [] => [[]]
  | c :: rest =>
    if c = '\n' then [] :: splitNewline rest
    else
      match splitNewline rest with
      | current :: more => (c :: current) :: more
      | [] => [[c]]

/-- The array `people`: the pieces of non-zero length. -/
def people (groupBlock : List Char) : List (List Char) :=
  (splitNewline groupBlock).filter (fun answers => decide (answers.length > 0))

/-- `new Set(values)`: the distinct values (only membership and size are used). -/
def newSet (values : List Char) : List Char := values.dedup

/-- The `for (let i = 1; ...)` loop of `countIntersectionYes` over the people
after the first, carrying the Set `common`. -/
def intersectLoop : List (List Char) → List Char → List Char
  | [], common => common
  | personAnswers :: rest, common =>
    let currentSet := newSet personAnswers
    intersectLoop rest (newSet (common.filter (fun ch => decide (ch ∈ currentSet))))

/-- `countIntersectionYes(groupBlock)`. -/
def countIntersectionYes (groupBlock : List Char) : Nat :=
  match people groupBlock with
  | [] => 0
  | first :: rest => (intersectLoop rest (newSet first)).length

end Day06

namespace Day07

/-- One entry `{ count, innerColor }` of the contents of a rule; `count` is the
integer that the digits of the rule denote, of which `Number` makes the number
`JsNumber.ofInt count`. -/
structure Content where
  count : Nat
  innerColor : String
  deriving DecidableEq, Repr

/-- The record `parseRule` returns for a line that parses. -/
structure Rule where
  outerColor : String
  contents : List Content
  deriving DecidableEq, Repr

/-- The Map `containsGraph`: outer colour to contents; the entry set last
stands first, so that a lookup reads the latest value of a key. -/
abbrev ContainsGraph := List (String × List Content)

/-- The Map `containedByGraph`: inner colour to the Set of the colours that
directly contain it, a Set being the list of its members in insertion order. -/
abbrev ContainedByGraph := List (String × List String)

/-- `set.add(value)` on a Set. -/
def setAdd (members : List String) (value : String) : List String :=
  if value ∈ members then members else members ++ [value]

/-- The body of `for (const { innerColor } of contents)` in `buildGraphs`, over
the entries `contents` of the rule of `outerColor`. -/
def addContents (outerColor : String) : List Content → ContainedByGraph → ContainedByGraph
  | [], containedByGraph => containedByGraph
  | entry :: rest, containedByGraph =>
    let withKey : ContainedByGraph :=
      if (containedByGraph.lookup entry.innerColor).isSome then containedByGraph
      else (entry.innerColor, []) :: containedByGraph
    let parents := (withKey.lookup entry.innerColor).getD []
    addContents outerColor rest ((entry.innerColor, setAdd parents outerColor) :: withKey)

/-- The `for (const line of lines)` loop of `buildGraphs`, over the parsed rules. -/
def buildLoop : List Rule → ContainsGraph × ContainedByGraph → ContainsGraph × ContainedByGraph
  | [], graphs => graphs
  | rule :: rest, graphs =>
    buildLoop rest ((rule.outerColor, rule.contents) :: graphs.1,
      addContents rule.outerColor rule.contents graphs.2)

/-- `buildGraphs(lines)` for lines that all parse, given as the records
`parseRule` returns for them: the pair (containsGraph, containedByGraph). -/
def buildGraphs (rules : List Rule) : ContainsGraph × ContainedByGraph :=
  buildLoop rules ([], [])

/-- The variables `visited` and `stack` of `countColorsThatCanEventuallyContain`;
the top of the stack is the head of the list. -/
structure DfsState where
  visited : List String
  stack : List String
  deriving DecidableEq, Repr

/-- The loop `for (const parentColor of directParents)`. -/
def visitParents : List String → DfsState → DfsState
  | [], s => s
  | parentColor :: rest, s =>
    if parentColor ∈ s.visited then visitParents rest s
    else visitParents rest ⟨s.visited ++ [parentColor], parentColor :: s.stack⟩

/-- One round of `while (stack.length > 0)`; `none` when the stack is empty. -/
def dfsStep (containedByGraph : ContainedByGraph) (s : DfsState) : Option DfsState :=
  match s.stack with
  | [] => none
  | current :: rest =>
    match containedByGraph.lookup current with
    | none => some ⟨s.visited, rest⟩
    | some directParents => some (visitParents directParents ⟨s.visited, rest⟩)

/-- The `while` loop from the state `s`, with `fuel` bounding its rounds; the
value is the final `visited`. -/
def dfsLoop (containedByGraph : ContainedByGraph) : Nat → DfsState → Run (List String)
  | 0, _ => Run.timeout
  | fuel + 1, s =>
    match dfsStep containedByGraph s with
    | none => Run.done s.visited
    | some s' => dfsLoop containedByGraph fuel s'

/-- The state after `n` rounds of the `while` loop (the last state, when the
loop ended earlier). -/
def dfsAfter (containedByGraph : ContainedByGraph) : Nat → DfsState → DfsState
  | 0, s => s
  | n + 1, s =>
    match dfsStep containedByGraph s with
    | none => s
    | some s' => dfsAfter containedByGraph n s'

/-- `countColorsThatCanEventuallyContain(targetColor, containedByGraph)`. -/
def countColorsThatCanEventuallyContain (fuel : Nat) (targetColor : String)
    (containedByGraph : ContainedByGraph) : Run Nat :=
  (dfsLoop containedByGraph fuel ⟨[], [targetColor]⟩).map List.length

/-- The Map `memo`: colour to total. -/
abbrev Memo := List (String × JsNumber)

/-- The loop `for (const { count, innerColor } of contents)` of
`countTotalBagsInside`, carrying `total` and the memo; `recurse` is the
recursive call. -/
def sumContents (recurse : String → Memo → Run (JsNumber × Memo)) :
    List Content → JsNumber → Memo → Run (JsNumber × Memo)
  | [], total, memo => Run.done (total, memo)
  | entry :: rest, total, memo =>
    match recurse entry.innerColor memo with
    | Run.done (inside, memo') =>
      sumContents recurse rest
        (total.add ((JsNumber.ofInt entry.count).mul ((JsNumber.finite 1).add inside))) memo'
    | Run.threw => Run.threw
    | Run.timeout => Run.timeout

/-- `countTotalBagsInside(color, containsGraph, memo)`: the value returned and
the memo as the call leaves it; `fuel` bounds the depth of the recursion. -/
def countTotalBagsInside (containsGraph : ContainsGraph) :
    Nat → String → Memo → Run (JsNumber × Memo)
  | 0, _, _ => Run.timeout
  | fuel + 1, color, memo =>
    match memo.lookup color with
    | some known => Run.done (known, memo)
    | none =>
      let contents := (containsGraph.lookup color).getD []
      match sumContents (countTotalBagsInside containsGraph fuel) contents
          (JsNumber.finite 0) memo with
      | Run.done (total, memo') => Run.done (total, (color, total) :: memo')
      | Run.threw => Run.threw
      | Run.timeout => Run.timeout

/-- Colour `outer` directly contains colour `inner` according to the reverse
graph: `outer` is in the Set stored for `inner`. -/
def DirectParent (containedByGraph : ContainedByGraph) (outer inner : String) : Prop :=
  ∃ parents, containedByGraph.lookup inner = some parents ∧ outer ∈ parents

/-- Colour `inner` is directly inside colour `outer` according to the forward
graph: the contents of `outer` have an entry for `inner`. -/
def DirectlyInside (containsGraph : ContainsGraph) (inner outer : String) : Prop :=
  ∃ contents, containsGraph.lookup outer = some contents ∧
    ∃ entry ∈ contents, entry.innerColor = inner

/-- The total of the specification for a list of contents: the sum over its
entries (count, inner) of `count * (1 + total(inner))`, `total(inner)` being
the total of the contents of `inner` (none for a colour without rule). -/
inductive TotalOf (containsGraph : ContainsGraph) : List Content → Nat → Prop
  | nil : TotalOf containsGraph [] 0
  | cons (entry : Content) (rest : List Content) (inside sum : Nat) :
      TotalOf containsGraph ((containsGraph.lookup entry.innerColor).getD []) inside →
      TotalOf containsGraph rest sum →
      TotalOf containsGraph (entry :: rest) (entry.count * (1 + inside) + sum)

/-- Every value the memo holds is the total of its colour. -/
def MemoSound (containsGraph : ContainsGraph) (memo : Memo) : Prop :=
  ∀ color known, memo.lookup color = some known →
    ∃ total : Nat, known = JsNumber.finite total ∧
      TotalOf containsGraph ((containsGraph.lookup color).getD []) total

/-- The invariant of the `while` loop of `countColorsThatCanEventuallyContain`:
`visited` has no duplicates; every visited colour reaches the target by one or
more parent edges; every colour on the stack is the target or visited; and all
parents of a colour that is the target or visited and no longer on the stack
are visited. -/
def DfsInv (containedByGraph : ContainedByGraph) (targetColor : String) (s : DfsState) : Prop :=
  s.visited.Nodup ∧
  (∀ v ∈ s.visited, Relation.TransGen (DirectParent containedByGraph) v targetColor) ∧
  (∀ x ∈ s.stack, x = targetColor ∨ x ∈ s.visited) ∧
  (∀ x, (x = targetColor ∨ x ∈ s.visited) → x ∉ s.stack →
    ∀ p, DirectParent containedByGraph p x → p ∈ s.visited)

/-- All colours that stand in some Set of the reverse graph. -/
def allParents (containedByGraph : ContainedByGraph) : Finset String :=
  (containedByGraph.flatMap (fun entry => entry.2)).toFinset

/-- All colours that stand as innerColor in some contents of the forward graph. -/
def innerColors (containsGraph : ContainsGraph) : List String :=
  containsGraph.flatMap (fun entry => entry.2.map (fun e => e.innerColor))

/-- What a call `countTotalBagsInside(color, containsGraph, memo)` must do for
the colour `color`: its contents have a total, and from every sound memo some
depth bound makes the call return that total and leave a sound memo. -/
def CallCorrect (containsGraph : ContainsGraph) (color : String) : Prop :=
  ∃ total, TotalOf containsGraph ((containsGraph.lookup color).getD []) total ∧
    ∀ memo, MemoSound containsGraph memo →
      ∃ fuel memo', countTotalBagsInside containsGraph fuel color memo
          = Run.done (JsNumber.finite total, memo') ∧
        MemoSound containsGraph memo'

end Day07

namespace Day11

/-- The value `parseGrid` returns: one list of characters per line. -/
abbrev Grid := List (List Char)

/-- The constant `DIRECTIONS`, as (dRow, dCol) pairs in source order. -/
def DIRECTIONS : List (Int × Int) :=
  [(-1, -1), (-1, 0), (-1, 1), (0, -1), (0, 1), (1, -1), (1, 0), (1, 1)]

/-- The Map `seatIndexByCoord`: the key text "row,col" is kept as the pair of
integers it is built from; the entry set last stands first. -/
abbrev CoordMap := List ((Int × Int) × Nat)

/-- `seatIndexByCoord.get(key)`; `none` stands for `undefined`. -/
def mapGet (m : CoordMap) (key : Int × Int) : Option Nat := m.lookup key

/-- `seatIndexByCoord.has(key)`. -/
def mapHas (m : CoordMap) (key : Int × Int) : Bool := (m.lookup key).isSome

/-- `seatIndexByCoord.set(key, index)`. -/
def mapSet (m : CoordMap) (key : Int × Int) (index : Nat) : CoordMap := (key, index) :: m

/-- The pair of values `buildSeatIndex` returns. -/
structure SeatIndex where
  seatPositions : List (Nat × Nat)
  seatIndexByCoord : CoordMap

/-- The inner loop of `buildSeatIndex` over the cells of one row, from column
`col` on. -/
def buildRow (row : Nat) : List Char → Nat → SeatIndex → SeatIndex
  | [], _, acc => acc
  | cell :: rest, col, acc =>
    if cell ≠ '.' then
      buildRow row rest (col + 1)
        ⟨acc.seatPositions ++ [(row, col)],
         mapSet acc.seatIndexByCoord ((row : Int), (col : Int)) acc.seatPositions.length⟩
    else buildRow row rest (col + 1) acc

/-- The outer loop of `buildSeatIndex` over the rows, from row `row` on. -/
def buildRows : List (List Char) → Nat → SeatIndex → SeatIndex
  | [], _, acc => acc
  | cells :: rest, row, acc => buildRows rest (row + 1) (buildRow row cells 0 acc)

/-- `buildSeatIndex(grid)`. -/
def buildSeatIndex (grid : Grid) : SeatIndex :=
  buildRows grid 0 ⟨[], []⟩

/-- `grid[0].length`, the width every bound check uses (0 for a grid without
rows, where no seat exists and the loops that read it do not run). -/
def gridWidth (grid : Grid) : Nat :=
  match grid with
  | [] => 0
  | firstRow :: _ => firstRow.length

/-- `grid[r][c]` for integers `r`, `c`; `none` stands for `undefined`. -/
def cellAt (grid : Grid) (r c : Int) : Option Char :=
  if r < 0 ∨ c < 0 then none
  else
    match grid[r.toNat]? with
    | none => none
    | some cells => cells[c.toNat]?

/-- The body of `for (const [dRow, dCol] of DIRECTIONS)` in
`precomputeAdjacentNeighbors`: what is pushed for one direction, if anything. -/
def adjacentInDirection (grid : Grid) (m : CoordMap) (row col : Nat) (d : Int × Int) :
    Option (Option Nat) :=
  let r : Int := (row : Int) + d.1
  let c : Int := (col : Int) + d.2
  if r < 0 ∨ r ≥ (grid.length : Int) then none
  else if c < 0 ∨ c ≥ (gridWidth grid : Int) then none
  else if mapHas m (r, c) then some (mapGet m (r, c))
  else none

/-- `precomputeAdjacentNeighbors(grid, seatPositions, seatIndexByCoord)`: one
list per seat, holding what `get` returned for each direction that has a seat. -/
def precomputeAdjacentNeighbors (grid : Grid) (seatPositions : List (Nat × Nat))
    (seatIndexByCoord : CoordMap) : List (List (Option Nat)) :=
  seatPositions.map (fun pos =>
    DIRECTIONS.filterMap (fun d => adjacentInDirection grid seatIndexByCoord pos.1 pos.2 d))

/-- The `while` loop of `precomputeVisibleNeighbors` from the cell (r, c) in the
direction (dRow, dCol): what is pushed, if anything. Each round moves one cell;
`steps` bounds the rounds. -/
def scanDirection (grid : Grid) (m : CoordMap) (dRow dCol : Int) :
    Nat → Int → Int → Option (Option Nat)
  | 0, _, _ => none
  | steps + 1, r, c =>
    if r ≥ 0 ∧ r < (grid.length : Int) ∧ c ≥ 0 ∧ c < (gridWidth grid : Int) then
      if cellAt grid r c ≠ some '.' then some (mapGet m (r, c))
      else scanDirection grid m dRow dCol steps (r + dRow) (c + dCol)
    else none

/-- `precomputeVisibleNeighbors(grid, seatPositions, seatIndexByCoord)`. A scan
leaves the grid after at most `grid.length + grid[0].length` cells, which is the
bound handed to `scanDirection`. -/
def precomputeVisibleNeighbors (grid : Grid) (seatPositions : List (Nat × Nat))
    (seatIndexByCoord : CoordMap) : List (List (Option Nat)) :=
  seatPositions.map (fun pos =>
    DIRECTIONS.filterMap (fun d =>
      scanDirection grid seatIndexByCoord d.1 d.2 (grid.length + gridWidth grid)
        ((pos.1 : Int) + d.1) ((pos.2 : Int) + d.2)))

/-- The inner `for (const neighborIndex of neighborList[i])` loop: the number of
entries whose seat is "#" in `currentStates`; an `undefined` entry or an index
outside the array never is. -/
def occupiedNeighborCount (currentStates : List Char) (neighborIndexes : List (Option Nat)) : Nat :=
  neighborIndexes.foldl (fun count neighborIndex =>
    match neighborIndex with
    | some j => if currentStates[j]? = some '#' then count + 1 else count
    | none => count) 0

/-- The `for (let i = 0; i < currentStates.length; i += 1)` loop of one round,
with `remaining` indices left from `i` on; it carries `nextStates` and
`didChange`. Iterating `neighborList[i]` when it is `undefined` raises. -/
def seatLoop (currentStates : List Char) (neighborList : List (List (Option Nat)))
    (leaveThreshold : Nat) : Nat → Nat → List Char → Bool → Run (List Char × Bool)
  | 0, _, nextStates, didChange => Run.done (nextStates, didChange)
  | remaining + 1, i, nextStates, didChange =>
    match neighborList[i]? with
    | none => Run.threw
    | some neighborIndexes =>
      let seatState := currentStates[i]?
      let count := occupiedNeighborCount currentStates neighborIndexes
      if seatState = some 'L' ∧ count = 0 then
        seatLoop currentStates neighborList leaveThreshold remaining (i + 1)
          (nextStates.set i '#') true
      else if seatState = some '#' ∧ count ≥ leaveThreshold then
        seatLoop currentStates neighborList leaveThreshold remaining (i + 1)
          (nextStates.set i 'L') true
      else
        seatLoop currentStates neighborList leaveThreshold remaining (i + 1)
          nextStates didChange

/-- One pass of the `while (true)` body of `simulateUntilStable`: `nextStates`
starts as a copy of `currentStates`, `didChange` as false. -/
def runRound (currentStates : List Char) (neighborList : List (List (Option Nat)))
    (leaveThreshold : Nat) : Run (List Char × Bool) :=
  seatLoop currentStates neighborList leaveThreshold currentStates.length 0 currentStates false

/-- `simulateUntilStable(initialSeatStates, neighborList, leaveThreshold)`, with
`rounds` bounding the passes of its `while (true)` loop. -/
def simulateUntilStable : Nat → List Char → List (List (Option Nat)) → Nat → Run (List Char)
  | 0, _, _, _ => Run.timeout
  | rounds + 1, currentStates, neighborList, leaveThreshold =>
    match runRound currentStates neighborList leaveThreshold with
    | Run.done (nextStates, didChange) =>
      if !didChange then Run.done nextStates
      else simulateUntilStable rounds nextStates neighborList leaveThreshold
    | Run.threw => Run.threw
    | Run.timeout => Run.timeout

/-- `initialSeatStates` of `solve`: the cell of every seat position. A position
outside the grid, which `buildSeatIndex` never yields, reads as a blank. -/
def initialSeatStates (grid : Grid) (seatPositions : List (Nat × Nat)) : List Char :=
  seatPositions.map (fun pos => (cellAt grid (pos.1 : Int) (pos.2 : Int)).getD ' ')

/-- The part-one run of `solve`: adjacent neighbours, threshold 4. -/
def stablePart1 (rounds : Nat) (grid : Grid) : Run (List Char) :=
  let index := buildSeatIndex grid
  simulateUntilStable rounds (initialSeatStates grid index.seatPositions)
    (precomputeAdjacentNeighbors grid index.seatPositions index.seatIndexByCoord) 4

/-- The part-two run of `solve`: visible neighbours, threshold 5. -/
def stablePart2 (rounds : Nat) (grid : Grid) : Run (List Char) :=
  let index := buildSeatIndex grid
  simulateUntilStable rounds (initialSeatStates grid index.seatPositions)
    (precomputeVisibleNeighbors grid index.seatPositions index.seatIndexByCoord) 5

/-- `solve(lines)` on the parsed grid: the two counts of "#" in the stable states. -/
def solve (rounds : Nat) (grid : Grid) : Run (Nat × Nat) :=
  match stablePart1 rounds grid with
  | Run.done stable1 =>
    match stablePart2 rounds grid with
    | Run.done stable2 =>
      Run.done ((stable1.filter (fun ch => ch = '#')).length,
        (stable2.filter (fun ch => ch = '#')).length)
    | Run.threw => Run.threw
    | Run.timeout => Run.timeout
  | Run.threw => Run.threw
  | Run.timeout => Run.timeout

/-- A rectangular grid of floor, empty and occupied cells: all rows have the
length of the first one and every cell is '.', 'L' or '#'. -/
def WellFormed (grid : Grid) : Prop :=
  (∀ cells ∈ grid, cells.length = gridWidth grid) ∧
    ∀ cells ∈ grid, ∀ ch ∈ cells, ch = '.' ∨ ch = 'L' ∨ ch = '#'

instance (grid : Grid) : Decidable (WellFormed grid) := by
  unfold WellFormed; infer_instance

/-- The number of entries of a neighbour list whose seat is occupied in `states`. -/
def occupiedCount (states : List Char) (neighborIndexes : List (Option Nat)) : Nat :=
  neighborIndexes.countP (fun e =>
    match e with
    | some j => decide (states[j]? = some '#')
    | none => false)

/-- The rule of the specification for one seat with state `ch` at index `i`,
read against the full previous state: an empty seat with no occupied neighbour
becomes occupied, an occupied seat with at least `threshold` occupied
neighbours becomes empty, every other seat keeps its state. -/
def specNextState (neighbours : List (List (Option Nat))) (threshold : Nat)
    (previous : List Char) (i : Nat) (ch : Char) : Char :=
  if ch = 'L' ∧ occupiedCount previous (neighbours[i]?.getD []) = 0 then '#'
  else if ch = '#' ∧ occupiedCount previous (neighbours[i]?.getD []) ≥ threshold then 'L'
  else ch

/-- The specification's rule applied to the seats `seats`, which stand at the
indices `i`, `i + 1`, ... of `previous`. -/
def specRoundFrom (neighbours : List (List (Option Nat))) (threshold : Nat)
    (previous : List Char) : Nat → List Char → List Char
  | _, [] => []
  | i, ch :: rest =>
    specNextState neighbours threshold previous i ch ::
      specRoundFrom neighbours threshold previous (i + 1) rest

/-- One round of the specification: every seat's next state, each computed from
the previous full state only. -/
def specRound (neighbours : List (List (Option Nat))) (threshold : Nat)
    (previous : List Char) : List Char :=
  specRoundFrom neighbours threshold previous 0 previous

/-- Entry `e` of the neighbour list of seat `i` names a seat of index `i` or more. -/
def laterEntry (i : Nat) (e : Option Nat) : Bool :=
  match e with
  | some j => decide (i ≤ j)
  | none => false

/-- Row-major order on positions: an earlier row, or the same row and an
earlier column. -/
def lexLt (a b : Nat × Nat) : Prop :=
  a.1 < b.1 ∨ (a.1 = b.1 ∧ a.2 < b.2)

/-- The invariant of the loops of `buildSeatIndex`: the positions pushed so far
are in strictly increasing row-major order and all stand before `bound`, and
every index the map returns for a key is the index of that position. -/
def IndexGood (acc : SeatIndex) (bound : Nat × Nat) : Prop :=
  acc.seatPositions.Pairwise lexLt ∧ (∀ p ∈ acc.seatPositions, lexLt p bound) ∧
    ∀ (key : Int × Int) (j : Nat), mapGet acc.seatIndexByCoord key = some j →
      ∃ p : Nat × Nat, key = ((p.1 : Int), (p.2 : Int)) ∧ acc.seatPositions[j]? = some p

/-- The 4 by 4 grid whose twelve seats each have at least four adjacent seats. -/
def octagonGrid : Grid :=
  [".LL.".toList, "LLLL".toList, "LLLL".toList, ".LL.".toList]

/-- The cell at row `r`, column `c` exists and is not floor. -/
def IsSeatAt (grid : Grid) (r c : Nat) : Prop :=
  ∃ (cells : List Char) (ch : Char), grid[r]? = some cells ∧ cells[c]? = some ch ∧ ch ≠ '.'

/-- The second invariant of the loops of `buildSeatIndex`: every position
pushed so far is a seat of the grid, and every seat that stands before `bound`
in row-major order has an index in the map. -/
def IndexComplete (grid : Grid) (acc : SeatIndex) (bound : Nat × Nat) : Prop :=
  (∀ p ∈ acc.seatPositions, IsSeatAt grid p.1 p.2) ∧
    ∀ r c : Nat, lexLt (r, c) bound → IsSeatAt grid r c →
      ∃ j, mapGet acc.seatIndexByCoord ((r : Int), (c : Int)) = some j

/-- All rows of the grid have the length of the first one. -/
def Rectangular (grid : Grid) : Prop :=
  ∀ cells ∈ grid, cells.length = gridWidth grid

/-- Seat position `q` is the first seat seen from position `p` in one of the
eight directions: `q = p + (k + 1) * d` and the `k` cells between are floor. -/
def Sees (grid : Grid) (p q : Nat × Nat) : Prop :=
  ∃ d ∈ DIRECTIONS, ∃ k : Nat,
    (q.1 : Int) = (p.1 : Int) + ((k : Int) + 1) * d.1 ∧
    (q.2 : Int) = (p.2 : Int) + ((k : Int) + 1) * d.2 ∧
    ∀ m : Nat, 1 ≤ m → m ≤ k →
      cellAt grid ((p.1 : Int) + (m : Int) * d.1) ((p.2 : Int) + (m : Int) * d.2) = some '.'

/-- Seat position `q` touches position `p`: `q = p + d` for one of the eight
directions. -/
def Touches (p q : Nat × Nat) : Prop :=
  ∃ d ∈ DIRECTIONS, (q.1 : Int) = (p.1 : Int) + d.1 ∧ (q.2 : Int) = (p.2 : Int) + d.2

instance (grid : Grid) : Decidable (Rectangular grid) := by
  unfold Rectangular; infer_instance

/-- The constant `adjacentNeighbors` of `solve`. -/
def adjacentNeighbors (grid : Grid) : List (List (Option Nat)) :=
  precomputeAdjacentNeighbors grid (buildSeatIndex grid).seatPositions
    (buildSeatIndex grid).seatIndexByCoord

/-- The constant `visibleNeighbors` of `solve`. -/
def visibleNeighbors (grid : Grid) : List (List (Option Nat)) :=
  precomputeVisibleNeighbors grid (buildSeatIndex grid).seatPositions
    (buildSeatIndex grid).seatIndexByCoord

end Day11

namespace Day12

/-- The record `parseInstruction` returns: `line[0]` (`none` stands for
`undefined`, the case of an empty line) and `Number(line.slice(1))`. Numbers are
exact rationals, so that `value / 90` is kept when it is not an integer. -/
structure Instruction where
  action : Option Char
  value : ℚ

/-- `manhattanDistance(x, y)`. -/
def manhattanDistance (x y : ℚ) : ℚ := |x| + |y|

/-- `rotateRight90(x, y)`. -/
def rotateRight90 (x y : ℚ) : ℚ × ℚ := (y, -x)

/-- `rotateLeft90(x, y)`. -/
def rotateLeft90 (x y : ℚ) : ℚ × ℚ := (-y, x)

/-- The integer part of a rational, rounded toward zero. -/
def truncate (q : ℚ) : Int := if 0 ≤ q then ⌊q⌋ else ⌈q⌉

/-- The `%` of JavaScript numbers: the remainder has the sign of the dividend,
`a - b * trunc(a / b)`. -/
def jsRem (a b : ℚ) : ℚ := a - b * (truncate (a / b) : ℚ)

/-- The `for (let i = 0; i < turns; i += 1)` loop of `rotateWaypoint` from the
counter `i` on; `steps` bounds its rounds. -/
def rotateLoop (direction : Option Char) (turns : ℚ) : Nat → ℚ → ℚ × ℚ → ℚ × ℚ
  | 0, _, p => p
  | steps + 1, i, p =>
    if i < turns then
      rotateLoop direction turns steps (i + 1)
        (if direction = some 'R' then rotateRight90 p.1 p.2 else rotateLeft90 p.1 p.2)
    else p

/-- `rotateWaypoint(wx, wy, direction, degrees)`. `turns` is a remainder modulo
4, so it is below 4 and the loop runs at most four times. -/
def rotateWaypoint (wx wy : ℚ) (direction : Option Char) (degrees : ℚ) : ℚ × ℚ :=
  let turns := jsRem (degrees / 90) 4
  rotateLoop direction turns 4 0 (wx, wy)

/-- The read `headings[headingIndex]` of the array ["E", "S", "W", "N"]; any
index other than 0, 1, 2, 3 reads `undefined`. -/
def headings (headingIndex : ℚ) : Option Char :=
  if headingIndex = 0 then some 'E'
  else if headingIndex = 1 then some 'S'
  else if headingIndex = 2 then some 'W'
  else if headingIndex = 3 then some 'N'
  else none

/-- The variables of the loop of `solvePart1`. -/
structure Ship1 where
  headingIndex : ℚ
  shipX : ℚ
  shipY : ℚ

/-- The branch `action === "F"` of `solvePart1`: the ship moves along
`headings[headingIndex]`; the last `else` also takes an `undefined` heading. -/
def forward1 (s : Ship1) (value : ℚ) : Ship1 :=
  let heading := headings s.headingIndex
  if heading = some 'N' then ⟨s.headingIndex, s.shipX, s.shipY + value⟩
  else if heading = some 'S' then ⟨s.headingIndex, s.shipX, s.shipY - value⟩
  else if heading = some 'E' then ⟨s.headingIndex, s.shipX + value, s.shipY⟩
  else ⟨s.headingIndex, s.shipX - value, s.shipY⟩

/-- The body of the loop of `solvePart1` for one instruction. -/
def step1 (s : Ship1) (ins : Instruction) : Run Ship1 :=
  if ins.action = some 'N' then Run.done ⟨s.headingIndex, s.shipX, s.shipY + ins.value⟩
  else if ins.action = some 'S' then Run.done ⟨s.headingIndex, s.shipX, s.shipY - ins.value⟩
  else if ins.action = some 'E' then Run.done ⟨s.headingIndex, s.shipX + ins.value, s.shipY⟩
  else if ins.action = some 'W' then Run.done ⟨s.headingIndex, s.shipX - ins.value, s.shipY⟩
  else if ins.action = some 'L' then
    Run.done ⟨jsRem (s.headingIndex - ins.value / 90 + 4) 4, s.shipX, s.shipY⟩
  else if ins.action = some 'R' then
    Run.done ⟨jsRem (s.headingIndex + ins.value / 90) 4, s.shipX, s.shipY⟩
  else if ins.action = some 'F' then Run.done (forward1 s ins.value)
  else Run.threw

/-- The loop of `solvePart1` over the instructions, from the state `s`. -/
def run1 : List Instruction → Ship1 → Run Ship1
  | [], s => Run.done s
  | ins :: rest, s =>
    match step1 s ins with
    | Run.done s' => run1 rest s'
    | Run.threw => Run.threw
    | Run.timeout => Run.timeout

/-- `solvePart1(instructions)`. -/
def solvePart1 (instructions : List Instruction) : Run ℚ :=
  (run1 instructions ⟨0, 0, 0⟩).map (fun s => manhattanDistance s.shipX s.shipY)

/-- The variables of the loop of `solvePart2`. -/
structure Ship2 where
  shipX : ℚ
  shipY : ℚ
  waypointX : ℚ
  waypointY : ℚ

/-- The branch `action === "L" || action === "R"` of `solvePart2`. -/
def turn2 (s : Ship2) (ins : Instruction) : Ship2 :=
  let w := rotateWaypoint s.waypointX s.waypointY ins.action ins.value
  ⟨s.shipX, s.shipY, w.1, w.2⟩

/-- The body of the loop of `solvePart2` for one instruction. -/
def step2 (s : Ship2) (ins : Instruction) : Run Ship2 :=
  if ins.action = some 'N' then Run.done ⟨s.shipX, s.shipY, s.waypointX, s.waypointY + ins.value⟩
  else if ins.action = some 'S' then
    Run.done ⟨s.shipX, s.shipY, s.waypointX, s.waypointY - ins.value⟩
  else if ins.action = some 'E' then
    Run.done ⟨s.shipX, s.shipY, s.waypointX + ins.value, s.waypointY⟩
  else if ins.action = some 'W' then
    Run.done ⟨s.shipX, s.shipY, s.waypointX - ins.value, s.waypointY⟩
  else if ins.action = some 'L' ∨ ins.action = some 'R' then Run.done (turn2 s ins)
  else if ins.action = some 'F' then
    Run.done ⟨s.shipX + s.waypointX * ins.value, s.shipY + s.waypointY * ins.value,
      s.waypointX, s.waypointY⟩
  else Run.threw

/-- The loop of `solvePart2` over the instructions, from the state `s`. -/
def run2 : List Instruction → Ship2 → Run Ship2
  | [], s => Run.done s
  | ins :: rest, s =>
    match step2 s ins with
    | Run.done s' => run2 rest s'
    | Run.threw => Run.threw
    | Run.timeout => Run.timeout

/-- `solvePart2(instructions)`. -/
def solvePart2 (instructions : List Instruction) : Run ℚ :=
  (run2 instructions ⟨0, 0, 10, 1⟩).map (fun s => manhattanDistance s.shipX s.shipY)

/-- An action code the loops know: one of N, S, E, W, L, R, F. -/
def KnownAction (action : Option Char) : Prop :=
  action = some 'N' ∨ action = some 'S' ∨ action = some 'E' ∨ action = some 'W' ∨
    action = some 'L' ∨ action = some 'R' ∨ action = some 'F'

instance (action : Option Char) : Decidable (KnownAction action) := by
  unfold KnownAction; infer_instance

/-- The heading index of `solvePart1` after the instructions, when none raised. -/
def headingAfter (instructions : List Instruction) : Run ℚ :=
  (run1 instructions ⟨0, 0, 0⟩).map (fun s => s.headingIndex)

/-- The instructions F10, N3, F7, R90, F11 of the published example. -/
def exampleInstructions : List Instruction :=
  [⟨some 'F', 10⟩, ⟨some 'N', 3⟩, ⟨some 'F', 7⟩, ⟨some 'R', 90⟩, ⟨some 'F', 11⟩]

end Day12

namespace Day13

/-- One entry of the comma-split schedule line: the text "x", or a decimal
integer text, kept as the value `BigInt(token)` gives it. -/
inductive Token where
  | x
  | bus (id : Int)
  deriving DecidableEq, Repr

/-- The `while (y !== 0n)` loop of `gcdBigInt`; `%` on BigInt truncates. -/
def gcdLoop : Nat → Int → Int → Int
  | 0, x, _ => x
  | fuel + 1, x, y => if y = 0 then x else gcdLoop fuel y (Int.tmod x y)

/-- `gcdBigInt(a, b)`. The loop strictly shrinks `y`, so `|b| + 1` rounds
always reach `y = 0`. -/
def gcdBigInt (a b : Int) : Int :=
  let x := if a < 0 then -a else a
  let y := if b < 0 then -b else b
  gcdLoop (y.natAbs + 1) x y

/-- `lcmBigInt(a, b) = (a / gcdBigInt(a, b)) * b`; BigInt division truncates
and raises a RangeError on a zero divisor. -/
def lcmBigInt (a b : Int) : Run Int :=
  if gcdBigInt a b = 0 then Run.threw else Run.done (Int.tdiv a (gcdBigInt a b) * b)

/-- The inner loop `while ((time + offsetBig) % busId !== 0n) time += step`,
with a bound on its iterations. `%` raises a RangeError when `busId` is 0. -/
def alignLoop : Nat → Int → Int → Int → Int → Run Int
  | 0, _, _, _, _ => Run.timeout
  | fuel + 1, time, step, offsetBig, busId =>
    if busId = 0 then Run.threw
    else if Int.tmod (time + offsetBig) busId ≠ 0 then
      alignLoop fuel (time + step) step offsetBig busId
    else Run.done time

/-- The `for (offset ...)` loop of `solvePart2` over the tokens from `offset`
on, carrying `time` and `step`. -/
def solveLoop (fuel : Nat) : List Token → Nat → Int → Int → Run Int
  | [], _, time, _ => Run.done time
  | Token.x :: rest, offset, time, step => solveLoop fuel rest (offset + 1) time step
  | Token.bus busId :: rest, offset, time, step =>
    match alignLoop fuel time step (offset : Int) busId with
    | Run.done t =>
      match lcmBigInt step busId with
      | Run.done s => solveLoop fuel rest (offset + 1) t s
      | Run.threw => Run.threw
      | Run.timeout => Run.timeout
    | Run.threw => Run.threw
    | Run.timeout => Run.timeout

/-- `solvePart2(scheduleTokens)`: starts from `time = 0n`, `step = 1n` and
returns `time.toString()`. `fuel` bounds each run of the inner loop. -/
def solvePart2 (fuel : Nat) (scheduleTokens : List Token) : Run String :=
  (solveLoop fuel scheduleTokens 0 0 1).map toString

/-- The periods of the active slots, in schedule order. -/
def activePeriods : List Token → List Int
  | [] => []
  | Token.x :: rest => activePeriods rest
  | Token.bus p :: rest => p :: activePeriods rest

/-- The congruences of the slots of `tokens`, the first one standing at
offset `offset`: every active period divides `t` plus its offset. -/
def Aligned : List Token → Nat → Int → Prop
  | [], _, _ => True
  | Token.x :: rest, offset, t => Aligned rest (offset + 1) t
  | Token.bus p :: rest, offset, t => p ∣ t + (offset : Int) ∧ Aligned rest (offset + 1) t

/-- The `for (const busId of busIds)` loop of `solvePart1`, carrying `bestBusId`
(`none` stands for `null`) and `bestWait`. -/
def part1Loop (earliestTimestamp : JsNumber) :
    List JsNumber → Option JsNumber → JsNumber → Option JsNumber × JsNumber
  | [], bestBusId, bestWait => (bestBusId, bestWait)
  | busId :: rest, bestBusId, bestWait =>
    let wait := (busId.sub (earliestTimestamp.rem busId)).rem busId
    if wait.lt bestWait then part1Loop earliestTimestamp rest (some busId) wait
    else part1Loop earliestTimestamp rest bestBusId bestWait

/-- `solvePart1(earliestTimestamp, busIds)`: the product `bestBusId * bestWait`,
in which a `bestBusId` that is still `null` counts as 0. -/
def solvePart1 (earliestTimestamp : JsNumber) (busIds : List JsNumber) : JsNumber :=
  match part1Loop earliestTimestamp busIds none (JsNumber.infinite false) with
  | (some bestBusId, bestWait) => bestBusId.mul bestWait
  | (none, bestWait) => (JsNumber.finite 0).mul bestWait

/-- The wait of the specification for bus `b` at time `t`: `(b - (t mod b)) mod b`. -/
def waitFor (t b : Int) : Int := (b - t % b) % b

/-- The variables `time` and `step` of `solvePart2` after the slots `tokens`,
the first one standing at offset `offset`, when started from `time`, `step`. -/
def loopState (fuel : Nat) : List Token → Nat → Int → Int → Run (Int × Int)
  | [], _, time, step => Run.done (time, step)
  | Token.x :: rest, offset, time, step => loopState fuel rest (offset + 1) time step
  | Token.bus busId :: rest, offset, time, step =>
    match alignLoop fuel time step (offset : Int) busId with
    | Run.done t =>
      match lcmBigInt step busId with
      | Run.done s => loopState fuel rest (offset + 1) t s
      | Run.threw => Run.threw
      | Run.timeout => Run.timeout
    | Run.threw => Run.threw
    | Run.timeout => Run.timeout

/-- The least common multiple of a list of integers. -/
def lcmList : List Int → Nat
  | [] => 1
  | p :: rest => Int.lcm p (lcmList rest : Int)

/-- The schedule 7,13,x,x,59,x,31,19 of the published example. -/
def exampleTokens : List Token :=
  [Token.bus 7, Token.bus 13, Token.x, Token.x, Token.bus 59, Token.x, Token.bus 31,
    Token.bus 19]

end Day13

/-! ## Theorems -/

namespace JsNumber

theorem ofInt_exact (x : Int) (h : x.natAbs < 2 ^ 53) : ofInt x = finite x := by
  unfold ofInt
  rw [if_pos h]

theorem ofInt_exact_le (x : Int) (h : x.natAbs ≤ 2 ^ 53) : ofInt x = finite x := by
  rcases Nat.lt_or_eq_of_le h with h | h
  · exact ofInt_exact x h
  · have hx : x = 9007199254740992 ∨ x = -9007199254740992 := by
      norm_num at h
      omega
    rcases hx with rfl | rfl <;> rfl

theorem add_finite (a b : Int) (h : (a + b).natAbs < 2 ^ 53) :
    (finite a).add (finite b) = finite (a + b) := by
  simp only [add]
  exact ofInt_exact _ h

theorem add_finite_le (a b : Int) (h : (a + b).natAbs ≤ 2 ^ 53) :
    (finite a).add (finite b) = finite (a + b) := by
  simp only [add]
  exact ofInt_exact_le _ h

theorem sub_finite (a b : Int) (h : (a - b).natAbs < 2 ^ 53) :
    (finite a).sub (finite b) = finite (a - b) := by
  simp only [sub, neg, add]
  rw [← sub_eq_add_neg]
  exact ofInt_exact _ h

theorem mul_finite (a b : Int) (h : (a * b).natAbs < 2 ^ 53) :
    (finite a).mul (finite b) = finite (a * b) := by
  simp only [mul]
  exact ofInt_exact _ h

theorem natAbs_mul_le (a b : Int) (A B : Nat) (ha : a.natAbs ≤ A) (hb : b.natAbs ≤ B) :
    (a * b).natAbs ≤ A * B := by
  rw [Int.natAbs_mul]
  exact Nat.mul_le_mul ha hb

end JsNumber

namespace Day01

theorem pairLoop_some (rest : List JsNumber) :
    ∀ (seen : List JsNumber) (v : JsNumber), pairLoop rest seen = some v →
      ∃ (j : Nat) (n : JsNumber), rest[j]? = some n ∧ v = n.mul (TARGET_SUM.sub n) ∧
        (TARGET_SUM.sub n ∈ seen ∨ ∃ i, i < j ∧ rest[i]? = some (TARGET_SUM.sub n)) := by
  induction rest with
  | nil => intro seen v h; simp [pairLoop] at h
  | cons n rest ih =>
    intro seen v h
    simp only [pairLoop] at h
    split at h
    · rename_i hmem
      refine ⟨0, n, by simp, ?_, Or.inl hmem⟩
      simpa using h.symm
    · obtain ⟨j, second, hj, hv, hsrc⟩ := ih (n :: seen) v h
      refine ⟨j + 1, second, by simpa using hj, hv, ?_⟩
      rcases hsrc with hmem | ⟨i, hi, hget⟩
      · rcases List.mem_cons.mp hmem with heq | hmem
        · exact Or.inr ⟨0, by omega, by simp [heq]⟩
        · exact Or.inl hmem
      · exact Or.inr ⟨i + 1, by omega, by simpa using hget⟩

theorem pairLoop_none (rest : List JsNumber) :
    ∀ (seen : List JsNumber), pairLoop rest seen = none →
      ∀ (j : Nat) (n : JsNumber), rest[j]? = some n →
        TARGET_SUM.sub n ∉ seen ∧ ∀ i, i < j → rest[i]? ≠ some (TARGET_SUM.sub n) := by
  induction rest with
  | nil => intro seen _ j second hj; simp at hj
  | cons n rest ih =>
    intro seen h j second hj
    simp only [pairLoop] at h
    split at h
    · simp at h
    · rename_i hnot
      cases j with
      | zero =>
        simp at hj
        subst hj
        exact ⟨hnot, fun i hi => absurd hi (Nat.not_lt_zero i)⟩
      | succ j =>
        have hj' : rest[j]? = some second := by simpa using hj
        obtain ⟨hns, hearlier⟩ := ih (n :: seen) h j second hj'
        refine ⟨fun hmem => hns (List.mem_cons_of_mem _ hmem), ?_⟩
        intro i hi
        cases i with
        | zero =>
          intro h0
          simp at h0
          exact hns (by simp [h0])
        | succ i =>
          intro hget
          exact hearlier i (by omega) (by simpa using hget)

theorem innerLoop_some (first rt : JsNumber) (rest : List JsNumber) :
    ∀ (seen : List JsNumber) (v : JsNumber), innerLoop first rt rest seen = some v →
      ∃ (j : Nat) (second : JsNumber), rest[j]? = some second ∧
        v = (first.mul second).mul (rt.sub second) ∧
        (rt.sub second ∈ seen ∨ ∃ i, i < j ∧ rest[i]? = some (rt.sub second)) := by
  induction rest with
  | nil => intro seen v h; simp [innerLoop] at h
  | cons n rest ih =>
    intro seen v h
    simp only [innerLoop] at h
    split at h
    · rename_i hmem
      refine ⟨0, n, by simp, ?_, Or.inl hmem⟩
      simpa using h.symm
    · obtain ⟨j, second, hj, hv, hsrc⟩ := ih (n :: seen) v h
      refine ⟨j + 1, second, by simpa using hj, hv, ?_⟩
      rcases hsrc with hmem | ⟨i, hi, hget⟩
      · rcases List.mem_cons.mp hmem with heq | hmem
        · exact Or.inr ⟨0, by omega, by simp [heq]⟩
        · exact Or.inl hmem
      · exact Or.inr ⟨i + 1, by omega, by simpa using hget⟩

theorem innerLoop_none (first rt : JsNumber) (rest : List JsNumber) :
    ∀ (seen : List JsNumber), innerLoop first rt rest seen = none →
      ∀ (j : Nat) (second : JsNumber), rest[j]? = some second →
        rt.sub second ∉ seen ∧ ∀ i, i < j → rest[i]? ≠ some (rt.sub second) := by
  induction rest with
  | nil => intro seen _ j second hj; simp at hj
  | cons n rest ih =>
    intro seen h j second hj
    simp only [innerLoop] at h
    split at h
    · simp at h
    · rename_i hnot
      cases j with
      | zero =>
        simp at hj
        subst hj
        exact ⟨hnot, fun i hi => absurd hi (Nat.not_lt_zero i)⟩
      | succ j =>
        have hj' : rest[j]? = some second := by simpa using hj
        obtain ⟨hns, hearlier⟩ := ih (n :: seen) h j second hj'
        refine ⟨fun hmem => hns (List.mem_cons_of_mem _ hmem), ?_⟩
        intro i hi
        cases i with
        | zero =>
          intro h0
          simp at h0
          exact hns (by simp [h0])
        | succ i =>
          intro hget
          exact hearlier i (by omega) (by simpa using hget)

theorem outerLoop_some (numbers : List JsNumber) :
    ∀ (v : JsNumber), outerLoop numbers = some v →
      ∃ (i j k : Nat) (first second : JsNumber), i < j ∧ j < k ∧
        numbers[i]? = some first ∧ numbers[k]? = some second ∧
        numbers[j]? = some ((TARGET_SUM.sub first).sub second) ∧
        v = (first.mul second).mul ((TARGET_SUM.sub first).sub second) := by
  induction numbers with
  | nil => intro v h; simp [outerLoop] at h
  | cons first rest ih =>
    intro v h
    simp only [outerLoop] at h
    split at h
    · rename_i product hin
      obtain ⟨k, second, hk, hv, hsrc⟩ := innerLoop_some first _ rest [] product hin
      rcases hsrc with hmem | ⟨j, hjk, hj⟩
      · simp at hmem
      · simp only [Option.some.injEq] at h
        exact ⟨0, j + 1, k + 1, first, second, by omega, by omega, by simp,
          by simpa using hk, by simpa using hj, by rw [← h, hv]⟩
    · obtain ⟨i, j, k, a, b, hij, hjk, hi, hk, hj, hv⟩ := ih v h
      exact ⟨i + 1, j + 1, k + 1, a, b, by omega, by omega, by simpa using hi,
        by simpa using hk, by simpa using hj, hv⟩

theorem outerLoop_none (numbers : List JsNumber) : outerLoop numbers = none →
    ∀ (i j k : Nat) (first second : JsNumber), i < j → j < k → numbers[i]? = some first →
      numbers[k]? = some second →
      numbers[j]? ≠ some ((TARGET_SUM.sub first).sub second) := by
  induction numbers with
  | nil => intro _ i j k a b _ _ hi; simp at hi
  | cons first rest ih =>
    intro h i j k a b hij hjk hi hk
    simp only [outerLoop] at h
    split at h
    · simp at h
    · rename_i hin
      obtain ⟨j', rfl⟩ : ∃ j', j = j' + 1 := ⟨j - 1, by omega⟩
      obtain ⟨k', rfl⟩ : ∃ k', k = k' + 1 := ⟨k - 1, by omega⟩
      have hk' : rest[k']? = some b := by simpa using hk
      cases i with
      | zero =>
        simp at hi
        subst hi
        have := (innerLoop_none first _ rest [] hin k' b hk').2 j' (by omega)
        simpa using this
      | succ i =>
        have := ih h i j' k' a b (by omega) (by omega) (by simpa using hi) hk'
        simpa using this

theorem getElem?_map_finite (numbers : List Int) (i : Nat) (x : JsNumber)
    (h : (numbers.map JsNumber.finite)[i]? = some x) :
    ∃ a, numbers[i]? = some a ∧ x = JsNumber.finite a := by
  rw [List.getElem?_map] at h
  cases hn : numbers[i]? with
  | none => rw [hn] at h; simp at h
  | some a =>
    rw [hn] at h
    simp only [Option.map_some', Option.some.injEq] at h
    exact ⟨a, rfl, h.symm⟩

theorem target_sub (a : Int) (h : a.natAbs ≤ 2 ^ 52) :
    TARGET_SUM.sub (JsNumber.finite a) = JsNumber.finite (2020 - a) := by
  unfold TARGET_SUM
  apply JsNumber.sub_finite
  norm_num at h ⊢
  omega

theorem target_sub_sub (a b : Int) (ha : a.natAbs ≤ 2 ^ 51) (hb : b.natAbs ≤ 2 ^ 51) :
    (TARGET_SUM.sub (JsNumber.finite a)).sub (JsNumber.finite b)
      = JsNumber.finite (2020 - a - b) := by
  rw [target_sub a (by norm_num at ha ⊢; omega)]
  apply JsNumber.sub_finite
  norm_num at ha hb ⊢
  omega

/-- C4, the claim as written fails: on the list 2^60 + 2048, -2^60 the
difference 2020 - (-2^60) rounds to 2^60 + 2048, so `solvePart1` returns a
product although no two values of the list sum to 2020. -/
theorem solvePart1_rounding_counterexample :
    solvePart1 [JsNumber.finite 1152921504606849024, JsNumber.finite (-1152921504606846976)]
      = some (JsNumber.finite (-1152921504606846976 * 1152921504606849024)) ∧
    ¬ ∃ a ∈ [(1152921504606849024 : Int), -1152921504606846976],
      ∃ b ∈ [(1152921504606849024 : Int), -1152921504606846976], a + b = 2020 := by
  constructor
  · rfl
  · decide

/-- C4, amended: for a list of integers of magnitude at most 2^26, a non-null
result of `solvePart1` is the product of the values at two distinct positions
of the list whose sum is exactly 2020. -/
theorem solvePart1_sound (numbers : List Int) (v : JsNumber)
    (hbound : ∀ n ∈ numbers, n.natAbs ≤ 2 ^ 26)
    (h : solvePart1 (numbers.map JsNumber.finite) = some v) :
    ∃ (i j : Nat) (a b : Int), i ≠ j ∧ numbers[i]? = some a ∧ numbers[j]? = some b ∧
      a + b = 2020 ∧ v = JsNumber.finite (a * b) := by
  obtain ⟨j, n, hj, hv, hsrc⟩ := pairLoop_some _ [] v h
  obtain ⟨b, hb, rfl⟩ := getElem?_map_finite numbers j n hj
  have hbb := hbound b (List.getElem?_mem hb)
  rw [target_sub b (le_trans hbb (by norm_num))] at hv hsrc
  rcases hsrc with hmem | ⟨i, hij, hi⟩
  · simp at hmem
  · obtain ⟨a, ha, heq⟩ := getElem?_map_finite numbers i _ hi
    simp only [JsNumber.finite.injEq] at heq
    refine ⟨i, j, a, b, by omega, ha, hb, by omega, ?_⟩
    rw [hv, JsNumber.mul_finite, ← heq, mul_comm]
    have h1 : (2020 - b).natAbs ≤ 2 ^ 26 + 2020 := by
      norm_num at hbb ⊢
      omega
    have := JsNumber.natAbs_mul_le b (2020 - b) _ _ hbb h1
    exact lt_of_le_of_lt this (by norm_num)

theorem solvePart1_sound_witness :
    ∃ (i j : Nat) (a b : Int), i ≠ j ∧
      [1721, 979, 366, 299, 675, 1456][i]? = some a ∧
      [1721, 979, 366, 299, 675, 1456][j]? = some b ∧
      a + b = 2020 ∧ JsNumber.finite 514579 = JsNumber.finite (a * b) :=
  solvePart1_sound [1721, 979, 366, 299, 675, 1456] (JsNumber.finite 514579) (by decide)
    (by decide)

/-- C5, the claim as written fails: on the list 1, 2^60 + 2048, -2^60 the
difference 2019 - (-2^60) rounds to 2^60 + 2048, so `solvePart2` returns a
product although no three values of the list sum to 2020. -/
theorem solvePart2_rounding_counterexample :
    solvePart2 [JsNumber.finite 1, JsNumber.finite 1152921504606849024,
        JsNumber.finite (-1152921504606846976)]
      = some (JsNumber.finite (-1152921504606846976 * 1152921504606849024)) ∧
    ¬ ∃ a ∈ [(1 : Int), 1152921504606849024, -1152921504606846976],
      ∃ b ∈ [(1 : Int), 1152921504606849024, -1152921504606846976],
      ∃ c ∈ [(1 : Int), 1152921504606849024, -1152921504606846976], a + b + c = 2020 := by
  constructor
  · rfl
  · decide

/-- C5, amended: for a list of integers of magnitude at most 2^17, a non-null
result of `solvePart2` is the product of the values at three pairwise distinct
positions of the list whose sum is exactly 2020. -/
theorem solvePart2_sound (numbers : List Int) (v : JsNumber)
    (hbound : ∀ n ∈ numbers, n.natAbs ≤ 2 ^ 17)
    (h : solvePart2 (numbers.map JsNumber.finite) = some v) :
    ∃ (i j k : Nat) (a b c : Int), i ≠ j ∧ i ≠ k ∧ j ≠ k ∧ numbers[i]? = some a ∧
      numbers[j]? = some b ∧ numbers[k]? = some c ∧ a + b + c = 2020 ∧
      v = JsNumber.finite (a * b * c) := by
  obtain ⟨i, j, k, first, second, hij, hjk, hi, hk, hj, hv⟩ := outerLoop_some _ v h
  obtain ⟨a, ha, rfl⟩ := getElem?_map_finite numbers i first hi
  obtain ⟨c, hc, rfl⟩ := getElem?_map_finite numbers k second hk
  have hba := hbound a (List.getElem?_mem ha)
  have hbc := hbound c (List.getElem?_mem hc)
  rw [target_sub_sub a c (le_trans hba (by norm_num)) (le_trans hbc (by norm_num))] at hv hj
  obtain ⟨b, hb, heq⟩ := getElem?_map_finite numbers j _ hj
  simp only [JsNumber.finite.injEq] at heq
  have hbb := hbound b (List.getElem?_mem hb)
  refine ⟨i, j, k, a, b, c, by omega, by omega, by omega, ha, hb, hc, by omega, ?_⟩
  have h1 := JsNumber.natAbs_mul_le a c _ _ hba hbc
  rw [hv, JsNumber.mul_finite a c (lt_of_le_of_lt h1 (by norm_num)), JsNumber.mul_finite,
    heq]
  · congr 1
    ring
  · rw [heq]
    have h2 := JsNumber.natAbs_mul_le (a * c) b _ _ h1 hbb
    exact lt_of_le_of_lt h2 (by norm_num)

theorem solvePart2_sound_witness :
    ∃ (i j k : Nat) (a b c : Int), i ≠ j ∧ i ≠ k ∧ j ≠ k ∧
      [1721, 979, 366, 299, 675, 1456][i]? = some a ∧
      [1721, 979, 366, 299, 675, 1456][j]? = some b ∧
      [1721, 979, 366, 299, 675, 1456][k]? = some c ∧
      a + b + c = 2020 ∧ JsNumber.finite 241861950 = JsNumber.finite (a * b * c) :=
  solvePart2_sound [1721, 979, 366, 299, 675, 1456] (JsNumber.finite 241861950) (by decide)
    (by decide)

/-- C6, the claim as written fails: on the list 2^60 + 2048, -2^60, 0 both
functions return a number although no two and no three values of the list sum
to 2020. -/
theorem solve_non_null_without_combination_counterexample :
    (solvePart1 [JsNumber.finite 1152921504606849024, JsNumber.finite (-1152921504606846976),
        JsNumber.finite 0] ≠ none ∧
      ¬ ∃ a ∈ [(1152921504606849024 : Int), -1152921504606846976, 0],
        ∃ b ∈ [(1152921504606849024 : Int), -1152921504606846976, 0], a + b = 2020) ∧
    (solvePart2 [JsNumber.finite 1152921504606849024, JsNumber.finite (-1152921504606846976),
        JsNumber.finite 0] ≠ none ∧
      ¬ ∃ a ∈ [(1152921504606849024 : Int), -1152921504606846976, 0],
        ∃ b ∈ [(1152921504606849024 : Int), -1152921504606846976, 0],
        ∃ c ∈ [(1152921504606849024 : Int), -1152921504606846976, 0], a + b + c = 2020) := by
  refine ⟨⟨?_, ?_⟩, ?_, ?_⟩
  · decide
  · decide
  · decide
  · decide

/-- C6, amended: for a list of integers of magnitude at most 2^51,
`solvePart1` returns null exactly when no two distinct positions hold values
summing to 2020, and `solvePart2` returns null exactly when no three pairwise
distinct positions hold values summing to 2020. -/
theorem solve_null_iff_no_combination (numbers : List Int)
    (hbound : ∀ n ∈ numbers, n.natAbs ≤ 2 ^ 51) :
    (solvePart1 (numbers.map JsNumber.finite) = none ↔
      ¬ ∃ (i j : Nat) (a b : Int), i ≠ j ∧ numbers[i]? = some a ∧ numbers[j]? = some b ∧
        a + b = 2020) ∧
    (solvePart2 (numbers.map JsNumber.finite) = none ↔
      ¬ ∃ (i j k : Nat) (a b c : Int), i ≠ j ∧ i ≠ k ∧ j ≠ k ∧ numbers[i]? = some a ∧
        numbers[j]? = some b ∧ numbers[k]? = some c ∧ a + b + c = 2020) := by
  have hmap : ∀ (i : Nat) (a : Int), numbers[i]? = some a →
      (numbers.map JsNumber.finite)[i]? = some (JsNumber.finite a) := by
    intro i a ha
    rw [List.getElem?_map, ha]
    rfl
  constructor
  · constructor
    · intro h
      have key : ∀ (i j : Nat) (a b : Int), i < j → numbers[i]? = some a →
          numbers[j]? = some b → a + b ≠ 2020 := by
        intro i j a b hij hi hj hsum
        have hbb := hbound b (List.getElem?_mem hj)
        apply (pairLoop_none _ [] h j _ (hmap j b hj)).2 i hij
        rw [hmap i a hi, target_sub b (le_trans hbb (by norm_num))]
        congr 2
        omega
      rintro ⟨i, j, a, b, hne, hi, hj, hsum⟩
      rcases Nat.lt_or_gt_of_ne hne with hlt | hgt
      · exact key i j a b hlt hi hj hsum
      · exact key j i b a hgt hj hi (by omega)
    · intro hno
      cases hres : solvePart1 (numbers.map JsNumber.finite) with
      | none => rfl
      | some v =>
        exfalso
        apply hno
        obtain ⟨j, n, hj, -, hsrc⟩ := pairLoop_some _ [] v hres
        obtain ⟨b, hb, rfl⟩ := getElem?_map_finite numbers j n hj
        have hbb := hbound b (List.getElem?_mem hb)
        rw [target_sub b (le_trans hbb (by norm_num))] at hsrc
        rcases hsrc with hmem | ⟨i, hij, hi⟩
        · simp at hmem
        · obtain ⟨a, ha, heq⟩ := getElem?_map_finite numbers i _ hi
          simp only [JsNumber.finite.injEq] at heq
          exact ⟨i, j, a, b, by omega, ha, hb, by omega⟩
  · constructor
    · intro h
      have key : ∀ (i j k : Nat) (a b c : Int), i < j → j < k → numbers[i]? = some a →
          numbers[j]? = some b → numbers[k]? = some c → a + b + c ≠ 2020 := by
        intro i j k a b c hij hjk hi hj hk hsum
        have hba := hbound a (List.getElem?_mem hi)
        have hbc := hbound c (List.getElem?_mem hk)
        apply outerLoop_none _ h i j k _ _ hij hjk (hmap i a hi) (hmap k c hk)
        rw [hmap j b hj, target_sub_sub a c hba hbc]
        congr 2
        omega
      rintro ⟨i, j, k, a, b, c, hij, hik, hjk, hi, hj, hk, hsum⟩
      rcases Nat.lt_or_gt_of_ne hij with h1 | h1 <;>
        rcases Nat.lt_or_gt_of_ne hik with h2 | h2 <;>
        rcases Nat.lt_or_gt_of_ne hjk with h3 | h3
      · exact key i j k a b c h1 h3 hi hj hk hsum
      · exact key i k j a c b h2 h3 hi hk hj (by omega)
      · omega
      · exact key k i j c a b h2 h1 hk hi hj (by omega)
      · exact key j i k b a c h1 h2 hj hi hk (by omega)
      · omega
      · exact key j k i b c a h3 h2 hj hk hi (by omega)
      · exact key k j i c b a h3 h1 hk hj hi (by omega)
    · intro hno
      cases hres : solvePart2 (numbers.map JsNumber.finite) with
      | none => rfl
      | some v =>
        exfalso
        apply hno
        obtain ⟨i, j, k, first, second, hij, hjk, hi, hk, hj, -⟩ := outerLoop_some _ v hres
        obtain ⟨a, ha, rfl⟩ := getElem?_map_finite numbers i first hi
        obtain ⟨c, hc, rfl⟩ := getElem?_map_finite numbers k second hk
        have hba := hbound a (List.getElem?_mem ha)
        have hbc := hbound c (List.getElem?_mem hc)
        rw [target_sub_sub a c hba hbc] at hj
        obtain ⟨b, hb, heq⟩ := getElem?_map_finite numbers j _ hj
        simp only [JsNumber.finite.injEq] at heq
        exact ⟨i, j, k, a, b, c, by omega, by omega, by omega, ha, hb, hc, by omega⟩

theorem solve_null_iff_no_combination_witness :
    (solvePart1 ([1721, 979, 366, 299, 675, 1456].map JsNumber.finite) = none ↔
      ¬ ∃ (i j : Nat) (a b : Int), i ≠ j ∧ [1721, 979, 366, 299, 675, 1456][i]? = some a ∧
        [1721, 979, 366, 299, 675, 1456][j]? = some b ∧ a + b = 2020) ∧
    (solvePart2 ([1721, 979, 366, 299, 675, 1456].map JsNumber.finite) = none ↔
      ¬ ∃ (i j k : Nat) (a b c : Int), i ≠ j ∧ i ≠ k ∧ j ≠ k ∧
        [1721, 979, 366, 299, 675, 1456][i]? = some a ∧
        [1721, 979, 366, 299, 675, 1456][j]? = some b ∧
        [1721, 979, 366, 299, 675, 1456][k]? = some c ∧ a + b + c = 2020) :=
  solve_null_iff_no_combination [1721, 979, 366, 299, 675, 1456] (by decide)

end Day01

namespace Day02

theorem countLoop_eq_count (policyCharacter : Char) (chars : List Char) :
    ∀ count, countLoop policyCharacter chars count = count + chars.count policyCharacter := by
  induction chars with
  | nil => intro count; simp [countLoop]
  | cons ch rest ih =>
    intro count
    unfold countLoop
    by_cases h : ch = policyCharacter
    · subst h
      rw [if_pos rfl, ih, List.count_cons_self]; omega
    · rw [if_neg h, ih, List.count_cons_of_ne (fun e => h e.symm)]

theorem isValidPart1_iff (e : Entry) :
    isValidPart1 e = true ↔ e.firstNumber ≤ e.password.count e.policyCharacter ∧
      e.password.count e.policyCharacter ≤ e.secondNumber := by
  simp [isValidPart1, countLoop_eq_count]

theorem charAtIndex_pred (password : List Char) (n : Nat) (c : Char) :
    charAtIndex password ((n : Int) - 1) = some c ↔ 1 ≤ n ∧ password[n - 1]? = some c := by
  unfold charAtIndex
  by_cases hn : n = 0
  · subst hn; simp
  · have h1 : ¬ ((n : Int) - 1 < 0) := by omega
    have h2 : ((n : Int) - 1).toNat = n - 1 := by omega
    rw [if_neg h1, h2]
    constructor
    · intro h; exact ⟨by omega, h⟩
    · intro h; exact h.2

theorem charAtIndex_beyond (password : List Char) (n : Nat) (c : Char)
    (h : password.length < n) : charAtIndex password ((n : Int) - 1) ≠ some c := by
  intro hc
  obtain ⟨h1, h2⟩ := (charAtIndex_pred password n c).mp hc
  have : n - 1 < password.length := by
    by_contra hge
    rw [List.getElem?_eq_none (by omega)] at h2
    exact absurd h2 (by simp)
  omega

/-- C7, the claim as written fails: the password "a" is shorter than
max(1, 5), yet `isValidPart2` accepts the record (1, 5, 'a', "a"). -/
theorem isValidPart2_shorter_than_max_counterexample :
    (Entry.mk 1 5 'a' ['a']).password.length
        < max (Entry.mk 1 5 'a' ['a']).firstNumber (Entry.mk 1 5 'a' ['a']).secondNumber ∧
      isValidPart2 (Entry.mk 1 5 'a' ['a']) = true := by
  decide

/-- C7, amended: `isValidPart2` is false for every record whose password is
shorter than min(firstNumber, secondNumber); for a password that is only shorter
than max(firstNumber, secondNumber) it is true exactly when the position
min(firstNumber, secondNumber) is at least 1, lies in the password and holds
policyCharacter. -/
theorem isValidPart2_short_password (e : Entry) :
    (e.password.length < min e.firstNumber e.secondNumber → isValidPart2 e = false) ∧
    (e.password.length < max e.firstNumber e.secondNumber →
      (isValidPart2 e = true ↔ 1 ≤ min e.firstNumber e.secondNumber ∧
        e.password[min e.firstNumber e.secondNumber - 1]? = some e.policyCharacter)) := by
  constructor
  · intro h
    have h1 := charAtIndex_beyond e.password e.firstNumber e.policyCharacter
      (lt_of_lt_of_le h (min_le_left _ _))
    have h2 := charAtIndex_beyond e.password e.secondNumber e.policyCharacter
      (lt_of_lt_of_le h (min_le_right _ _))
    simp [isValidPart2, h1, h2]
  · intro h
    rcases le_total e.firstNumber e.secondNumber with hle | hle
    · rw [max_eq_right hle] at h
      rw [min_eq_left hle]
      have h2 := charAtIndex_beyond e.password e.secondNumber e.policyCharacter h
      rw [← charAtIndex_pred]
      simp [isValidPart2, h2]
    · rw [max_eq_left hle] at h
      rw [min_eq_right hle]
      have h1 := charAtIndex_beyond e.password e.firstNumber e.policyCharacter h
      rw [← charAtIndex_pred]
      simp [isValidPart2, h1]

theorem isValidPart2_short_password_witness :
    ((Entry.mk 2 3 'a' ['a']).password.length
        < min (Entry.mk 2 3 'a' ['a']).firstNumber (Entry.mk 2 3 'a' ['a']).secondNumber ∧
      isValidPart2 (Entry.mk 2 3 'a' ['a']) = false) ∧
    ((Entry.mk 1 5 'a' ['a']).password.length
        < max (Entry.mk 1 5 'a' ['a']).firstNumber (Entry.mk 1 5 'a' ['a']).secondNumber ∧
      (isValidPart2 (Entry.mk 1 5 'a' ['a']) = true ↔
        1 ≤ min (Entry.mk 1 5 'a' ['a']).firstNumber (Entry.mk 1 5 'a' ['a']).secondNumber ∧
        (Entry.mk 1 5 'a' ['a']).password[
          min (Entry.mk 1 5 'a' ['a']).firstNumber (Entry.mk 1 5 'a' ['a']).secondNumber - 1]?
            = some (Entry.mk 1 5 'a' ['a']).policyCharacter)) :=
  ⟨⟨by decide, (isValidPart2_short_password (Entry.mk 2 3 'a' ['a'])).1 (by decide)⟩,
   ⟨by decide, (isValidPart2_short_password (Entry.mk 1 5 'a' ['a'])).2 (by decide)⟩⟩

theorem isValidPart1_of_widens (e w : Entry) (hw : Widens e w)
    (h : isValidPart1 e = true) : isValidPart1 w = true := by
  obtain ⟨hc, hp, hlo, hhi⟩ := hw
  rw [isValidPart1_iff] at h ⊢
  rw [hc, hp]
  exact ⟨le_trans hlo h.1, le_trans h.2 hhi⟩

theorem part1_le_of_widens (es ws : List Entry) (h : List.Forall₂ Widens es ws) :
    part1 es ≤ part1 ws := by
  unfold part1
  induction h with
  | nil => simp
  | @cons e w es ws hw _ ih =>
    by_cases hv : isValidPart1 e = true
    · have hv' := isValidPart1_of_widens e w hw hv
      simpa [List.filter_cons, hv, hv'] using ih
    · have hv0 : isValidPart1 e = false := by simpa using hv
      rw [List.filter_cons, hv0]
      simp only [Bool.false_eq_true, if_false]
      refine le_trans ih ?_
      rw [List.filter_cons]
      split <;> simp

/-- C8: `isValidPart1` holds exactly when the number of occurrences of
policyCharacter in password lies in [firstNumber, secondNumber]; it stays true
when the bounds are widened; and the count of valid entries of a list does not
decrease when every entry's bounds are widened. -/
theorem isValidPart1_count_monotone :
    (∀ e : Entry, isValidPart1 e = true ↔
      e.firstNumber ≤ e.password.count e.policyCharacter ∧
        e.password.count e.policyCharacter ≤ e.secondNumber) ∧
    (∀ (e : Entry) (low high : Nat), low ≤ e.firstNumber → e.secondNumber ≤ high →
      isValidPart1 e = true →
      isValidPart1 (Entry.mk low high e.policyCharacter e.password) = true) ∧
    (∀ es ws : List Entry, List.Forall₂ Widens es ws → part1 es ≤ part1 ws) := by
  refine ⟨isValidPart1_iff, ?_, part1_le_of_widens⟩
  intro e low high hlo hhi h
  exact isValidPart1_of_widens e _ ⟨rfl, rfl, hlo, hhi⟩ h

end Day02

namespace Day03

theorem cellAt_tree_iff (mapLines : List (List Char)) (width rightStep downStep k : Nat)
    (hw : 0 < width) :
    cellAt mapLines width (k * downStep) (k * rightStep) = some '#'
      ↔ TreeAtStep mapLines width rightStep downStep k := by
  unfold cellAt TreeAtStep
  cases mapLines[k * downStep]? with
  | none => simp
  | some rowCells => simp [Nat.pos_iff_ne_zero.mp hw]

theorem slopeLoop_forward (mapLines : List (List Char)) (width rightStep downStep : Nat)
    (hw : 0 < width) [DecidablePred (TreeAtStep mapLines width rightStep downStep)] :
    ∀ (k fuel : Nat), (∀ j, j < k → j * downStep < mapLines.length) →
      slopeLoop mapLines width rightStep downStep (fuel + k) 0 0 0
        = slopeLoop mapLines width rightStep downStep fuel (k * downStep) (k * rightStep)
            ((Finset.range k).filter (TreeAtStep mapLines width rightStep downStep)).card := by
  intro k
  induction k with
  | zero => intro fuel _; simp
  | succ k ih =>
    intro fuel hlt
    have hk : k * downStep < mapLines.length := hlt k (Nat.lt_succ_self k)
    rw [show fuel + (k + 1) = (fuel + 1) + k by omega,
      ih (fuel + 1) (fun j hj => hlt j (by omega))]
    conv_lhs => unfold slopeLoop
    rw [if_pos hk, Nat.succ_mul, Nat.succ_mul]
    congr 1
    rw [Finset.range_succ, Finset.filter_insert]
    by_cases ht : TreeAtStep mapLines width rightStep downStep k
    · rw [if_pos ((cellAt_tree_iff mapLines width rightStep downStep k hw).mpr ht), if_pos ht,
        Finset.card_insert_of_not_mem (by simp)]
    · rw [if_neg (fun h => ht ((cellAt_tree_iff mapLines width rightStep downStep k hw).mp h)),
        if_neg ht]

/-- C21: on a non-empty map whose first row has width at least 1, for every
`rightStep` and every `downStep` of 1 or more, `countTreesOnSlope` returns (for
every bound above the height on its loop) the number of steps `k` with
`k * downStep < height` whose cell, at row `k * downStep` and column
`(k * rightStep) mod width`, is '#'; it returns 0 on a map without '#'. -/
theorem countTreesOnSlope_counts (firstLine : List Char) (otherLines : List (List Char))
    (rightStep downStep : Nat) (hw : 0 < firstLine.length) (hd : 1 ≤ downStep) :
    ∃ trees : Finset Nat,
      (∀ k, k ∈ trees ↔ k * downStep < (firstLine :: otherLines).length ∧
        TreeAtStep (firstLine :: otherLines) firstLine.length rightStep downStep k) ∧
      (∀ fuel, (firstLine :: otherLines).length < fuel →
        countTreesOnSlope fuel (firstLine :: otherLines) rightStep downStep
          = Run.done trees.card) ∧
      ((∀ rowCells ∈ firstLine :: otherLines, '#' ∉ rowCells) → trees.card = 0) := by
  classical
  have hex : ∃ n, (firstLine :: otherLines).length ≤ n * downStep :=
    ⟨(firstLine :: otherLines).length, Nat.le_mul_of_pos_right _ hd⟩
  let N := Nat.find hex
  have hN : (firstLine :: otherLines).length ≤ N * downStep := Nat.find_spec hex
  have hbelow : ∀ j, j < N → j * downStep < (firstLine :: otherLines).length := by
    intro j hj
    exact Nat.lt_of_not_le (Nat.find_min hex hj)
  have hNle : N ≤ (firstLine :: otherLines).length :=
    Nat.find_min' hex (Nat.le_mul_of_pos_right _ hd)
  refine ⟨(Finset.range N).filter
    (TreeAtStep (firstLine :: otherLines) firstLine.length rightStep downStep), ?_, ?_, ?_⟩
  · intro k
    rw [Finset.mem_filter, Finset.mem_range]
    constructor
    · rintro ⟨hk, ht⟩
      exact ⟨hbelow k hk, ht⟩
    · rintro ⟨hk, ht⟩
      refine ⟨?_, ht⟩
      by_contra hge
      have : N * downStep ≤ k * downStep := Nat.mul_le_mul_right _ (Nat.le_of_not_lt hge)
      omega
  · intro fuel hfuel
    obtain ⟨f, rfl⟩ : ∃ f, fuel = (f + 1) + N := ⟨fuel - 1 - N, by omega⟩
    unfold countTreesOnSlope
    simp only
    rw [slopeLoop_forward _ _ _ _ hw N (f + 1) hbelow]
    unfold slopeLoop
    rw [if_neg (by omega)]
  · intro hno
    rw [Finset.card_eq_zero, Finset.filter_eq_empty_iff]
    rintro k - ⟨rowCells, hline, hcell⟩
    exact hno rowCells (List.getElem?_mem hline) (List.getElem?_mem hcell)

theorem countTreesOnSlope_counts_witness :
    ∃ trees : Finset Nat,
      (∀ k, k ∈ trees ↔ k * 1 < (['.', '#'] :: [['#', '.'], ['.', '#']]).length ∧
        TreeAtStep (['.', '#'] :: [['#', '.'], ['.', '#']]) ['.', '#'].length 3 1 k) ∧
      (∀ fuel, (['.', '#'] :: [['#', '.'], ['.', '#']]).length < fuel →
        countTreesOnSlope fuel (['.', '#'] :: [['#', '.'], ['.', '#']]) 3 1
          = Run.done trees.card) ∧
      ((∀ rowCells ∈ ['.', '#'] :: [['#', '.'], ['.', '#']], '#' ∉ rowCells) → trees.card = 0) :=
  countTreesOnSlope_counts ['.', '#'] [['#', '.'], ['.', '#']] 3 1 (by decide) (by decide)

end Day03

namespace Day04

theorem hasOwnProperty_iff (passport : Passport) (field : String) :
    hasOwnProperty passport field = true ↔ ∃ value, (field, value) ∈ passport := by
  unfold hasOwnProperty
  rw [List.any_eq_true]
  constructor
  · rintro ⟨⟨k, v⟩, hmem, hk⟩
    have : k = field := by simpa using hk
    subst this
    exact ⟨v, hmem⟩
  · rintro ⟨v, hmem⟩
    exact ⟨(field, v), hmem, by simp⟩

theorem hasAllRequiredFields_iff (passport : Passport) :
    hasAllRequiredFields passport = true ↔
      ∀ field ∈ ["byr", "iyr", "eyr", "hgt", "hcl", "ecl", "pid"],
        ∃ value, (field, value) ∈ passport := by
  unfold hasAllRequiredFields REQUIRED_FIELDS
  rw [List.all_eq_true]
  constructor
  · intro h field hf
    exact (hasOwnProperty_iff passport field).mp (h field hf)
  · intro h field hf
    exact (hasOwnProperty_iff passport field).mpr (h field hf)

theorem isValidYear_iff (value : Option (List Char)) (lo hi : Nat) :
    isValidYear value lo hi = true ↔ DigitsInRange 4 lo hi value := by
  unfold isValidYear DigitsInRange
  cases value with
  | none => simp [toText]
  | some text =>
    simp only [toText, Option.some.injEq, exists_eq_left']
    by_cases h : text.length = 4 ∧ ∀ c ∈ text, isDigit c = true
    · have hb : (decide (text.length = 4) && text.all isDigit) = true := by
        rw [Bool.and_eq_true, List.all_eq_true]
        exact ⟨by simp [h.1], h.2⟩
      simp only [hb, Bool.not_true, Bool.false_eq_true, if_false, Bool.and_eq_true,
        decide_eq_true_eq, ge_iff_le]
      exact ⟨fun hr => ⟨h.1, h.2, hr.1, hr.2⟩, fun hr => ⟨hr.2.2.1, hr.2.2.2⟩⟩
    · have hb : (decide (text.length = 4) && text.all isDigit) = false := by
        rw [Bool.eq_false_iff]
        intro ht
        apply h
        simpa [List.all_eq_true] using ht
      simp only [hb, Bool.not_false, if_true]
      constructor
      · intro hf; exact absurd hf (by simp)
      · rintro ⟨h1, h2, -⟩; exact absurd ⟨h1, h2⟩ h

theorem takeWhile_dropWhile_append (p : Char → Bool) (digits rest : List Char)
    (hd : ∀ c ∈ digits, p c = true) (hr : ∀ c, rest.head? = some c → p c = false) :
    (digits ++ rest).takeWhile p = digits ∧ (digits ++ rest).dropWhile p = rest := by
  induction digits with
  | nil =>
    cases rest with
    | nil => simp
    | cons c rest =>
      have := hr c (by simp)
      simp [List.takeWhile_cons, List.dropWhile_cons, this]
  | cons d digits ih =>
    have hd0 := hd d (List.mem_cons_self _ _)
    have := ih (fun c hc => hd c (List.mem_cons_of_mem _ hc))
    simp [List.takeWhile_cons, List.dropWhile_cons, hd0, this.1, this.2]

theorem matchHeight_append (digits unit : List Char) (hne : digits ≠ [])
    (hd : ∀ c ∈ digits, isDigit c = true) (hu : unit = ['c', 'm'] ∨ unit = ['i', 'n']) :
    matchHeight (digits ++ unit) = some (digits, unit) := by
  have hr : ∀ c, unit.head? = some c → isDigit c = false := by
    intro c hc
    rcases hu with rfl | rfl
    · simp at hc; subst hc; decide
    · simp at hc; subst hc; decide
  obtain ⟨h1, h2⟩ := takeWhile_dropWhile_append isDigit digits unit hd hr
  unfold matchHeight
  simp only [h1, h2]
  rw [if_pos ⟨hne, hu⟩]

theorem matchHeight_some (text amountText unit : List Char)
    (h : matchHeight text = some (amountText, unit)) :
    text = amountText ++ unit ∧ amountText ≠ [] ∧ (∀ c ∈ amountText, isDigit c = true) ∧
      (unit = ['c', 'm'] ∨ unit = ['i', 'n']) := by
  unfold matchHeight at h
  simp only at h
  split at h
  · rename_i hcond
    simp only [Option.some.injEq, Prod.mk.injEq] at h
    obtain ⟨rfl, rfl⟩ := h
    refine ⟨(List.takeWhile_append_dropWhile isDigit text).symm, hcond.1, ?_, hcond.2⟩
    intro c hc
    exact List.mem_takeWhile_imp hc
  · simp at h

theorem isValidHeight_iff (value : Option (List Char)) :
    isValidHeight value = Run.done true ↔ HeightOk value := by
  constructor
  · intro h
    unfold isValidHeight at h
    cases value with
    | none => simp at h
    | some text =>
      simp only at h
      cases hm : matchHeight text with
      | none => simp [hm] at h
      | some pair =>
        obtain ⟨amountText, unit⟩ := pair
        obtain ⟨htext, hne, hdig, hunit⟩ := matchHeight_some text amountText unit hm
        rw [hm] at h
        simp only at h
        refine ⟨amountText, hne, hdig, ?_⟩
        rcases hunit with rfl | rfl
        · left
          simp at h
          exact ⟨by rw [htext], h.1, h.2⟩
        · right
          simp at h
          exact ⟨by rw [htext], h.1, h.2⟩
  · rintro ⟨digits, hne, hdig, h | h⟩
    · obtain ⟨rfl, hlo, hhi⟩ := h
      unfold isValidHeight
      simp only [matchHeight_append digits ['c', 'm'] hne hdig (Or.inl rfl)]
      simp [hlo, hhi]
    · obtain ⟨rfl, hlo, hhi⟩ := h
      unfold isValidHeight
      simp only [matchHeight_append digits ['i', 'n'] hne hdig (Or.inr rfl)]
      simp [hlo, hhi]

theorem isValidHairColor_iff (value : Option (List Char)) :
    isValidHairColor value = true ↔ HairColorOk value := by
  unfold isValidHairColor HairColorOk
  cases value with
  | none =>
    simp only [toText]
    constructor
    · intro h; exact absurd h (by decide)
    · rintro ⟨rest, h, -⟩; exact absurd h (by simp)
  | some text =>
    simp only [toText]
    constructor
    · intro h
      split at h
      · rename_i rest
        simp only [Bool.and_eq_true, decide_eq_true_eq, List.all_eq_true] at h
        exact ⟨rest, rfl, h.1, h.2⟩
      · exact absurd h (by simp)
    · rintro ⟨rest, hv, hlen, hall⟩
      simp only [Option.some.injEq] at hv
      subst hv
      simp only [Bool.and_eq_true, decide_eq_true_eq, List.all_eq_true]
      exact ⟨hlen, hall⟩

theorem isValidEyeColor_iff (value : Option (List Char)) :
    isValidEyeColor value = true ↔ EyeColorOk value := by
  unfold isValidEyeColor EyeColorOk
  cases value with
  | none => simp
  | some text =>
    simp only [List.contains_eq_any_beq, List.any_eq_true, beq_iff_eq, Option.some.injEq]
    constructor
    · rintro ⟨c, hc, rfl⟩
      simp only [List.mem_cons, List.mem_singleton, List.not_mem_nil, or_false] at hc
      rcases hc with rfl | rfl | rfl | rfl | rfl | rfl | rfl
      · exact ⟨"amb", by simp, rfl⟩
      · exact ⟨"blu", by simp, rfl⟩
      · exact ⟨"brn", by simp, rfl⟩
      · exact ⟨"gry", by simp, rfl⟩
      · exact ⟨"grn", by simp, rfl⟩
      · exact ⟨"hzl", by simp, rfl⟩
      · exact ⟨"oth", by simp, rfl⟩
    · rintro ⟨code, hc, rfl⟩
      simp only [List.mem_cons, List.mem_singleton, List.not_mem_nil, or_false] at hc
      rcases hc with rfl | rfl | rfl | rfl | rfl | rfl | rfl <;>
        exact ⟨_, by simp, rfl⟩

theorem isValidPassportId_iff (value : Option (List Char)) :
    isValidPassportId value = true ↔ PassportIdOk value := by
  unfold isValidPassportId PassportIdOk
  cases value with
  | none =>
    simp only [toText]
    constructor
    · intro h; exact absurd h (by decide)
    · rintro ⟨text, h, -⟩; exact absurd h (by simp)
  | some text =>
    simp [toText, List.all_eq_true]

theorem isStrictlyValid_true_iff (passport : Passport) :
    isStrictlyValid passport = Run.done true ↔ StrictSpec passport := by
  unfold StrictSpec
  rw [← hasAllRequiredFields_iff, ← isValidYear_iff, ← isValidYear_iff, ← isValidYear_iff,
    ← isValidHeight_iff, ← isValidHairColor_iff, ← isValidEyeColor_iff, ← isValidPassportId_iff]
  unfold isStrictlyValid
  cases hasAllRequiredFields passport
  · simp
  cases isValidYear (getField passport "byr") 1920 2002
  · simp
  cases isValidYear (getField passport "iyr") 2010 2020
  · simp
  cases isValidYear (getField passport "eyr") 2020 2030
  · simp
  cases isValidHeight (getField passport "hgt") with
  | threw => simp
  | timeout => simp
  | done b =>
    cases b <;> cases isValidHairColor (getField passport "hcl") <;>
      cases isValidEyeColor (getField passport "ecl") <;> simp

/-- C9: `isStrictlyValid` returns true exactly when all seven required keys are
present and byr, iyr, eyr, hgt, hcl, ecl, pid each pass their rule; a passport
that lacks a required key gets false whatever its other fields are. -/
theorem isStrictlyValid_iff_spec :
    (∀ passport : Passport, isStrictlyValid passport = Run.done true ↔ StrictSpec passport) ∧
    (∀ (passport : Passport) (field : String), field ∈ REQUIRED_FIELDS →
      (∀ value, (field, value) ∉ passport) → isStrictlyValid passport = Run.done false) := by
  refine ⟨isStrictlyValid_true_iff, ?_⟩
  intro passport field hf hmissing
  have hnot : hasAllRequiredFields passport = false := by
    rw [Bool.eq_false_iff]
    intro h
    obtain ⟨value, hv⟩ := (hasAllRequiredFields_iff passport).mp h field hf
    exact hmissing value hv
  simp [isStrictlyValid, hnot]

theorem isStrictlyValid_iff_spec_witness :
    isStrictlyValid [("hcl", some "#623a2f".toList), ("byr", some "1980".toList),
        ("iyr", some "2012".toList), ("eyr", some "2030".toList), ("hgt", some "74in".toList),
        ("ecl", some "grn".toList)] = Run.done false :=
  isStrictlyValid_iff_spec.2 _ "pid" (by decide) (by simp)

end Day04

namespace Day05

theorem foldl_bits_acc (g : Char → Int) (l : List Char) : ∀ acc : Int,
    l.foldl (fun a c => 2 * a + g c) acc
      = acc * 2 ^ l.length + l.foldl (fun a c => 2 * a + g c) 0 := by
  induction l with
  | nil => intro acc; simp
  | cons c l ih =>
    intro acc
    simp only [List.foldl_cons, List.length_cons]
    rw [ih (2 * acc + g c), ih (2 * 0 + g c)]
    ring

theorem foldl_bits_congr (g h : Char → Int) (l : List Char) (hgh : ∀ c ∈ l, g c = h c) :
    ∀ acc : Int, l.foldl (fun a c => 2 * a + g c) acc = l.foldl (fun a c => 2 * a + h c) acc := by
  induction l with
  | nil => intro acc; rfl
  | cons c l ih =>
    intro acc
    simp only [List.foldl_cons]
    rw [hgh c (List.mem_cons_self _ _)]
    exact ih (fun d hd => hgh d (List.mem_cons_of_mem _ hd)) _

theorem binaryRead_cons (one c : Char) (l : List Char) :
    binaryRead one (c :: l) = (if c = one then 1 else 0) * 2 ^ l.length + binaryRead one l := by
  unfold binaryRead
  simp only [List.foldl_cons]
  rw [foldl_bits_acc]
  simp

theorem binaryRead_bounds (one : Char) (l : List Char) :
    0 ≤ binaryRead one l ∧ binaryRead one l < 2 ^ l.length := by
  induction l with
  | nil => simp [binaryRead]
  | cons c l ih =>
    rw [binaryRead_cons, List.length_cons, pow_succ]
    have hp : (0 : Int) < 2 ^ l.length := by positivity
    split <;> constructor <;> linarith [ih.1, ih.2]

theorem binaryRead_injective (zero one : Char) (hne : zero ≠ one) (l1 : List Char) :
    ∀ l2 : List Char, l1.length = l2.length → (∀ c ∈ l1, c = zero ∨ c = one) →
      (∀ c ∈ l2, c = zero ∨ c = one) → binaryRead one l1 = binaryRead one l2 → l1 = l2 := by
  induction l1 with
  | nil =>
    intro l2 hlen _ _ _
    exact (List.length_eq_zero.mp hlen.symm).symm
  | cons c1 l1 ih =>
    intro l2 hlen h1 h2 heq
    cases l2 with
    | nil => simp at hlen
    | cons c2 l2 =>
      have hlen' : l1.length = l2.length := by simpa using hlen
      rw [binaryRead_cons, binaryRead_cons, hlen'] at heq
      have b1 := binaryRead_bounds one l1
      have b2 := binaryRead_bounds one l2
      rw [hlen'] at b1
      have hc1 := h1 c1 (List.mem_cons_self _ _)
      have hc2 := h2 c2 (List.mem_cons_self _ _)
      generalize (2 : Int) ^ l2.length = P at heq b1 b2
      have hcv : c1 = c2 ∧ binaryRead one l1 = binaryRead one l2 := by
        rcases hc1 with rfl | rfl <;> rcases hc2 with rfl | rfl
        · refine ⟨rfl, ?_⟩; simp only [if_neg hne] at heq; linarith
        · exfalso; simp only [if_neg hne, if_true] at heq; linarith [b1.1, b1.2, b2.1, b2.2]
        · exfalso; simp only [if_neg hne, if_true] at heq; linarith [b1.1, b1.2, b2.1, b2.2]
        · refine ⟨rfl, ?_⟩; simp only [if_true] at heq; linarith
      rw [hcv.1, ih l2 hlen' (fun c hc => h1 c (List.mem_cons_of_mem _ hc))
        (fun c hc => h2 c (List.mem_cons_of_mem _ hc)) hcv.2]

theorem binaryRead_surjective (zero one : Char) (hne : zero ≠ one) (k : Nat) :
    ∀ n : Int, 0 ≤ n → n < 2 ^ k →
      ∃ l : List Char, l.length = k ∧ (∀ c ∈ l, c = zero ∨ c = one) ∧ binaryRead one l = n := by
  induction k with
  | zero =>
    intro n h0 h1
    refine ⟨[], rfl, by simp, ?_⟩
    simp [binaryRead]
    simp at h1
    omega
  | succ k ih =>
    intro n h0 h1
    rw [pow_succ] at h1
    obtain ⟨l, hlen, hmem, hval⟩ := ih (n / 2) (by omega) (by omega)
    by_cases hodd : n % 2 = 1
    · refine ⟨l ++ [one], by simp [hlen], ?_, ?_⟩
      · intro c hc
        rcases List.mem_append.mp hc with h | h
        · exact hmem c h
        · right; simpa using h
      · unfold binaryRead at hval ⊢
        rw [List.foldl_append, hval]
        simp
        omega
    · refine ⟨l ++ [zero], by simp [hlen], ?_, ?_⟩
      · intro c hc
        rcases List.mem_append.mp hc with h | h
        · exact hmem c h
        · left; simpa using h
      · unfold binaryRead at hval ⊢
        rw [List.foldl_append, hval]
        simp [hne]
        omega

theorem parseIntRadix2_binary (s : List Char) (hne : s ≠ [])
    (hbits : ∀ c ∈ s, c = '0' ∨ c = '1') : parseIntRadix2 s = some (binaryDigitsValue s) := by
  obtain ⟨c, rest, rfl⟩ := List.exists_cons_of_ne_nil hne
  have hc := hbits c (List.mem_cons_self _ _)
  have hws : isStrWhiteSpace c = false := by
    rcases hc with rfl | rfl <;> decide
  have hminus : c ≠ '-' := by rcases hc with rfl | rfl <;> decide
  have hplus : c ≠ '+' := by rcases hc with rfl | rfl <;> decide
  have htake : (c :: rest).takeWhile (fun c => c = '0' || c = '1') = c :: rest := by
    rw [List.takeWhile_eq_self_iff]
    intro d hd
    rcases hbits d hd with rfl | rfl <;> simp
  unfold parseIntRadix2
  have hdrop : (c :: rest).dropWhile isStrWhiteSpace = c :: rest := by
    simp [List.dropWhile_cons, hws]
  simp only [hdrop]
  have hsign : (match c :: rest with | '-' :: _ => (-1 : Int) | _ => 1) = 1 := by
    split
    · rename_i heq; simp at heq; exact absurd heq.1 hminus
    · rfl
  have hbody : (match c :: rest with
      | '-' :: r => r
      | '+' :: r => r
      | _ => c :: rest) = c :: rest := by
    split
    · rename_i heq; simp at heq; exact absurd heq.1 hminus
    · rename_i heq; simp at heq; exact absurd heq.1 hplus
    · rfl
  rw [hsign, hbody, htake]
  simp

theorem seatIdFromCode_valid (code : List Char) (h : ValidCode code) :
    seatIdFromCode code = some (rowOf code * 8 + columnOf code) := by
  obtain ⟨hlen, hrow, hcol⟩ := h
  have hall : ∀ c ∈ code, c = 'F' ∨ c = 'B' ∨ c = 'L' ∨ c = 'R' := by
    intro c hc
    rw [← List.take_append_drop 7 code] at hc
    rcases List.mem_append.mp hc with h | h
    · rcases hrow c h with rfl | rfl <;> simp
    · rcases hcol c h with rfl | rfl <;> simp
  unfold seatIdFromCode
  rw [parseIntRadix2_binary]
  · congr 1
    unfold binaryDigitsValue rowOf columnOf binaryRead
    rw [List.foldl_map]
    conv_lhs => rw [← List.take_append_drop 7 code]
    rw [List.foldl_append, foldl_bits_acc]
    have hd : (code.drop 7).length = 3 := by simp [hlen]
    rw [hd]
    congr 1
    · congr 1
      apply foldl_bits_congr (fun c => if replaceLetter c = '1' then 1 else 0)
      intro c hc
      rcases hrow c hc with rfl | rfl <;> decide
    · apply foldl_bits_congr (fun c => if replaceLetter c = '1' then 1 else 0)
      intro c hc
      rcases hcol c hc with rfl | rfl <;> decide
  · intro he
    have := congrArg List.length he
    simp [hlen] at this
  · intro c hc
    obtain ⟨d, hd, rfl⟩ := List.mem_map.mp hc
    rcases hall d hd with rfl | rfl | rfl | rfl <;> decide

/-- C10: on valid boarding-pass codes `seatIdFromCode` equals row * 8 + column,
takes its values in 0..1023, is injective, and reaches every integer of 0..1023. -/
theorem seatIdFromCode_bijection :
    (∀ code, ValidCode code →
      seatIdFromCode code = some (rowOf code * 8 + columnOf code) ∧
        0 ≤ rowOf code * 8 + columnOf code ∧ rowOf code * 8 + columnOf code ≤ 1023) ∧
    (∀ c1 c2, ValidCode c1 → ValidCode c2 → seatIdFromCode c1 = seatIdFromCode c2 → c1 = c2) ∧
    (∀ n : Int, 0 ≤ n → n ≤ 1023 → ∃ code, ValidCode code ∧ seatIdFromCode code = some n) := by
  have hbound : ∀ code, ValidCode code →
      (0 ≤ rowOf code ∧ rowOf code < 128) ∧ (0 ≤ columnOf code ∧ columnOf code < 8) := by
    intro code h
    have hr := binaryRead_bounds 'B' (code.take 7)
    have hc := binaryRead_bounds 'R' (code.drop 7)
    have h7 : (code.take 7).length = 7 := by simp [h.1]
    have h3 : (code.drop 7).length = 3 := by simp [h.1]
    rw [h7] at hr
    rw [h3] at hc
    exact ⟨⟨hr.1, by simpa [rowOf] using hr.2⟩, ⟨hc.1, by simpa [columnOf] using hc.2⟩⟩
  refine ⟨?_, ?_, ?_⟩
  · intro code h
    obtain ⟨⟨r0, r1⟩, ⟨c0, c1⟩⟩ := hbound code h
    exact ⟨seatIdFromCode_valid code h, by omega, by omega⟩
  · intro c1 c2 h1 h2 heq
    rw [seatIdFromCode_valid c1 h1, seatIdFromCode_valid c2 h2] at heq
    have heq' : rowOf c1 * 8 + columnOf c1 = rowOf c2 * 8 + columnOf c2 := by simpa using heq
    obtain ⟨⟨_, _⟩, ⟨_, _⟩⟩ := hbound c1 h1
    obtain ⟨⟨_, _⟩, ⟨_, _⟩⟩ := hbound c2 h2
    have hrow : rowOf c1 = rowOf c2 := by omega
    have hcol : columnOf c1 = columnOf c2 := by omega
    have ht : c1.take 7 = c2.take 7 :=
      binaryRead_injective 'F' 'B' (by decide) _ _ (by simp [h1.1, h2.1]) h1.2.1 h2.2.1 hrow
    have hd : c1.drop 7 = c2.drop 7 :=
      binaryRead_injective 'L' 'R' (by decide) _ _ (by simp [h1.1, h2.1]) h1.2.2 h2.2.2 hcol
    rw [← List.take_append_drop 7 c1, ← List.take_append_drop 7 c2, ht, hd]
  · intro n h0 h1
    obtain ⟨r, hrlen, hrmem, hrval⟩ :=
      binaryRead_surjective 'F' 'B' (by decide) 7 (n / 8) (by omega) (by norm_num; omega)
    obtain ⟨c, hclen, hcmem, hcval⟩ :=
      binaryRead_surjective 'L' 'R' (by decide) 3 (n % 8) (by omega) (by norm_num; omega)
    have htake : (r ++ c).take 7 = r := by
      rw [List.take_append_eq_append_take]; simp [hrlen]
    have hdrop : (r ++ c).drop 7 = c := by
      rw [List.drop_append_eq_append_drop]; simp [hrlen]
    have hv : ValidCode (r ++ c) := by
      refine ⟨by simp [hrlen, hclen], ?_, ?_⟩
      · rw [htake]; exact hrmem
      · rw [hdrop]; exact hcmem
    refine ⟨r ++ c, hv, ?_⟩
    rw [seatIdFromCode_valid _ hv]
    unfold rowOf columnOf
    rw [htake, hdrop, hrval, hcval]
    congr 1
    omega

theorem seatIdFromCode_bijection_witness :
    seatIdFromCode ['F', 'B', 'F', 'B', 'B', 'F', 'F', 'R', 'L', 'R']
        = some (rowOf ['F', 'B', 'F', 'B', 'B', 'F', 'F', 'R', 'L', 'R'] * 8
          + columnOf ['F', 'B', 'F', 'B', 'B', 'F', 'F', 'R', 'L', 'R']) ∧
      0 ≤ rowOf ['F', 'B', 'F', 'B', 'B', 'F', 'F', 'R', 'L', 'R'] * 8
          + columnOf ['F', 'B', 'F', 'B', 'B', 'F', 'F', 'R', 'L', 'R'] ∧
      rowOf ['F', 'B', 'F', 'B', 'B', 'F', 'F', 'R', 'L', 'R'] * 8
          + columnOf ['F', 'B', 'F', 'B', 'B', 'F', 'F', 'R', 'L', 'R'] ≤ 1023 :=
  seatIdFromCode_bijection.1 ['F', 'B', 'F', 'B', 'B', 'F', 'F', 'R', 'L', 'R'] (by decide)

theorem missingBetween_cons (a b : Int) (rest : List Int) (hab : a ≤ b)
    (hsorted : ∀ x ∈ rest, b ≤ x) (hgap : b - a ≠ 2) (m : Int) :
    MissingBetween (a :: b :: rest) m ↔ MissingBetween (b :: rest) m := by
  unfold MissingBetween
  simp only [List.mem_cons, not_or]
  constructor
  · rintro ⟨⟨hma, hmb, hmr⟩, hlo, hhi⟩
    refine ⟨⟨hmb, hmr⟩, ?_, ?_⟩
    · rcases hlo with h | h | h
      · rcases hhi with h' | h' | h'
        · omega
        · omega
        · have := hsorted _ h'
          left
          omega
      · exact Or.inl h
      · exact Or.inr h
    · rcases hhi with h | h | h
      · rcases hlo with h' | h' | h'
        · omega
        · omega
        · have := hsorted _ h'
          omega
      · exact Or.inl h
      · exact Or.inr h
  · rintro ⟨⟨hmb, hmr⟩, hlo, hhi⟩
    refine ⟨⟨?_, hmb, hmr⟩, Or.inr hlo, Or.inr hhi⟩
    rcases hlo with h | h
    · omega
    · have := hsorted _ h
      omega

theorem gapLoop_spec (l : List Int) (hs : l.Sorted (fun a b => a ≤ b)) :
    (∀ v, gapLoop l = some v → MissingBetween l v ∧ ∀ m, MissingBetween l m → v ≤ m) ∧
      (gapLoop l = none → ∀ m, ¬ MissingBetween l m) := by
  induction l with
  | nil =>
    refine ⟨fun v h => by simp [gapLoop] at h, fun _ m hm => ?_⟩
    simp [MissingBetween] at hm
  | cons a rest ih =>
    cases rest with
    | nil =>
      refine ⟨fun v h => by simp [gapLoop] at h, fun _ m hm => ?_⟩
      simp only [MissingBetween, List.mem_singleton] at hm
      omega
    | cons b rest =>
      have hs' : (b :: rest).Sorted (fun a b => a ≤ b) := List.Sorted.of_cons hs
      have hab : a ≤ b := List.rel_of_sorted_cons hs b (List.mem_cons_self _ _)
      have hbr : ∀ x ∈ rest, b ≤ x := fun x hx => List.rel_of_sorted_cons hs' x hx
      have har : ∀ x ∈ rest, a ≤ x := fun x hx => le_trans hab (hbr x hx)
      obtain ⟨ih1, ih2⟩ := ih hs'
      by_cases hgap : b - a = 2
      · have hrun : gapLoop (a :: b :: rest) = some (a + 1) := by simp [gapLoop, hgap]
        constructor
        · intro v hv
          rw [hrun] at hv
          simp only [Option.some.injEq] at hv
          subst hv
          constructor
          · unfold MissingBetween
            simp only [List.mem_cons, not_or]
            refine ⟨⟨by omega, by omega, ?_⟩, Or.inl (by ring), Or.inr (Or.inl (by omega))⟩
            intro hmem
            have := hbr _ hmem
            omega
          · intro m hm
            obtain ⟨-, hlo, -⟩ := hm
            simp only [List.mem_cons] at hlo
            rcases hlo with h | h | h
            · omega
            · omega
            · have := har _ h
              omega
        · intro hnone
          rw [hrun] at hnone
          exact absurd hnone (by simp)
      · have hrun : gapLoop (a :: b :: rest) = gapLoop (b :: rest) := by simp [gapLoop, hgap]
        rw [hrun]
        constructor
        · intro v hv
          obtain ⟨h1, h2⟩ := ih1 v hv
          exact ⟨(missingBetween_cons a b rest hab hbr hgap v).mpr h1,
            fun m hm => h2 m ((missingBetween_cons a b rest hab hbr hgap m).mp hm)⟩
        · intro hnone m hm
          exact ih2 hnone m ((missingBetween_cons a b rest hab hbr hgap m).mp hm)

theorem missingBetween_sort (seatIds : List Int) (m : Int) :
    MissingBetween (sortAscending seatIds) m ↔ MissingBetween seatIds m := by
  unfold MissingBetween sortAscending
  have hmem : ∀ x, x ∈ seatIds.insertionSort (fun a b => a ≤ b) ↔ x ∈ seatIds :=
    fun x => (List.perm_insertionSort _ seatIds).mem_iff
  rw [hmem, hmem, hmem]

/-- C11: `part2` of `solve` is non-null exactly when some integer `m` is absent
from the seat IDs while `m - 1` and `m + 1` are both among them, and then it is
the smallest such `m`. -/
theorem part2_smallest_missing (seatIds : List Int) :
    (part2 seatIds ≠ none ↔ ∃ m, m ∉ seatIds ∧ m - 1 ∈ seatIds ∧ m + 1 ∈ seatIds) ∧
    (∀ v, part2 seatIds = some v →
      (v ∉ seatIds ∧ v - 1 ∈ seatIds ∧ v + 1 ∈ seatIds) ∧
        ∀ m, m ∉ seatIds → m - 1 ∈ seatIds → m + 1 ∈ seatIds → v ≤ m) := by
  obtain ⟨h1, h2⟩ := gapLoop_spec (sortAscending seatIds) (List.sorted_insertionSort _ seatIds)
  constructor
  · constructor
    · intro hne
      cases hv : part2 seatIds with
      | none => exact absurd hv hne
      | some v =>
        exact ⟨v, (missingBetween_sort seatIds v).mp (h1 v hv).1⟩
    · rintro ⟨m, hm⟩ hnone
      exact h2 hnone m ((missingBetween_sort seatIds m).mpr hm)
  · intro v hv
    obtain ⟨hmb, hleast⟩ := h1 v hv
    refine ⟨(missingBetween_sort seatIds v).mp hmb, fun m ha hlo hhi => ?_⟩
    exact hleast m ((missingBetween_sort seatIds m).mpr ⟨ha, hlo, hhi⟩)

theorem part2_smallest_missing_witness :
    ((8 : Int) ∉ [10, 7, 9, 6, 12] ∧ (8 : Int) - 1 ∈ [10, 7, 9, 6, 12] ∧
        (8 : Int) + 1 ∈ [10, 7, 9, 6, 12]) ∧
      ∀ m : Int, m ∉ [10, 7, 9, 6, 12] → m - 1 ∈ [10, 7, 9, 6, 12] →
        m + 1 ∈ [10, 7, 9, 6, 12] → (8 : Int) ≤ m :=
  (part2_smallest_missing [10, 7, 9, 6, 12]).2 8 (by decide)

end Day05

namespace Day06

theorem intersectLoop_spec (rest : List (List Char)) :
    ∀ common : List Char, common.Nodup →
      (intersectLoop rest common).Nodup ∧
        ∀ c, c ∈ intersectLoop rest common ↔ c ∈ common ∧ ∀ person ∈ rest, c ∈ person := by
  induction rest with
  | nil => intro common h; exact ⟨h, fun c => by simp [intersectLoop]⟩
  | cons person rest ih =>
    intro common _
    simp only [intersectLoop]
    obtain ⟨h1, h2⟩ := ih (newSet (common.filter (fun ch => decide (ch ∈ newSet person))))
      (List.nodup_dedup _)
    refine ⟨h1, fun c => ?_⟩
    rw [h2]
    simp only [newSet, List.mem_dedup, List.mem_filter, decide_eq_true_eq, List.mem_cons,
      forall_eq_or_imp]
    tauto

theorem intercalate_cons_cons (l l2 : List Char) (rest : List (List Char)) :
    List.intercalate ['\n'] (l :: l2 :: rest)
      = l ++ '\n' :: List.intercalate ['\n'] (l2 :: rest) := by
  simp [List.intercalate, List.intersperse]

theorem intercalate_single (l : List Char) : List.intercalate ['\n'] [l] = l := by
  simp [List.intercalate, List.intersperse]

theorem splitNewline_ne_nil (block : List Char) : splitNewline block ≠ [] := by
  cases block with
  | nil => simp [splitNewline]
  | cons c rest =>
    simp only [splitNewline]
    split
    · simp
    · split <;> simp

theorem splitNewline_line (l : List Char) (hl : '\n' ∉ l) : splitNewline l = [l] := by
  induction l with
  | nil => rfl
  | cons c l ih =>
    have hc : c ≠ '\n' := fun h => hl (by rw [h]; exact List.mem_cons_self _ _)
    simp only [splitNewline, if_neg hc, ih (fun h => hl (List.mem_cons_of_mem _ h))]

theorem splitNewline_append (l : List Char) (hl : '\n' ∉ l) (rest : List Char) :
    splitNewline (l ++ '\n' :: rest) = l :: splitNewline rest := by
  induction l with
  | nil => simp [splitNewline]
  | cons c l ih =>
    have hc : c ≠ '\n' := fun h => hl (by rw [h]; exact List.mem_cons_self _ _)
    have ih' := ih (fun h => hl (List.mem_cons_of_mem _ h))
    rw [List.cons_append]
    simp only [splitNewline, if_neg hc]
    rw [ih']

/-- Splitting the text of newline-free lines joined by newlines gives the lines
back. -/
theorem splitNewline_intercalate (lines : List (List Char)) (hne : lines ≠ [])
    (hlines : ∀ l ∈ lines, '\n' ∉ l) :
    splitNewline (List.intercalate ['\n'] lines) = lines := by
  induction lines with
  | nil => exact absurd rfl hne
  | cons l rest ih =>
    cases rest with
    | nil =>
      rw [intercalate_single]
      exact splitNewline_line l (hlines l (List.mem_cons_self _ _))
    | cons l2 rest =>
      rw [intercalate_cons_cons, splitNewline_append l (hlines l (List.mem_cons_self _ _)),
        ih (by simp) (fun x hx => hlines x (List.mem_cons_of_mem _ hx))]

theorem splitNewline_pieces (block : List Char) :
    ∀ piece ∈ splitNewline block, '\n' ∉ piece := by
  induction block with
  | nil =>
    intro piece hmem
    simp only [splitNewline, List.mem_singleton] at hmem
    rw [hmem]
    simp
  | cons c rest ih =>
    intro piece hmem
    simp only [splitNewline] at hmem
    split at hmem
    · rcases List.mem_cons.mp hmem with h | h
      · rw [h]; simp
      · exact ih piece h
    · rename_i hc
      split at hmem
      · rename_i current more heq
        rcases List.mem_cons.mp hmem with h | h
        · rw [h]
          intro hin
          rcases List.mem_cons.mp hin with h' | h'
          · exact hc h'.symm
          · exact ih current (by rw [heq]; exact List.mem_cons_self _ _) h'
        · exact ih piece (by rw [heq]; exact List.mem_cons_of_mem _ h)
      · simp only [List.mem_singleton] at hmem
        rw [hmem]
        intro hin
        simp only [List.mem_singleton] at hin
        exact hc hin.symm

theorem intercalate_splitNewline (block : List Char) :
    List.intercalate ['\n'] (splitNewline block) = block := by
  induction block with
  | nil => simp [splitNewline, List.intercalate, List.intersperse]
  | cons c rest ih =>
    simp only [splitNewline]
    split
    · rename_i hc
      cases hs : splitNewline rest with
      | nil => exact absurd hs (splitNewline_ne_nil rest)
      | cons piece more =>
        rw [intercalate_cons_cons, ← hs, ih, hc]
        rfl
    · cases hs : splitNewline rest with
      | nil => exact absurd hs (splitNewline_ne_nil rest)
      | cons piece more =>
        rw [hs] at ih
        simp only
        cases more with
        | nil =>
          rw [intercalate_single] at ih ⊢
          rw [ih]
        | cons piece2 more =>
          rw [intercalate_cons_cons] at ih ⊢
          rw [← ih]
          rfl

/-- C12: every group block is the text of newline-free lines joined by
newlines, and for such lines `countIntersectionYes` returns 0 when none of them
is non-empty, and otherwise the number of distinct characters that occur in
every non-empty line. -/
theorem countIntersectionYes_counts_common (groupBlock : List Char) :
    (∃ lines : List (List Char), (∀ l ∈ lines, '\n' ∉ l) ∧
      groupBlock = List.intercalate ['\n'] lines) ∧
    ∀ lines : List (List Char), (∀ l ∈ lines, '\n' ∉ l) →
      groupBlock = List.intercalate ['\n'] lines →
        ((∀ l ∈ lines, l = []) → countIntersectionYes groupBlock = 0) ∧
        ((∃ l ∈ lines, l ≠ []) →
          ∃ common : Finset Char,
            (∀ c, c ∈ common ↔ ∀ l ∈ lines, l ≠ [] → c ∈ l) ∧
            countIntersectionYes groupBlock = common.card) := by
  refine ⟨⟨splitNewline groupBlock, splitNewline_pieces groupBlock,
    (intercalate_splitNewline groupBlock).symm⟩, ?_⟩
  intro lines hlines hblock
  have hpeople : people groupBlock = lines.filter (fun l => decide (l.length > 0)) := by
    unfold people
    by_cases hne : lines = []
    · subst hne
      rw [hblock]
      rfl
    · rw [hblock, splitNewline_intercalate lines hne hlines]
  have hmem : ∀ person, person ∈ people groupBlock ↔ person ∈ lines ∧ person ≠ [] := by
    intro person
    rw [hpeople, List.mem_filter]
    simp [List.length_pos]
  constructor
  · intro hall
    have : people groupBlock = [] := by
      rw [List.eq_nil_iff_forall_not_mem]
      intro person hp
      exact ((hmem person).mp hp).2 (hall person ((hmem person).mp hp).1)
    simp [countIntersectionYes, this]
  · rintro ⟨l, hl, hlne⟩
    unfold countIntersectionYes
    cases hp : people groupBlock with
    | nil =>
      have := (hmem l).mpr ⟨hl, hlne⟩
      rw [hp] at this
      exact absurd this (List.not_mem_nil l)
    | cons first rest =>
      simp only
      obtain ⟨h1, h2⟩ := intersectLoop_spec rest (newSet first) (List.nodup_dedup _)
      refine ⟨(intersectLoop rest (newSet first)).toFinset, fun c => ?_, ?_⟩
      · rw [List.mem_toFinset, h2]
        have hall : (∀ l ∈ lines, l ≠ [] → c ∈ l) ↔ ∀ person ∈ first :: rest, c ∈ person := by
          rw [← hp]
          constructor
          · intro h person hperson
            exact h person ((hmem person).mp hperson).1 ((hmem person).mp hperson).2
          · intro h x hx hxne
            exact h x ((hmem x).mpr ⟨hx, hxne⟩)
        rw [hall]
        simp [newSet]
      · rw [List.toFinset_card_of_nodup h1]

end Day06

namespace Day07

theorem visitParents_visited_mem (ps : List String) :
    ∀ (s : DfsState) (v : String),
      v ∈ (visitParents ps s).visited ↔ v ∈ s.visited ∨ v ∈ ps := by
  induction ps with
  | nil => intro s v; simp [visitParents]
  | cons p rest ih =>
    intro s v
    unfold visitParents
    by_cases hp : p ∈ s.visited
    · rw [if_pos hp, ih]
      constructor
      · rintro (h | h)
        · exact Or.inl h
        · exact Or.inr (List.mem_cons_of_mem _ h)
      · rintro (h | h)
        · exact Or.inl h
        · rcases List.mem_cons.mp h with rfl | h
          · exact Or.inl hp
          · exact Or.inr h
    · rw [if_neg hp, ih]
      simp only [List.mem_append, List.mem_singleton, List.mem_cons]
      tauto

theorem visitParents_stack_mem (ps : List String) :
    ∀ (s : DfsState) (x : String),
      x ∈ (visitParents ps s).stack ↔ x ∈ s.stack ∨ (x ∈ ps ∧ x ∉ s.visited) := by
  induction ps with
  | nil => intro s x; simp [visitParents]
  | cons p rest ih =>
    intro s x
    unfold visitParents
    by_cases hp : p ∈ s.visited
    · rw [if_pos hp, ih]
      simp only [List.mem_cons]
      constructor
      · rintro (h | ⟨h1, h2⟩)
        · exact Or.inl h
        · exact Or.inr ⟨Or.inr h1, h2⟩
      · rintro (h | ⟨h1 | h1, h2⟩)
        · exact Or.inl h
        · rw [h1] at h2; exact absurd hp h2
        · exact Or.inr ⟨h1, h2⟩
    · rw [if_neg hp, ih]
      simp only [List.mem_append, List.mem_cons, List.not_mem_nil, or_false, not_or]
      constructor
      · rintro ((h | h) | ⟨h1, h2, h3⟩)
        · rw [h]; exact Or.inr ⟨Or.inl rfl, hp⟩
        · exact Or.inl h
        · exact Or.inr ⟨Or.inr h1, h2⟩
      · rintro (h | ⟨h1 | h1, h2⟩)
        · exact Or.inl (Or.inr h)
        · exact Or.inl (Or.inl h1)
        · by_cases hx : x = p
          · exact Or.inl (Or.inl hx)
          · exact Or.inr ⟨h1, h2, hx⟩

theorem visitParents_nodup (ps : List String) :
    ∀ s : DfsState, s.visited.Nodup → (visitParents ps s).visited.Nodup := by
  induction ps with
  | nil => intro s h; exact h
  | cons p rest ih =>
    intro s h
    unfold visitParents
    by_cases hp : p ∈ s.visited
    · rw [if_pos hp]; exact ih s h
    · rw [if_neg hp]
      apply ih
      simp only
      rw [List.nodup_append]
      refine ⟨h, List.nodup_singleton p, ?_⟩
      intro a ha hb
      rw [List.mem_singleton] at hb
      rw [hb] at ha
      exact hp ha

theorem visitParents_length (ps : List String) :
    ∀ s : DfsState,
      (visitParents ps s).visited.length + s.stack.length
        = (visitParents ps s).stack.length + s.visited.length := by
  induction ps with
  | nil => intro s; simp [visitParents]; omega
  | cons p rest ih =>
    intro s
    unfold visitParents
    by_cases hp : p ∈ s.visited
    · rw [if_pos hp]; exact ih s
    · rw [if_neg hp]
      have := ih ⟨s.visited ++ [p], p :: s.stack⟩
      simp only [List.length_append, List.length_cons, List.length_nil] at this
      omega

theorem visitParents_stack_le (ps : List String) :
    ∀ s : DfsState, s.stack.length ≤ (visitParents ps s).stack.length := by
  induction ps with
  | nil => intro s; exact le_refl _
  | cons p rest ih =>
    intro s
    unfold visitParents
    by_cases hp : p ∈ s.visited
    · rw [if_pos hp]; exact ih s
    · rw [if_neg hp]
      have := ih ⟨s.visited ++ [p], p :: s.stack⟩
      simp only [List.length_cons] at this
      omega

theorem dfsStep_inv (g : ContainedByGraph) (target : String) (s s' : DfsState)
    (hinv : DfsInv g target s) (hstep : dfsStep g s = some s') : DfsInv g target s' := by
  obtain ⟨hnd, hreach, hstack, hclosed⟩ := hinv
  unfold dfsStep at hstep
  cases hst : s.stack with
  | nil => simp [hst] at hstep
  | cons current rest =>
    rw [hst] at hstep hstack hclosed
    simp only at hstep
    have hcur : Relation.ReflTransGen (DirectParent g) current target := by
      rcases hstack current (List.mem_cons_self _ _) with h | h
      · rw [h]
      · exact (hreach current h).to_reflTransGen
    cases hlook : g.lookup current with
    | none =>
      rw [hlook] at hstep
      simp only [Option.some.injEq] at hstep
      subst hstep
      refine ⟨hnd, hreach, fun x hx => hstack x (List.mem_cons_of_mem _ hx), ?_⟩
      intro x hx hnot p hp
      by_cases hxc : x = current
      · obtain ⟨parents, hpar, -⟩ := hp
        rw [hxc, hlook] at hpar
        exact absurd hpar (by simp)
      · exact hclosed x hx (by simp only [List.mem_cons, not_or]; exact ⟨hxc, hnot⟩) p hp
    | some parents =>
      rw [hlook] at hstep
      simp only [Option.some.injEq] at hstep
      subst hstep
      refine ⟨visitParents_nodup parents _ hnd, ?_, ?_, ?_⟩
      · intro v hv
        rcases (visitParents_visited_mem parents _ v).mp hv with h | h
        · exact hreach v h
        · exact Relation.TransGen.head' ⟨parents, hlook, h⟩ hcur
      · intro x hx
        rcases (visitParents_stack_mem parents _ x).mp hx with h | ⟨h, -⟩
        · rcases hstack x (List.mem_cons_of_mem _ h) with h' | h'
          · exact Or.inl h'
          · exact Or.inr ((visitParents_visited_mem parents _ x).mpr (Or.inl h'))
        · exact Or.inr ((visitParents_visited_mem parents _ x).mpr (Or.inr h))
      · intro x hx hnot p hp
        rw [visitParents_stack_mem] at hnot
        simp only [not_or, not_and, not_not] at hnot
        obtain ⟨hnrest, hnew⟩ := hnot
        rw [visitParents_visited_mem]
        by_cases hxc : x = current
        · obtain ⟨parents', hpar, hmem⟩ := hp
          rw [hxc, hlook] at hpar
          simp only [Option.some.injEq] at hpar
          subst hpar
          exact Or.inr hmem
        · have hxold : x = target ∨ x ∈ s.visited := by
            rcases hx with h | h
            · exact Or.inl h
            · rcases (visitParents_visited_mem parents _ x).mp h with h' | h'
              · exact Or.inr h'
              · exact Or.inr (hnew h')
          exact Or.inl (hclosed x hxold
            (by simp only [List.mem_cons, not_or]; exact ⟨hxc, hnrest⟩) p hp)

theorem dfsInv_init (g : ContainedByGraph) (target : String) :
    DfsInv g target ⟨[], [target]⟩ := by
  refine ⟨List.nodup_nil, fun v hv => absurd hv (List.not_mem_nil v), ?_, ?_⟩
  · intro x hx
    exact Or.inl (List.mem_singleton.mp hx)
  · intro x hx hnot p _
    simp only [List.not_mem_nil, or_false] at hx
    simp only [List.mem_singleton] at hnot
    exact absurd hx hnot

theorem dfsAfter_inv (g : ContainedByGraph) (target : String) :
    ∀ (n : Nat) (s : DfsState), DfsInv g target s → DfsInv g target (dfsAfter g n s) := by
  intro n
  induction n with
  | zero => intro s h; exact h
  | succ n ih =>
    intro s h
    unfold dfsAfter
    cases hstep : dfsStep g s with
    | none => exact h
    | some s' => exact ih s' (dfsStep_inv g target s s' h hstep)

theorem lookup_mem {β : Type} (g : List (String × β)) (key : String) (value : β)
    (h : g.lookup key = some value) : (key, value) ∈ g := by
  induction g with
  | nil => simp at h
  | cons entry rest ih =>
    obtain ⟨k, v⟩ := entry
    rw [List.lookup_cons] at h
    by_cases hk : key = k
    · subst hk
      simp only [beq_self_eq_true, Option.some.injEq] at h
      rw [h]
      exact List.mem_cons_self _ _
    · have : (key == k) = false := by simpa using hk
      rw [this] at h
      exact List.mem_cons_of_mem _ (ih h)

theorem visited_length_le (g : ContainedByGraph) (target : String) (s : DfsState)
    (hinv : DfsInv g target s) : s.visited.length ≤ (allParents g).card := by
  rw [← List.toFinset_card_of_nodup hinv.1]
  apply Finset.card_le_card
  intro v hv
  rw [List.mem_toFinset] at hv
  obtain ⟨y, hy⟩ : ∃ y, DirectParent g v y := by
    rcases Relation.TransGen.head'_iff.mp (hinv.2.1 v hv) with ⟨y, hy, -⟩
    exact ⟨y, hy⟩
  obtain ⟨parents, hlook, hmem⟩ := hy
  unfold allParents
  rw [List.mem_toFinset, List.mem_flatMap]
  exact ⟨(y, parents), lookup_mem g y parents hlook, hmem⟩

theorem dfsLoop_terminates (g : ContainedByGraph) (target : String) :
    ∀ (n : Nat) (s : DfsState), DfsInv g target s →
      2 * (allParents g).card + s.stack.length ≤ n + 2 * s.visited.length →
      ∃ s', dfsLoop g (n + 1) s = Run.done s'.visited ∧ DfsInv g target s' ∧ s'.stack = [] := by
  intro n
  induction n with
  | zero =>
    intro s hinv hle
    have hlen := visited_length_le g target s hinv
    have hst : s.stack = [] := List.length_eq_zero.mp (by omega)
    refine ⟨s, ?_, hinv, hst⟩
    simp [dfsLoop, dfsStep, hst]
  | succ n ih =>
    intro s hinv hle
    cases hstep : dfsStep g s with
    | none =>
      have hst : s.stack = [] := by
        unfold dfsStep at hstep
        cases hs : s.stack with
        | nil => rfl
        | cons current rest =>
          rw [hs] at hstep
          simp only at hstep
          cases hl : g.lookup current <;> simp [hl] at hstep
      exact ⟨s, by unfold dfsLoop; rw [hstep], hinv, hst⟩
    | some s' =>
      have hinv' := dfsStep_inv g target s s' hinv hstep
      have hlen' := visited_length_le g target s' hinv'
      have hmeasure : 2 * (allParents g).card + s'.stack.length ≤ n + 2 * s'.visited.length := by
        unfold dfsStep at hstep
        cases hs : s.stack with
        | nil => simp [hs] at hstep
        | cons current rest =>
          rw [hs] at hstep hle
          simp only at hstep
          simp only [List.length_cons] at hle
          cases hl : g.lookup current with
          | none =>
            rw [hl] at hstep
            simp only [Option.some.injEq] at hstep
            subst hstep
            simp only
            omega
          | some parents =>
            rw [hl] at hstep
            simp only [Option.some.injEq] at hstep
            subst hstep
            have hlen := visitParents_length parents ⟨s.visited, rest⟩
            have hgrow := visitParents_stack_le parents ⟨s.visited, rest⟩
            simp only at hlen hgrow
            omega
      obtain ⟨s'', hrun, hinv'', hst''⟩ := ih s' hinv' hmeasure
      exact ⟨s'', by unfold dfsLoop; rw [hstep]; exact hrun, hinv'', hst''⟩

theorem dfsLoop_mono (g : ContainedByGraph) :
    ∀ (n : Nat) (s : DfsState) (v : List String), dfsLoop g n s = Run.done v →
      ∀ n', n ≤ n' → dfsLoop g n' s = Run.done v := by
  intro n
  induction n with
  | zero => intro s v h; simp [dfsLoop] at h
  | succ n ih =>
    intro s v h n' hle
    obtain ⟨m, rfl⟩ : ∃ m, n' = m + 1 := ⟨n' - 1, by omega⟩
    unfold dfsLoop at h ⊢
    cases hstep : dfsStep g s with
    | none => rw [hstep] at h; exact h
    | some s' =>
      rw [hstep] at h
      exact ih s' v h m (by omega)

theorem dfsLoop_is_dfsAfter (g : ContainedByGraph) :
    ∀ (n : Nat) (s : DfsState) (v : List String), dfsLoop g n s = Run.done v →
      ∃ k, v = (dfsAfter g k s).visited := by
  intro n
  induction n with
  | zero => intro s v h; simp [dfsLoop] at h
  | succ n ih =>
    intro s v h
    unfold dfsLoop at h
    cases hstep : dfsStep g s with
    | none =>
      rw [hstep] at h
      simp only [Run.done.injEq] at h
      exact ⟨0, h.symm⟩
    | some s' =>
      rw [hstep] at h
      obtain ⟨k, hk⟩ := ih s' v h
      refine ⟨k + 1, ?_⟩
      rw [hk]
      simp [dfsAfter, hstep]

theorem closed_contains_ancestors (g : ContainedByGraph) (target : String) (s : DfsState)
    (hinv : DfsInv g target s) (hst : s.stack = []) (c : String)
    (hc : Relation.TransGen (DirectParent g) c target) : c ∈ s.visited := by
  obtain ⟨-, -, -, hclosed⟩ := hinv
  rw [hst] at hclosed
  induction hc using Relation.TransGen.head_induction_on with
  | base h => exact hclosed target (Or.inl rfl) (List.not_mem_nil _) _ h
  | ih h _ ihc => exact hclosed _ (Or.inr ihc) (List.not_mem_nil _) _ h

/-- C13: for every reverse graph, cyclic or not, and every target colour,
`countColorsThatCanEventuallyContain` terminates (every large enough bound on
its loop gives the result) and returns the number of distinct colours from
which a path of one or more direct-parent edges leads down to the target. -/
theorem countColors_counts_ancestors (containedByGraph : ContainedByGraph)
    (targetColor : String) :
    ∃ ancestors : Finset String,
      (∀ c, c ∈ ancestors ↔
        Relation.TransGen (DirectParent containedByGraph) c targetColor) ∧
      ∃ fuel, ∀ fuel', fuel ≤ fuel' →
        countColorsThatCanEventuallyContain fuel' targetColor containedByGraph
          = Run.done ancestors.card := by
  obtain ⟨s, hrun, hinv, hst⟩ :=
    dfsLoop_terminates containedByGraph targetColor
      (2 * (allParents containedByGraph).card + 1) ⟨[], [targetColor]⟩
      (dfsInv_init containedByGraph targetColor) (by simp)
  refine ⟨s.visited.toFinset, fun c => ?_, 2 * (allParents containedByGraph).card + 1 + 1,
    fun fuel' hf => ?_⟩
  · rw [List.mem_toFinset]
    exact ⟨fun h => hinv.2.1 c h,
      fun h => closed_contains_ancestors containedByGraph targetColor s hinv hst c h⟩
  · unfold countColorsThatCanEventuallyContain
    rw [dfsLoop_mono containedByGraph _ _ _ hrun fuel' hf, List.toFinset_card_of_nodup hinv.1]
    rfl

/-- C14, the claim as written fails: in the reverse graph where colour "a" is a
direct parent of itself, the start colour "a" is put into `visited` in the
first round and is counted: the answer is 1. -/
theorem start_colour_counted_counterexample :
    "a" ∈ (dfsAfter [("a", ["a"])] 1 ⟨[], ["a"]⟩).visited ∧
      countColorsThatCanEventuallyContain 5 "a" [("a", ["a"])] = Run.done 1 := by
  decide

/-- C14, amended: when no path of one or more direct-parent edges leads from the
start colour back to itself, `visited` does not contain the start colour after
any number of rounds of the loop, nor when the loop returns. -/
theorem start_colour_never_visited (containedByGraph : ContainedByGraph) (targetColor : String)
    (hacyclic : ¬ Relation.TransGen (DirectParent containedByGraph) targetColor targetColor) :
    (∀ n, targetColor ∉ (dfsAfter containedByGraph n ⟨[], [targetColor]⟩).visited) ∧
    (∀ fuel visited, dfsLoop containedByGraph fuel ⟨[], [targetColor]⟩ = Run.done visited →
      targetColor ∉ visited) := by
  have key : ∀ n, targetColor ∉ (dfsAfter containedByGraph n ⟨[], [targetColor]⟩).visited := by
    intro n hmem
    exact hacyclic ((dfsAfter_inv containedByGraph targetColor n _
      (dfsInv_init containedByGraph targetColor)).2.1 targetColor hmem)
  refine ⟨key, fun fuel visited hrun => ?_⟩
  obtain ⟨k, hk⟩ := dfsLoop_is_dfsAfter containedByGraph fuel _ visited hrun
  rw [hk]
  exact key k

theorem start_colour_never_visited_witness :
    (∀ n, "b" ∉ (dfsAfter [("b", ["c"]), ("c", ["d"])] n ⟨[], ["b"]⟩).visited) ∧
    (∀ fuel visited, dfsLoop [("b", ["c"]), ("c", ["d"])] fuel ⟨[], ["b"]⟩ = Run.done visited →
      "b" ∉ visited) :=
  start_colour_never_visited [("b", ["c"]), ("c", ["d"])] "b" (by
    intro h
    have hpar : ∀ x y, DirectParent [("b", ["c"]), ("c", ["d"])] x y →
        (x = "c" ∧ y = "b") ∨ (x = "d" ∧ y = "c") := by
      rintro x y ⟨parents, hlook, hmem⟩
      by_cases hy : y = "b"
      · subst hy
        simp [List.lookup] at hlook
        subst hlook
        simp at hmem
        exact Or.inl ⟨hmem, rfl⟩
      · have hyb : (y == "b") = false := by simpa using hy
        by_cases hy' : y = "c"
        · subst hy'
          simp [List.lookup] at hlook
          subst hlook
          simp at hmem
          exact Or.inr ⟨hmem, rfl⟩
        · have hyc : (y == "c") = false := by simpa using hy'
          simp [List.lookup, hyb, hyc] at hlook
    have hstart : ∀ y, Relation.ReflTransGen (DirectParent [("b", ["c"]), ("c", ["d"])]) "b" y →
        y = "b" := by
      intro y hy
      induction hy with
      | refl => rfl
      | tail _ hstep ih =>
        rw [ih] at hstep
        rcases hpar _ _ hstep with ⟨h1, -⟩ | ⟨h1, -⟩
        · exact absurd h1 (by decide)
        · exact absurd h1 (by decide)
    obtain ⟨y, hy, hlast⟩ := Relation.TransGen.tail'_iff.mp h
    rw [hstart y hy] at hlast
    rcases hpar _ _ hlast with ⟨h1, -⟩ | ⟨h1, -⟩
    · exact absurd h1 (by decide)
    · exact absurd h1 (by decide))

theorem mem_setAdd (members : List String) (value o : String) :
    o ∈ setAdd members value ↔ o ∈ members ∨ o = value := by
  unfold setAdd
  by_cases h : value ∈ members
  · rw [if_pos h]
    constructor
    · exact fun ho => Or.inl ho
    · rintro (ho | ho)
      · exact ho
      · rw [ho]; exact h
  · rw [if_neg h]
    simp

theorem addContents_parents (outer : String) (contents : List Content) :
    ∀ (g : ContainedByGraph) (c o : String),
      o ∈ ((addContents outer contents g).lookup c).getD [] ↔
        o ∈ (g.lookup c).getD [] ∨ (o = outer ∧ ∃ e ∈ contents, e.innerColor = c) := by
  induction contents with
  | nil => intro g c o; simp [addContents]
  | cons entry rest ih =>
    intro g c o
    simp only [addContents]
    rw [ih]
    have hwith : ∀ k, ((if (g.lookup entry.innerColor).isSome then g
        else (entry.innerColor, []) :: g).lookup k).getD [] = (g.lookup k).getD [] := by
      intro k
      cases hl : g.lookup entry.innerColor with
      | some v => simp
      | none =>
        simp only [Option.isSome_none, Bool.false_eq_true, if_false, List.lookup_cons]
        by_cases hk : k = entry.innerColor
        · subst hk
          simp [hl]
        · have : (k == entry.innerColor) = false := by simpa using hk
          rw [this]
    rw [List.lookup_cons]
    by_cases hc : c = entry.innerColor
    · subst hc
      simp only [beq_self_eq_true, Option.getD_some, mem_setAdd, hwith, List.mem_cons,
        exists_eq_or_imp, true_or, and_true]
      tauto
    · have hb : (c == entry.innerColor) = false := by simpa using hc
      rw [hb]
      simp only [hwith, List.mem_cons, exists_eq_or_imp]
      have : ¬ entry.innerColor = c := fun h => hc h.symm
      tauto

theorem buildLoop_parents (rules : List Rule) :
    ∀ (graphs : ContainsGraph × ContainedByGraph) (c o : String),
      o ∈ (((buildLoop rules graphs).2).lookup c).getD [] ↔
        o ∈ (graphs.2.lookup c).getD [] ∨
          ∃ rule ∈ rules, rule.outerColor = o ∧ ∃ e ∈ rule.contents, e.innerColor = c := by
  induction rules with
  | nil => intro graphs c o; simp [buildLoop]
  | cons rule rest ih =>
    intro graphs c o
    simp only [buildLoop]
    rw [ih, addContents_parents]
    simp only [List.mem_cons, exists_eq_or_imp]
    constructor
    · rintro ((h | ⟨h1, h2⟩) | h)
      · exact Or.inl h
      · exact Or.inr (Or.inl ⟨h1.symm, h2⟩)
      · exact Or.inr (Or.inr h)
    · rintro (h | ⟨h1, h2⟩ | h)
      · exact Or.inl (Or.inl h)
      · exact Or.inl (Or.inr ⟨h1.symm, h2⟩)
      · exact Or.inr h

theorem buildLoop_contents (rules : List Rule) :
    ∀ (graphs : ContainsGraph × ContainedByGraph) (o : String) (cs : List Content),
      (rules.map (fun rule => rule.outerColor)).Nodup →
      (((buildLoop rules graphs).1).lookup o = some cs ↔
        (∃ rule ∈ rules, rule.outerColor = o ∧ rule.contents = cs) ∨
          ((∀ rule ∈ rules, rule.outerColor ≠ o) ∧ graphs.1.lookup o = some cs)) := by
  induction rules with
  | nil => intro graphs o cs _; simp [buildLoop]
  | cons rule rest ih =>
    intro graphs o cs hnd
    simp only [List.map_cons, List.nodup_cons, List.mem_map, not_exists, not_and] at hnd
    obtain ⟨hfresh, hnd⟩ := hnd
    simp only [buildLoop]
    rw [ih _ o cs hnd]
    simp only [List.mem_cons, exists_eq_or_imp, forall_eq_or_imp, List.lookup_cons]
    by_cases ho : o = rule.outerColor
    · subst ho
      simp only [beq_self_eq_true, Option.some.injEq, ne_eq, not_true_eq_false, false_and,
        or_false, true_and]
      constructor
      · rintro (⟨r, hr, hro, -⟩ | ⟨-, h⟩)
        · exact absurd hro (hfresh r hr)
        · exact Or.inl h
      · rintro (h | ⟨r, hr, hro, -⟩)
        · exact Or.inr ⟨fun r hr => hfresh r hr, h⟩
        · exact absurd hro (hfresh r hr)
    · have hb : (o == rule.outerColor) = false := by simpa using ho
      have ho' : ¬ rule.outerColor = o := fun h => ho h.symm
      rw [hb]
      simp only [ne_eq, ho', not_false_eq_true, true_and, false_and, false_or]

/-- C24, the claim as written fails: for the two rules "a contains 1 b" and
"a contains 1 c", which both parse, "a" is in the Set of "b" in
containedByGraph, but the contents kept for "a" in containsGraph, those of the
later rule, have no entry for "b". -/
theorem graphs_not_transposes_counterexample :
    "a" ∈ (((buildGraphs [Rule.mk "a" [Content.mk 1 "b"], Rule.mk "a" [Content.mk 1 "c"]]).2).lookup
        "b").getD [] ∧
      ¬ ∃ e ∈ (((buildGraphs [Rule.mk "a" [Content.mk 1 "b"],
          Rule.mk "a" [Content.mk 1 "c"]]).1).lookup "a").getD [], e.innerColor = "b" := by
  decide

/-- C24, amended: for rules whose outer colours are pairwise distinct, the two
graphs of `buildGraphs` are transposes: `o` is in the Set containedByGraph keeps
for `c` exactly when the contents containsGraph keeps for `o` have an entry
whose innerColor is `c`. -/
theorem graphs_transposes (rules : List Rule)
    (hdistinct : (rules.map (fun rule => rule.outerColor)).Nodup) (o c : String) :
    o ∈ (((buildGraphs rules).2).lookup c).getD [] ↔
      ∃ e ∈ (((buildGraphs rules).1).lookup o).getD [], e.innerColor = c := by
  unfold buildGraphs
  rw [buildLoop_parents]
  simp only [List.lookup_nil, Option.getD_none, List.not_mem_nil, false_or]
  constructor
  · rintro ⟨rule, hrule, hro, hentry⟩
    have := (buildLoop_contents rules ([], []) o rule.contents hdistinct).mpr
      (Or.inl ⟨rule, hrule, hro, rfl⟩)
    rw [this]
    exact hentry
  · rintro ⟨e, he, hec⟩
    cases hl : ((buildLoop rules ([], [])).1).lookup o with
    | none => rw [hl] at he; simp at he
    | some cs =>
      rw [hl] at he
      rcases (buildLoop_contents rules ([], []) o cs hdistinct).mp hl with
        ⟨rule, hrule, hro, hcs⟩ | ⟨-, h⟩
      · exact ⟨rule, hrule, hro, e, by rw [hcs]; exact he, hec⟩
      · simp at h

theorem graphs_transposes_witness :
    "a" ∈ (((buildGraphs [Rule.mk "a" [Content.mk 1 "b"], Rule.mk "b" []]).2).lookup "b").getD []
      ↔ ∃ e ∈ (((buildGraphs [Rule.mk "a" [Content.mk 1 "b"], Rule.mk "b" []]).1).lookup
          "a").getD [], e.innerColor = "b" :=
  graphs_transposes [Rule.mk "a" [Content.mk 1 "b"], Rule.mk "b" []] (by decide) "a" "b"

theorem totalOf_unique (g : ContainsGraph) (l : List Content) (n : Nat)
    (h : TotalOf g l n) : ∀ n', TotalOf g l n' → n = n' := by
  induction h with
  | nil => intro n' h'; cases h'; rfl
  | cons entry rest inside sum _ _ ih1 ih2 =>
    intro n' h'
    cases h' with
    | cons _ _ inside' sum' h1 h2 =>
      rw [ih1 inside' h1, ih2 sum' h2]

theorem sumContents_mono (rec1 rec2 : String → Memo → Run (JsNumber × Memo))
    (hrec : ∀ c m r, rec1 c m = Run.done r → rec2 c m = Run.done r) (l : List Content) :
    ∀ (total : JsNumber) (memo : Memo) (r : JsNumber × Memo),
      sumContents rec1 l total memo = Run.done r → sumContents rec2 l total memo = Run.done r := by
  induction l with
  | nil => intro total memo r h; exact h
  | cons entry rest ih =>
    intro total memo r h
    unfold sumContents at h ⊢
    cases h1 : rec1 entry.innerColor memo with
    | threw => simp [h1] at h
    | timeout => simp [h1] at h
    | done v =>
      rw [hrec _ _ _ h1]
      rw [h1] at h
      exact ih _ _ _ h

theorem countTotalBagsInside_mono (g : ContainsGraph) :
    ∀ (fuel : Nat) (color : String) (memo : Memo) (r : JsNumber × Memo),
      countTotalBagsInside g fuel color memo = Run.done r →
      ∀ fuel', fuel ≤ fuel' → countTotalBagsInside g fuel' color memo = Run.done r := by
  intro fuel
  induction fuel with
  | zero => intro color memo r h; simp [countTotalBagsInside] at h
  | succ fuel ih =>
    intro color memo r h fuel' hle
    obtain ⟨m, rfl⟩ : ∃ m, fuel' = m + 1 := ⟨fuel' - 1, by omega⟩
    unfold countTotalBagsInside at h ⊢
    cases hl : memo.lookup color with
    | some known => rw [hl] at h; exact h
    | none =>
      rw [hl] at h
      simp only at h ⊢
      cases hs : sumContents (countTotalBagsInside g fuel) ((g.lookup color).getD [])
          (JsNumber.finite 0) memo with
      | threw => simp [hs] at h
      | timeout => simp [hs] at h
      | done v =>
        rw [hs] at h
        rw [sumContents_mono _ (countTotalBagsInside g m)
          (fun c mm r hr => ih c mm r hr m (by omega)) _ _ _ _ hs]
        exact h

theorem directlyInside_mem_innerColors (g : ContainsGraph) (inner outer : String)
    (h : DirectlyInside g inner outer) : inner ∈ innerColors g := by
  obtain ⟨contents, hlook, entry, hentry, hinner⟩ := h
  unfold innerColors
  rw [List.mem_flatMap]
  exact ⟨(outer, contents), lookup_mem g outer contents hlook,
    List.mem_map.mpr ⟨entry, hentry, hinner⟩⟩

theorem directlyInside_wellFounded (g : ContainsGraph)
    (hacyclic : ∀ c, ¬ Relation.TransGen (DirectlyInside g) c c) :
    WellFounded (DirectlyInside g) := by
  let r : {c // c ∈ innerColors g} → {c // c ∈ innerColors g} → Prop :=
    fun a b => Relation.TransGen (DirectlyInside g) a.val b.val
  haveI : IsTrans {c // c ∈ innerColors g} r := ⟨fun _ _ _ h1 h2 => Relation.TransGen.trans h1 h2⟩
  haveI : IsIrrefl {c // c ∈ innerColors g} r := ⟨fun a h => hacyclic a.val h⟩
  have hwf : WellFounded r := Finite.wellFounded_of_trans_of_irrefl r
  have hacc : ∀ a : {c // c ∈ innerColors g}, Acc (DirectlyInside g) a.val := by
    intro a
    induction a using hwf.induction with
    | _ a ih =>
      refine Acc.intro _ (fun y hy => ?_)
      exact ih ⟨y, directlyInside_mem_innerColors g y a.val hy⟩ (Relation.TransGen.single hy)
  refine ⟨fun c => Acc.intro c (fun y hy => ?_)⟩
  exact hacc ⟨y, directlyInside_mem_innerColors g y c hy⟩

theorem memoSound_cons (g : ContainsGraph) (memo : Memo) (color : String) (total : Nat)
    (hm : MemoSound g memo) (ht : TotalOf g ((g.lookup color).getD []) total) :
    MemoSound g ((color, JsNumber.finite total) :: memo) := by
  intro k known hk
  rw [List.lookup_cons] at hk
  by_cases hkc : k = color
  · subst hkc
    simp only [beq_self_eq_true, Option.some.injEq] at hk
    exact ⟨total, hk.symm, ht⟩
  · have : (k == color) = false := by simpa using hkc
    rw [this] at hk
    exact hm k known hk

/-- One round of the loop of `countTotalBagsInside` is exact while the sum
stays below 2^53. -/
theorem sum_step_exact (total count inside rest : Nat) (hin : inside < 2 ^ 53)
    (h : total + (count * (1 + inside) + rest) < 2 ^ 53) :
    (JsNumber.finite total).add
        ((JsNumber.ofInt count).mul ((JsNumber.finite 1).add (JsNumber.finite inside)))
      = JsNumber.finite ((total + count * (1 + inside) : Nat) : Int) := by
  have hprod : count * (1 + inside) < 2 ^ 53 := by omega
  have hcount : count ≤ count * (1 + inside) := Nat.le_mul_of_pos_right _ (by omega)
  have e1 : ((1 : Int) + (inside : Int)).natAbs = 1 + inside := by omega
  have e2 : ((count : Int) * (1 + (inside : Int))).natAbs = count * (1 + inside) := by
    rw [Int.natAbs_mul, e1, Int.natAbs_ofNat]
  have e3 : (total : Int) + (count : Int) * (1 + (inside : Int))
      = ((total + count * (1 + inside) : Nat) : Int) := by push_cast; ring
  rw [JsNumber.ofInt_exact _ (by rw [Int.natAbs_ofNat]; omega),
    JsNumber.add_finite_le 1 inside (by rw [e1]; omega),
    JsNumber.mul_finite _ _ (by rw [e2]; exact hprod),
    JsNumber.add_finite _ _ (by rw [e3, Int.natAbs_ofNat]; omega), e3]

theorem sumContents_correct (g : ContainsGraph)
    (hsmall : ∀ c t, TotalOf g ((g.lookup c).getD []) t → t < 2 ^ 53) (l : List Content) :
    (∀ e ∈ l, CallCorrect g e.innerColor) →
      ∃ sum, TotalOf g l sum ∧
        ∀ (total : Nat) memo, MemoSound g memo → total + sum < 2 ^ 53 →
          ∃ fuel memo', sumContents (countTotalBagsInside g fuel) l (JsNumber.finite total) memo
              = Run.done (JsNumber.finite ((total + sum : Nat) : Int), memo') ∧
            MemoSound g memo' := by
  induction l with
  | nil =>
    intro _
    exact ⟨0, TotalOf.nil, fun total memo hm _ => ⟨0, memo, rfl, hm⟩⟩
  | cons entry rest ih =>
    intro hall
    obtain ⟨inside, hinside, hcall⟩ := hall entry (List.mem_cons_self _ _)
    obtain ⟨sum, hsum, hrest⟩ := ih (fun e he => hall e (List.mem_cons_of_mem _ he))
    refine ⟨entry.count * (1 + inside) + sum, TotalOf.cons entry rest inside sum hinside hsum, ?_⟩
    intro total memo hm hbound
    obtain ⟨fuel1, memo1, hrun1, hm1⟩ := hcall memo hm
    obtain ⟨fuel2, memo2, hrun2, hm2⟩ :=
      hrest (total + entry.count * (1 + inside)) memo1 hm1 (by omega)
    refine ⟨max fuel1 fuel2, memo2, ?_, hm2⟩
    unfold sumContents
    rw [countTotalBagsInside_mono g fuel1 _ _ _ hrun1 (max fuel1 fuel2) (le_max_left _ _)]
    simp only
    rw [sum_step_exact total entry.count inside sum (hsmall _ inside hinside) hbound]
    rw [sumContents_mono _ (countTotalBagsInside g (max fuel1 fuel2))
      (fun c mm r hr => countTotalBagsInside_mono g fuel2 c mm r hr _ (le_max_right _ _))
      _ _ _ _ hrun2]
    congr 3
    omega

theorem callCorrect_of_acyclic (g : ContainsGraph)
    (hacyclic : ∀ c, ¬ Relation.TransGen (DirectlyInside g) c c)
    (hsmall : ∀ c t, TotalOf g ((g.lookup c).getD []) t → t < 2 ^ 53) (color : String) :
    CallCorrect g color := by
  induction color using (directlyInside_wellFounded g hacyclic).induction with
  | _ color ih =>
    have hall : ∀ e ∈ (g.lookup color).getD [], CallCorrect g e.innerColor := by
      intro e he
      apply ih
      cases hl : g.lookup color with
      | none => rw [hl] at he; simp at he
      | some contents =>
        rw [hl] at he
        exact ⟨contents, hl, e, he, rfl⟩
    obtain ⟨sum, hsum, hrun⟩ := sumContents_correct g hsmall _ hall
    refine ⟨sum, hsum, fun memo hm => ?_⟩
    cases hl : memo.lookup color with
    | some known =>
      obtain ⟨t, hknown, hk⟩ := hm color known hl
      have heq : t = sum := totalOf_unique g _ t hk sum hsum
      refine ⟨1, memo, ?_, hm⟩
      unfold countTotalBagsInside
      rw [hl, hknown, heq]
    | none =>
      obtain ⟨fuel, memo', hs, hm'⟩ := hrun 0 memo hm (by
        have := hsmall color sum hsum
        omega)
      refine ⟨fuel + 1, (color, JsNumber.finite sum) :: memo', ?_,
        memoSound_cons g memo' color sum hm' hsum⟩
      unfold countTotalBagsInside
      rw [hl]
      simp only
      have h0 : JsNumber.finite 0 = JsNumber.finite ((0 : Nat) : Int) := rfl
      rw [h0, hs]
      simp

/-- C15, the claim as written fails: for the one rule "a contains
9007199254740992 b, 1 c", an acyclic graph, the sum 2^53 + 1 rounds to 2^53, so
`countTotalBagsInside` returns 2^53 for "a" while total("a") is 2^53 + 1. -/
theorem countTotalBagsInside_rounding_counterexample :
    (∀ c, ¬ Relation.TransGen
      (DirectlyInside [("a", [Content.mk 9007199254740992 "b", Content.mk 1 "c"])]) c c) ∧
    (∀ fuel, 2 ≤ fuel →
      (countTotalBagsInside [("a", [Content.mk 9007199254740992 "b", Content.mk 1 "c"])]
        fuel "a" []).map Prod.fst = Run.done (JsNumber.finite 9007199254740992)) ∧
    TotalOf [("a", [Content.mk 9007199254740992 "b", Content.mk 1 "c"])]
      ((List.lookup "a" [("a", [Content.mk 9007199254740992 "b", Content.mk 1 "c"])]).getD [])
      9007199254740993 := by
  refine ⟨?_, ?_, ?_⟩
  · intro c h
    have hin : ∀ x y,
        DirectlyInside [("a", [Content.mk 9007199254740992 "b", Content.mk 1 "c"])] x y →
          (x = "b" ∨ x = "c") ∧ y = "a" := by
      rintro x y ⟨contents, hlook, entry, hentry, hinner⟩
      by_cases hy : y = "a"
      · subst hy
        simp [List.lookup] at hlook
        subst hlook
        simp at hentry
        rcases hentry with rfl | rfl
        · exact ⟨Or.inl hinner.symm, rfl⟩
        · exact ⟨Or.inr hinner.symm, rfl⟩
      · have hyb : (y == "a") = false := by simpa using hy
        simp [List.lookup, hyb] at hlook
    have hstart : ∀ z, Relation.ReflTransGen
        (DirectlyInside [("a", [Content.mk 9007199254740992 "b", Content.mk 1 "c"])]) "a" z →
        z = "a" := by
      intro z hz
      induction hz with
      | refl => rfl
      | tail _ hstep ih =>
        rw [ih] at hstep
        rcases (hin _ _ hstep).1 with h1 | h1
        · exact absurd h1 (by decide)
        · exact absurd h1 (by decide)
    obtain ⟨y, hy, hlast⟩ := Relation.TransGen.tail'_iff.mp h
    obtain ⟨hyb, hca⟩ := hin _ _ hlast
    rw [hca] at hy
    rw [hstart y hy] at hyb
    rcases hyb with h1 | h1
    · exact absurd h1 (by decide)
    · exact absurd h1 (by decide)
  · intro fuel hfuel
    have h2 : countTotalBagsInside [("a", [Content.mk 9007199254740992 "b", Content.mk 1 "c"])]
        2 "a" [] = Run.done (JsNumber.finite 9007199254740992,
          [("a", JsNumber.finite 9007199254740992), ("c", JsNumber.finite 0),
            ("b", JsNumber.finite 0)]) := by
      decide
    rw [countTotalBagsInside_mono _ 2 "a" [] _ h2 fuel hfuel]
    rfl
  · exact TotalOf.cons (Content.mk 9007199254740992 "b") [Content.mk 1 "c"] 0 1 TotalOf.nil
      (TotalOf.cons (Content.mk 1 "c") [] 0 0 TotalOf.nil TotalOf.nil)

/-- C15, amended: for an acyclic forward graph in which the total of every
colour is below 2^53, and every colour, `countTotalBagsInside` returns
total(colour), the one number that satisfies
total(c) = sum of count * (1 + total(inner)) over the contents of c (0 for a
colour with no contents or no rule): called with an empty memo, and called
with any memo whose values are totals, every large enough depth bound gives it. -/
theorem countTotalBagsInside_total (containsGraph : ContainsGraph)
    (hacyclic : ∀ c, ¬ Relation.TransGen (DirectlyInside containsGraph) c c)
    (hsmall : ∀ c t, TotalOf containsGraph ((containsGraph.lookup c).getD []) t → t < 2 ^ 53)
    (color : String) :
    ∃ total : Nat,
      TotalOf containsGraph ((containsGraph.lookup color).getD []) total ∧
      (∀ n, TotalOf containsGraph ((containsGraph.lookup color).getD []) n → n = total) ∧
      ((containsGraph.lookup color).getD [] = [] → total = 0) ∧
      (∃ fuel, ∀ fuel', fuel ≤ fuel' →
        ∃ memo', countTotalBagsInside containsGraph fuel' color []
          = Run.done (JsNumber.finite total, memo')) ∧
      (∀ memo, MemoSound containsGraph memo →
        ∃ fuel, ∀ fuel', fuel ≤ fuel' →
          ∃ memo', countTotalBagsInside containsGraph fuel' color memo
            = Run.done (JsNumber.finite total, memo')) := by
  obtain ⟨total, htotal, hcall⟩ := callCorrect_of_acyclic containsGraph hacyclic hsmall color
  have hgen : ∀ memo, MemoSound containsGraph memo →
      ∃ fuel, ∀ fuel', fuel ≤ fuel' →
        ∃ memo', countTotalBagsInside containsGraph fuel' color memo
          = Run.done (JsNumber.finite total, memo') := by
    intro memo hm
    obtain ⟨fuel, memo', hrun, -⟩ := hcall memo hm
    exact ⟨fuel, fun fuel' hf =>
      ⟨memo', countTotalBagsInside_mono containsGraph fuel color memo _ hrun fuel' hf⟩⟩
  refine ⟨total, htotal, fun n hn => totalOf_unique containsGraph _ n hn total htotal, ?_,
    hgen [] (fun k known hk => by simp at hk), hgen⟩
  intro hempty
  rw [hempty] at htotal
  cases htotal
  rfl

theorem countTotalBagsInside_total_witness :
    ∃ total : Nat,
      TotalOf [("a", [Content.mk 2 "b"])]
        ((List.lookup "a" [("a", [Content.mk 2 "b"])]).getD []) total ∧
      (∀ n, TotalOf [("a", [Content.mk 2 "b"])]
        ((List.lookup "a" [("a", [Content.mk 2 "b"])]).getD []) n → n = total) ∧
      ((List.lookup "a" [("a", [Content.mk 2 "b"])]).getD [] = [] → total = 0) ∧
      (∃ fuel, ∀ fuel', fuel ≤ fuel' →
        ∃ memo', countTotalBagsInside [("a", [Content.mk 2 "b"])] fuel' "a" []
          = Run.done (JsNumber.finite total, memo')) ∧
      (∀ memo, MemoSound [("a", [Content.mk 2 "b"])] memo →
        ∃ fuel, ∀ fuel', fuel ≤ fuel' →
          ∃ memo', countTotalBagsInside [("a", [Content.mk 2 "b"])] fuel' "a" memo
            = Run.done (JsNumber.finite total, memo')) :=
  countTotalBagsInside_total [("a", [Content.mk 2 "b"])] (by
    intro c h
    have hin : ∀ x y, DirectlyInside [("a", [Content.mk 2 "b"])] x y → x = "b" ∧ y = "a" := by
      rintro x y ⟨contents, hlook, entry, hentry, hinner⟩
      by_cases hy : y = "a"
      · subst hy
        simp [List.lookup] at hlook
        subst hlook
        simp at hentry
        subst hentry
        exact ⟨hinner.symm, rfl⟩
      · have hyb : (y == "a") = false := by simpa using hy
        simp [List.lookup, hyb] at hlook
    have hstart : ∀ z, Relation.ReflTransGen (DirectlyInside [("a", [Content.mk 2 "b"])]) "a" z →
        z = "a" := by
      intro z hz
      induction hz with
      | refl => rfl
      | tail _ hstep ih =>
        rw [ih] at hstep
        exact absurd (hin _ _ hstep).1 (by decide)
    obtain ⟨y, hy, hlast⟩ := Relation.TransGen.tail'_iff.mp h
    obtain ⟨hyb, hca⟩ := hin _ _ hlast
    rw [hca] at hy
    rw [hstart y hy] at hyb
    exact absurd hyb (by decide)) (by
    have hempty : ∀ t, TotalOf [("a", [Content.mk 2 "b"])] [] t → t = 0 := by
      intro t ht
      cases ht
      rfl
    intro c t ht
    by_cases hc : c = "a"
    · subst hc
      have hl : (List.lookup "a" [("a", [Content.mk 2 "b"])]).getD [] = [Content.mk 2 "b"] := by
        decide
      rw [hl] at ht
      cases ht with
      | cons _ _ inside sum h1 h2 =>
        have hb : (List.lookup "b" [("a", [Content.mk 2 "b"])]).getD [] = [] := by decide
        simp only at h1
        rw [hb] at h1
        rw [hempty inside h1, hempty sum h2]
        norm_num
    · have hcb : (c == "a") = false := by simpa using hc
      have hl : (List.lookup c [("a", [Content.mk 2 "b"])]).getD [] = [] := by
        simp [List.lookup, hcb]
      rw [hl] at ht
      rw [hempty t ht]
      norm_num) "a"

end Day07

namespace Day11

theorem occupiedNeighborCount_acc (states : List Char) (l : List (Option Nat)) :
    ∀ acc : Nat,
      l.foldl (fun count neighborIndex =>
        match neighborIndex with
        | some j => if states[j]? = some '#' then count + 1 else count
        | none => count) acc = acc + occupiedCount states l := by
  induction l with
  | nil => intro acc; simp [occupiedCount]
  | cons e l ih =>
    intro acc
    simp only [List.foldl_cons]
    rw [ih]
    unfold occupiedCount
    rw [List.countP_cons]
    cases e with
    | none => simp
    | some j =>
      by_cases h : states[j]? = some '#'
      · simp [h]; omega
      · simp [h]

theorem occupiedNeighborCount_eq (states : List Char) (l : List (Option Nat)) :
    occupiedNeighborCount states l = occupiedCount states l := by
  unfold occupiedNeighborCount
  rw [occupiedNeighborCount_acc]
  simp

theorem length_specRoundFrom (nl : List (List (Option Nat))) (thr : Nat) (prev : List Char)
    (l : List Char) : ∀ i, (specRoundFrom nl thr prev i l).length = l.length := by
  induction l with
  | nil => intro i; rfl
  | cons ch rest ih => intro i; simp [specRoundFrom, ih]

theorem getElem?_specRoundFrom (nl : List (List (Option Nat))) (thr : Nat) (prev : List Char)
    (l : List Char) : ∀ i k, (specRoundFrom nl thr prev i l)[k]?
      = (l[k]?).map (specNextState nl thr prev (i + k)) := by
  induction l with
  | nil => intro i k; simp [specRoundFrom]
  | cons ch rest ih =>
    intro i k
    cases k with
    | zero => simp [specRoundFrom]
    | succ k =>
      simp only [specRoundFrom, List.getElem?_cons_succ]
      rw [ih (i + 1) k, show i + 1 + k = i + (k + 1) by omega]

theorem length_specRound (nl : List (List (Option Nat))) (thr : Nat) (prev : List Char) :
    (specRound nl thr prev).length = prev.length :=
  length_specRoundFrom nl thr prev prev 0

theorem getElem?_specRound (nl : List (List (Option Nat))) (thr : Nat) (prev : List Char)
    (k : Nat) : (specRound nl thr prev)[k]? = (prev[k]?).map (specNextState nl thr prev k) := by
  unfold specRound
  rw [getElem?_specRoundFrom]
  simp

theorem seatLoop_done (cur : List Char) (nl : List (List (Option Nat))) (thr : Nat) :
    ∀ (remaining i : Nat) (next : List Char) (didChange : Bool) (r : List Char × Bool),
      i + remaining = cur.length → next.length = cur.length →
      (∀ k, i ≤ k → next[k]? = cur[k]?) →
      seatLoop cur nl thr remaining i next didChange = Run.done r →
      r.1.length = cur.length ∧
      (∀ k, k < i → r.1[k]? = next[k]?) ∧
      (∀ k, i ≤ k → r.1[k]? = (specRound nl thr cur)[k]?) ∧
      (r.2 = true ↔ didChange = true ∨ ∃ k, i ≤ k ∧ (specRound nl thr cur)[k]? ≠ cur[k]?) := by
  intro remaining
  induction remaining with
  | zero =>
    intro i next didChange r hi hlen hnext hrun
    simp only [seatLoop, Run.done.injEq] at hrun
    subst hrun
    have hnone : ∀ k, i ≤ k → (specRound nl thr cur)[k]? = cur[k]? := by
      intro k hk
      rw [getElem?_specRound, List.getElem?_eq_none (by omega : cur.length ≤ k)]
      rfl
    refine ⟨hlen, fun k _ => rfl, fun k hk => ?_, ?_⟩
    · rw [hnone k hk]; exact hnext k hk
    · constructor
      · intro h; exact Or.inl h
      · rintro (h | ⟨k, hk, hne⟩)
        · exact h
        · exact absurd (hnone k hk) hne
  | succ remaining ih =>
    intro i next didChange r hi hlen hnext hrun
    have hilt : i < cur.length := by omega
    obtain ⟨ch, hch⟩ : ∃ ch, cur[i]? = some ch := ⟨cur[i], List.getElem?_eq_getElem hilt⟩
    unfold seatLoop at hrun
    cases hnl : nl[i]? with
    | none => simp [hnl] at hrun
    | some nbrs =>
      simp only [hnl, hch, occupiedNeighborCount_eq, Option.some.injEq] at hrun
      have hspec : (specRound nl thr cur)[i]? = some (specNextState nl thr cur i ch) := by
        rw [getElem?_specRound, hch]; rfl
      have hgetD : nl[i]?.getD [] = nbrs := by rw [hnl]; rfl
      -- common continuation
      have step : ∀ (next' : List Char) (didChange' : Bool),
          next'.length = cur.length →
          (∀ k, k ≠ i → next'[k]? = next[k]?) →
          next'[i]? = some (specNextState nl thr cur i ch) →
          (didChange' = true ↔ didChange = true ∨ specNextState nl thr cur i ch ≠ ch) →
          seatLoop cur nl thr remaining (i + 1) next' didChange' = Run.done r →
          r.1.length = cur.length ∧
          (∀ k, k < i → r.1[k]? = next[k]?) ∧
          (∀ k, i ≤ k → r.1[k]? = (specRound nl thr cur)[k]?) ∧
          (r.2 = true ↔ didChange = true ∨
            ∃ k, i ≤ k ∧ (specRound nl thr cur)[k]? ≠ cur[k]?) := by
        intro next' didChange' hlen' hother hat hflag hrun'
        obtain ⟨h1, h2, h3, h4⟩ := ih (i + 1) next' didChange' r (by omega) hlen'
          (fun k hk => by rw [hother k (by omega)]; exact hnext k (by omega)) hrun'
        refine ⟨h1, fun k hk => ?_, fun k hk => ?_, ?_⟩
        · rw [h2 k (by omega), hother k (by omega)]
        · rcases Nat.eq_or_lt_of_le hk with rfl | hlt
          · rw [h2 i (by omega), hat, hspec]
          · exact h3 k hlt
        · rw [h4, hflag]
          constructor
          · rintro ((h | h) | ⟨k, hk, hne⟩)
            · exact Or.inl h
            · exact Or.inr ⟨i, le_refl _, by rw [hspec, hch]; simpa using h⟩
            · exact Or.inr ⟨k, by omega, hne⟩
          · rintro (h | ⟨k, hk, hne⟩)
            · exact Or.inl (Or.inl h)
            · rcases Nat.eq_or_lt_of_le hk with rfl | hlt
              · rw [hspec, hch] at hne
                exact Or.inl (Or.inr (by simpa using hne))
              · exact Or.inr ⟨k, hlt, hne⟩
      by_cases c1 : ch = 'L' ∧ occupiedCount cur nbrs = 0
      · rw [if_pos c1] at hrun
        have hval : specNextState nl thr cur i ch = '#' := by
          unfold specNextState; rw [hgetD, if_pos c1]
        refine step (next.set i '#') true (by simp [hlen])
          (fun k hk => List.getElem?_set_ne (Ne.symm hk)) ?_ ?_ hrun
        · rw [hval, List.getElem?_set_self (by omega)]
        · rw [hval, c1.1]; simp
      · rw [if_neg c1] at hrun
        by_cases c2 : ch = '#' ∧ occupiedCount cur nbrs ≥ thr
        · rw [if_pos c2] at hrun
          have hval : specNextState nl thr cur i ch = 'L' := by
            unfold specNextState; rw [hgetD, if_neg c1, if_pos c2]
          refine step (next.set i 'L') true (by simp [hlen])
            (fun k hk => List.getElem?_set_ne (Ne.symm hk)) ?_ ?_ hrun
          · rw [hval, List.getElem?_set_self (by omega)]
          · rw [hval, c2.1]; simp
        · rw [if_neg c2] at hrun
          have hval : specNextState nl thr cur i ch = ch := by
            unfold specNextState; rw [hgetD, if_neg c1, if_neg c2]
          refine step next didChange hlen (fun k _ => rfl) ?_ ?_ hrun
          · rw [hval, hnext i (le_refl _), hch]
          · rw [hval]; simp

theorem seatLoop_returns (cur : List Char) (nl : List (List (Option Nat))) (thr : Nat)
    (hnl : cur.length ≤ nl.length) :
    ∀ (remaining i : Nat) (next : List Char) (didChange : Bool),
      i + remaining = cur.length →
      ∃ r, seatLoop cur nl thr remaining i next didChange = Run.done r := by
  intro remaining
  induction remaining with
  | zero => intro i next didChange _; exact ⟨_, rfl⟩
  | succ remaining ih =>
    intro i next didChange hi
    have hilt : i < nl.length := by omega
    unfold seatLoop
    rw [List.getElem?_eq_getElem hilt]
    simp only
    split
    · exact ih _ _ _ (by omega)
    · split
      · exact ih _ _ _ (by omega)
      · exact ih _ _ _ (by omega)

theorem runRound_done (cur : List Char) (nl : List (List (Option Nat))) (thr : Nat)
    (r : List Char × Bool) (h : runRound cur nl thr = Run.done r) :
    r.1 = specRound nl thr cur ∧ (r.2 = true ↔ specRound nl thr cur ≠ cur) := by
  obtain ⟨h1, -, h3, h4⟩ := seatLoop_done cur nl thr cur.length 0 cur false r (by simp) rfl
    (fun _ _ => rfl) h
  refine ⟨List.ext_getElem? (fun k => h3 k (Nat.zero_le k)), ?_⟩
  rw [h4]
  constructor
  · rintro (h | ⟨k, -, hne⟩)
    · simp at h
    · intro heq; rw [heq] at hne; exact hne rfl
  · intro hne
    right
    by_contra hall
    apply hne
    apply List.ext_getElem?
    intro k
    by_contra hk
    exact hall ⟨k, Nat.zero_le k, hk⟩

theorem runRound_returns (cur : List Char) (nl : List (List (Option Nat))) (thr : Nat)
    (hnl : cur.length ≤ nl.length) :
    runRound cur nl thr
      = Run.done (specRound nl thr cur, decide (specRound nl thr cur ≠ cur)) := by
  obtain ⟨r, hr⟩ := seatLoop_returns cur nl thr hnl cur.length 0 cur false (by simp)
  have hr' : runRound cur nl thr = Run.done r := hr
  obtain ⟨h1, h2⟩ := runRound_done cur nl thr r hr'
  rw [hr']
  obtain ⟨a, b⟩ := r
  simp only at h1 h2
  subst h1
  congr 2
  by_cases hb : b = true
  · rw [hb]; exact (decide_eq_true (h2.mp hb)).symm
  · have hb' : b = false := by simpa using hb
    rw [hb']
    have : ¬ (specRound nl thr cur ≠ cur) := fun hne => hb (h2.mpr hne)
    exact (decide_eq_false this).symm

theorem simulateUntilStable_done (nl : List (List (Option Nat))) (thr : Nat) :
    ∀ (rounds : Nat) (cur s : List Char),
      simulateUntilStable rounds cur nl thr = Run.done s →
      ∃ k, s = (specRound nl thr)^[k] cur ∧ specRound nl thr s = s ∧
        ∀ j, j < k → specRound nl thr ((specRound nl thr)^[j] cur) ≠ (specRound nl thr)^[j] cur := by
  intro rounds
  induction rounds with
  | zero => intro cur s h; simp [simulateUntilStable] at h
  | succ rounds ih =>
    intro cur s h
    unfold simulateUntilStable at h
    cases hr : runRound cur nl thr with
    | threw => simp [hr] at h
    | timeout => simp [hr] at h
    | done r =>
      obtain ⟨next, didChange⟩ := r
      obtain ⟨h1, h2⟩ := runRound_done cur nl thr _ hr
      simp only at h1 h2
      simp only [hr] at h
      cases didChange with
      | false =>
        simp only [Bool.not_false, if_true, Run.done.injEq] at h
        have hfix : specRound nl thr cur = cur := by
          by_contra hne
          have := h2.mpr hne
          simp at this
        refine ⟨0, ?_, ?_, fun j hj => absurd hj (Nat.not_lt_zero j)⟩
        · rw [← h, h1, hfix]; rfl
        · rw [← h, h1, hfix, hfix]
      | true =>
        simp only [Bool.not_true, Bool.false_eq_true, if_false] at h
        obtain ⟨k, hk1, hk2, hk3⟩ := ih next s h
        have hne : specRound nl thr cur ≠ cur := h2.mp rfl
        refine ⟨k + 1, ?_, hk2, ?_⟩
        · rw [Function.iterate_succ_apply, ← h1]; exact hk1
        · intro j hj
          cases j with
          | zero => simpa using hne
          | succ j =>
            rw [Function.iterate_succ_apply, ← h1]
            exact hk3 j (by omega)


theorem simulateUntilStable_mono (nl : List (List (Option Nat))) (thr : Nat) :
    ∀ (rounds : Nat) (cur s : List Char),
      simulateUntilStable rounds cur nl thr = Run.done s →
      ∀ rounds', rounds ≤ rounds' → simulateUntilStable rounds' cur nl thr = Run.done s := by
  intro rounds
  induction rounds with
  | zero => intro cur s h; simp [simulateUntilStable] at h
  | succ rounds ih =>
    intro cur s h rounds' hle
    obtain ⟨n, rfl⟩ : ∃ n, rounds' = n + 1 := ⟨rounds' - 1, by omega⟩
    unfold simulateUntilStable at h ⊢
    cases hr : runRound cur nl thr with
    | threw => simp [hr] at h
    | timeout => simp [hr] at h
    | done r =>
      obtain ⟨next, didChange⟩ := r
      simp only [hr] at h ⊢
      cases didChange with
      | false => simpa using h
      | true =>
        simp only [Bool.not_true, Bool.false_eq_true, if_false] at h ⊢
        exact ih next s h n (by omega)

theorem length_iterate_specRound (nl : List (List (Option Nat))) (thr : Nat) (init : List Char) :
    ∀ t, ((specRound nl thr)^[t] init).length = init.length := by
  intro t
  induction t with
  | zero => rfl
  | succ t ih => rw [Function.iterate_succ_apply', length_specRound, ih]

theorem simulateUntilStable_reaches (nl : List (List (Option Nat))) (thr : Nat) :
    ∀ (k : Nat) (cur : List Char), cur.length ≤ nl.length →
      specRound nl thr ((specRound nl thr)^[k] cur) = (specRound nl thr)^[k] cur →
      ∃ s, ∀ rounds, k < rounds → simulateUntilStable rounds cur nl thr = Run.done s := by
  have stable : ∀ cur : List Char, cur.length ≤ nl.length → specRound nl thr cur = cur →
      ∀ rounds, 0 < rounds → simulateUntilStable rounds cur nl thr = Run.done cur := by
    intro cur hlen hfix rounds hr
    obtain ⟨r, rfl⟩ : ∃ r, rounds = r + 1 := ⟨rounds - 1, by omega⟩
    unfold simulateUntilStable
    rw [runRound_returns cur nl thr hlen]
    simp [hfix]
  intro k
  induction k with
  | zero =>
    intro cur hlen hfix
    exact ⟨cur, stable cur hlen hfix⟩
  | succ k ih =>
    intro cur hlen hfix
    by_cases hcur : specRound nl thr cur = cur
    · exact ⟨cur, fun rounds hr => stable cur hlen hcur rounds (by omega)⟩
    · rw [Function.iterate_succ_apply] at hfix
      obtain ⟨s, hs⟩ := ih (specRound nl thr cur) (by rw [length_specRound]; exact hlen) hfix
      refine ⟨s, fun rounds hr => ?_⟩
      obtain ⟨r, rfl⟩ : ∃ r, rounds = r + 1 := ⟨rounds - 1, by omega⟩
      unfold simulateUntilStable
      rw [runRound_returns cur nl thr hlen]
      simp only [hcur, ne_eq, not_false_eq_true, decide_True, Bool.not_true, Bool.false_eq_true,
        if_false]
      exact hs r (by omega)

theorem specNextState_cases (nl : List (List (Option Nat))) (thr : Nat) (prev : List Char)
    (i : Nat) (ch : Char) :
    specNextState nl thr prev i ch = ch ∨
      (ch = 'L' ∧ specNextState nl thr prev i ch = '#' ∧
        occupiedCount prev (nl[i]?.getD []) = 0) ∨
      (ch = '#' ∧ specNextState nl thr prev i ch = 'L' ∧
        occupiedCount prev (nl[i]?.getD []) ≥ thr) := by
  unfold specNextState
  by_cases c1 : ch = 'L' ∧ occupiedCount prev (nl[i]?.getD []) = 0
  · rw [if_pos c1]; exact Or.inr (Or.inl ⟨c1.1, rfl, c1.2⟩)
  · rw [if_neg c1]
    by_cases c2 : ch = '#' ∧ occupiedCount prev (nl[i]?.getD []) ≥ thr
    · rw [if_pos c2]; exact Or.inr (Or.inr ⟨c2.1, rfl, c2.2⟩)
    · rw [if_neg c2]; exact Or.inl rfl

theorem getElem?_iterate_succ (nl : List (List (Option Nat))) (thr : Nat) (init : List Char)
    (t i : Nat) :
    ((specRound nl thr)^[t + 1] init)[i]?
      = (((specRound nl thr)^[t] init)[i]?).map
          (specNextState nl thr ((specRound nl thr)^[t] init) i) := by
  rw [Function.iterate_succ_apply', getElem?_specRound]

/-- A seat state `X` among 'L' and '#' that, from round `T` on, is never left
once entered: the seat is constant from some later round on. -/
theorem seat_settles_of_absorbing (nl : List (List (Option Nat))) (thr : Nat)
    (init : List Char) (i T : Nat) (X : Char) (hX : X = 'L' ∨ X = '#')
    (habs : ∀ t, T ≤ t → ((specRound nl thr)^[t] init)[i]? = some X →
      ((specRound nl thr)^[t + 1] init)[i]? = some X) :
    ∃ T', T ≤ T' ∧ ∀ t, T' ≤ t →
      ((specRound nl thr)^[t] init)[i]? = ((specRound nl thr)^[T'] init)[i]? := by
  by_cases h : ∃ t0, T ≤ t0 ∧ ((specRound nl thr)^[t0] init)[i]? = some X
  · obtain ⟨t0, ht0, hx⟩ := h
    refine ⟨t0, ht0, fun t ht => ?_⟩
    rw [hx]
    induction t, ht using Nat.le_induction with
    | base => exact hx
    | succ t ht ih => exact habs t (le_trans ht0 ht) ih
  · refine ⟨T, le_refl _, fun t ht => ?_⟩
    induction t, ht using Nat.le_induction with
    | base => rfl
    | succ t ht ih =>
      rw [← ih, getElem?_iterate_succ]
      cases hch : ((specRound nl thr)^[t] init)[i]? with
      | none => rfl
      | some ch =>
        simp only [Option.map_some']
        congr 1
        have hnext : ((specRound nl thr)^[t + 1] init)[i]?
            = some (specNextState nl thr ((specRound nl thr)^[t] init) i ch) := by
          rw [getElem?_iterate_succ, hch]; rfl
        rcases specNextState_cases nl thr ((specRound nl thr)^[t] init) i ch with
          hsame | ⟨hL, hto, -⟩ | ⟨hO, hto, -⟩
        · exact hsame
        · exfalso
          rcases hX with rfl | rfl
          · exact h ⟨t, ht, by rw [hch, hL]⟩
          · exact h ⟨t + 1, by omega, by rw [hnext, hto]⟩
        · exfalso
          rcases hX with rfl | rfl
          · exact h ⟨t + 1, by omega, by rw [hnext, hto]⟩
          · exact h ⟨t, ht, by rw [hch, hO]⟩

theorem seat_settles (nl : List (List (Option Nat))) (thr : Nat) (init : List Char) (i T : Nat)
    (hlater : List.countP (laterEntry i) (nl[i]?.getD []) < thr)
    (hfrozen : ∀ j, j < i → ∀ t, T ≤ t →
      ((specRound nl thr)^[t] init)[j]? = ((specRound nl thr)^[T] init)[j]?) :
    ∃ T', T ≤ T' ∧ ∀ t, T' ≤ t →
      ((specRound nl thr)^[t] init)[i]? = ((specRound nl thr)^[T'] init)[i]? := by
  by_cases hA : ∃ e ∈ nl[i]?.getD [], ∃ j, e = some j ∧ j < i ∧
      ((specRound nl thr)^[T] init)[j]? = some '#'
  · obtain ⟨e, he, j, rfl, hji, hocc⟩ := hA
    apply seat_settles_of_absorbing nl thr init i T 'L' (Or.inl rfl)
    intro t ht hL
    rw [getElem?_iterate_succ, hL]
    simp only [Option.map_some', Option.some.injEq]
    have hpos : 0 < occupiedCount ((specRound nl thr)^[t] init) (nl[i]?.getD []) := by
      unfold occupiedCount
      rw [List.countP_pos_iff]
      exact ⟨some j, he, by simp [hfrozen j hji t ht, hocc]⟩
    unfold specNextState
    rw [if_neg (by omega), if_neg (by simp)]
  · apply seat_settles_of_absorbing nl thr init i T '#' (Or.inr rfl)
    intro t ht hO
    rw [getElem?_iterate_succ, hO]
    simp only [Option.map_some', Option.some.injEq]
    have hle : occupiedCount ((specRound nl thr)^[t] init) (nl[i]?.getD [])
        ≤ List.countP (laterEntry i) (nl[i]?.getD []) := by
      unfold occupiedCount
      apply List.countP_mono_left
      intro e he hocc
      cases e with
      | none => simp at hocc
      | some j =>
        simp only [decide_eq_true_eq] at hocc
        simp only [laterEntry, decide_eq_true_eq]
        by_contra hlt
        exact hA ⟨some j, he, j, rfl, by omega, by rw [← hfrozen j (by omega) t ht]; exact hocc⟩
    unfold specNextState
    rw [if_neg (by simp), if_neg (by omega)]

theorem seats_settle (nl : List (List (Option Nat))) (thr : Nat) (init : List Char)
    (hlater : ∀ i, List.countP (laterEntry i) (nl[i]?.getD []) < thr) :
    ∀ i : Nat, ∃ T : Nat, ∀ j : Nat, j < i → ∀ t : Nat, T ≤ t →
      ((specRound nl thr)^[t] init)[j]? = ((specRound nl thr)^[T] init)[j]? := by
  intro i
  induction i with
  | zero => exact ⟨0, fun j hj => (Nat.not_lt_zero j hj).elim⟩
  | succ i ih =>
    obtain ⟨T, hT⟩ := ih
    obtain ⟨T', hTT', hT'⟩ := seat_settles nl thr init i T (hlater i) hT
    refine ⟨T', fun j hj t ht => ?_⟩
    rcases Nat.eq_or_lt_of_le (Nat.le_of_lt_succ hj) with rfl | hlt
    · exact hT' t ht
    · rw [hT j hlt t (le_trans hTT' ht), hT j hlt T' hTT']

/-- Fixed point reached: when every seat has fewer than `thr` entries naming a
seat of its own index or more, some round of the specification changes nothing. -/
theorem exists_fixed_round (nl : List (List (Option Nat))) (thr : Nat) (init : List Char)
    (hlater : ∀ i, List.countP (laterEntry i) (nl[i]?.getD []) < thr) :
    ∃ T, specRound nl thr ((specRound nl thr)^[T] init) = (specRound nl thr)^[T] init := by
  obtain ⟨T, hT⟩ := seats_settle nl thr init hlater init.length
  refine ⟨T, ?_⟩
  rw [← Function.iterate_succ_apply' (specRound nl thr) T init]
  apply List.ext_getElem?
  intro j
  by_cases hj : j < init.length
  · exact hT j hj (T + 1) (by omega)
  · rw [List.getElem?_eq_none (by rw [length_iterate_specRound]; omega),
      List.getElem?_eq_none (by rw [length_iterate_specRound]; omega)]

theorem simulateUntilStable_terminates (nl : List (List (Option Nat))) (thr : Nat)
    (init : List Char) (hlen : init.length ≤ nl.length)
    (hlater : ∀ i, List.countP (laterEntry i) (nl[i]?.getD []) < thr) :
    ∃ T s, ∀ rounds, T < rounds → simulateUntilStable rounds init nl thr = Run.done s := by
  obtain ⟨T, hT⟩ := exists_fixed_round nl thr init hlater
  obtain ⟨s, hs⟩ := simulateUntilStable_reaches nl thr T init hlen hT
  exact ⟨T, s, hs⟩

/-- C3: a returned result of `simulateUntilStable` is the first state of the
sequence initial, round(initial), round(round(initial)), ... that the round of
the specification leaves unchanged. -/
theorem simulateUntilStable_first_fixed_state (rounds : Nat) (initial : List Char)
    (neighbours : List (List (Option Nat))) (threshold : Nat) (result : List Char)
    (h : simulateUntilStable rounds initial neighbours threshold = Run.done result) :
    ∃ k, result = (specRound neighbours threshold)^[k] initial ∧
      specRound neighbours threshold result = result ∧
      ∀ j, j < k → specRound neighbours threshold ((specRound neighbours threshold)^[j] initial)
        ≠ (specRound neighbours threshold)^[j] initial :=
  simulateUntilStable_done neighbours threshold rounds initial result h

theorem simulateUntilStable_first_fixed_state_witness :
    ∃ k, ['#', 'L', '#'] = (specRound [[some 1], [some 0, some 2], [some 1]] 2)^[k] ['L', 'L', 'L'] ∧
      specRound [[some 1], [some 0, some 2], [some 1]] 2 ['#', 'L', '#'] = ['#', 'L', '#'] ∧
      ∀ j, j < k →
        specRound [[some 1], [some 0, some 2], [some 1]] 2
            ((specRound [[some 1], [some 0, some 2], [some 1]] 2)^[j] ['L', 'L', 'L'])
          ≠ (specRound [[some 1], [some 0, some 2], [some 1]] 2)^[j] ['L', 'L', 'L'] :=
  simulateUntilStable_first_fixed_state 5 ['L', 'L', 'L'] [[some 1], [some 0, some 2], [some 1]] 2
    ['#', 'L', '#'] (by decide)


theorem indexGood_mono (acc : SeatIndex) (b b' : Nat × Nat)
    (hb : ∀ p, lexLt p b → lexLt p b') (h : IndexGood acc b) : IndexGood acc b' :=
  ⟨h.1, fun p hp => hb p (h.2.1 p hp), h.2.2⟩

theorem buildRow_good (row : Nat) (cells : List Char) :
    ∀ (col : Nat) (acc : SeatIndex), IndexGood acc (row, col) →
      IndexGood (buildRow row cells col acc) (row + 1, 0) := by
  induction cells with
  | nil =>
    intro col acc h
    simp only [buildRow]
    apply indexGood_mono acc _ _ _ h
    intro p hp
    unfold lexLt at hp ⊢
    simp only at hp ⊢
    omega
  | cons cell rest ih =>
    intro col acc h
    simp only [buildRow]
    split
    · apply ih (col + 1)
      obtain ⟨hpw, hbound, hmap⟩ := h
      refine ⟨?_, ?_, ?_⟩
      · simp only
        rw [List.pairwise_append]
        refine ⟨hpw, List.pairwise_singleton _ _, ?_⟩
        intro a ha b hb
        rw [List.mem_singleton] at hb
        subst hb
        exact hbound a ha
      · intro p hp
        simp only [List.mem_append, List.mem_singleton] at hp
        rcases hp with hp | rfl
        · have := hbound p hp
          unfold lexLt at this ⊢
          simp only at this ⊢
          omega
        · unfold lexLt; simp
      · intro key j hget
        simp only [mapGet, mapSet, List.lookup_cons] at hget
        by_cases hkey : key = ((row : Int), (col : Int))
        · subst hkey
          simp only [beq_self_eq_true, Option.some.injEq] at hget
          subst hget
          exact ⟨(row, col), rfl, by simp⟩
        · have hbeq : (key == ((row : Int), (col : Int))) = false := by
            simpa using hkey
          rw [hbeq] at hget
          obtain ⟨p, hp, hj⟩ := hmap key j hget
          refine ⟨p, hp, ?_⟩
          have hlt : j < acc.seatPositions.length := by
            by_contra hge
            rw [List.getElem?_eq_none (by omega)] at hj
            exact absurd hj (by simp)
          simp only
          rw [List.getElem?_append_left hlt]
          exact hj
    · apply ih (col + 1)
      apply indexGood_mono acc _ _ _ h
      intro p hp
      unfold lexLt at hp ⊢
      simp only at hp ⊢
      omega

theorem buildRows_good (rows : List (List Char)) :
    ∀ (row : Nat) (acc : SeatIndex), IndexGood acc (row, 0) →
      ∃ bound, IndexGood (buildRows rows row acc) bound := by
  induction rows with
  | nil => intro row acc h; exact ⟨_, h⟩
  | cons cells rest ih =>
    intro row acc h
    simp only [buildRows]
    exact ih (row + 1) _ (buildRow_good row cells 0 acc h)

theorem buildSeatIndex_good (grid : Grid) : ∃ bound, IndexGood (buildSeatIndex grid) bound := by
  unfold buildSeatIndex
  apply buildRows_good
  refine ⟨List.Pairwise.nil, fun p hp => absurd hp (List.not_mem_nil p), ?_⟩
  intro key j h
  simp [mapGet] at h

theorem index_lt_of_lexLt (l : List (Nat × Nat)) (hpw : l.Pairwise lexLt) (i j : Nat)
    (p q : Nat × Nat) (hj : l[j]? = some p) (hi : l[i]? = some q) (hlt : lexLt p q) : j < i := by
  by_contra hge
  rcases Nat.eq_or_lt_of_le (Nat.le_of_not_lt hge) with heq | hlt'
  · subst heq
    rw [hj] at hi
    simp only [Option.some.injEq] at hi
    subst hi
    unfold lexLt at hlt
    omega
  · obtain ⟨hi', hie⟩ := List.getElem?_eq_some.mp hi
    obtain ⟨hj', hje⟩ := List.getElem?_eq_some.mp hj
    have := (List.pairwise_iff_getElem.mp hpw) i j hi' hj' hlt'
    rw [hie, hje] at this
    unfold lexLt at hlt this
    omega

theorem scanDirection_some (grid : Grid) (m : CoordMap) (dRow dCol : Int) :
    ∀ (steps : Nat) (r c : Int) (j : Nat),
      scanDirection grid m dRow dCol steps r c = some (some j) →
      ∃ k : Nat, mapGet m (r + (k : Int) * dRow, c + (k : Int) * dCol) = some j := by
  intro steps
  induction steps with
  | zero => intro r c j h; simp [scanDirection] at h
  | succ steps ih =>
    intro r c j h
    unfold scanDirection at h
    split at h
    · split at h
      · refine ⟨0, ?_⟩
        simp only [Option.some.injEq] at h
        simpa using h
      · obtain ⟨k, hk⟩ := ih _ _ j h
        refine ⟨k + 1, ?_⟩
        have e1 : r + ((k + 1 : Nat) : Int) * dRow = r + dRow + (k : Int) * dRow := by
          push_cast; ring
        have e2 : c + ((k + 1 : Nat) : Int) * dCol = c + dCol + (k : Int) * dCol := by
          push_cast; ring
        rw [e1, e2]
        exact hk
    · simp at h

/-- The bound `grid.length + grid[0].length` of `precomputeVisibleNeighbors` is
never used up inside the grid: a scan with `n` or more steps left, `n` being at
least the number of cells ahead in its direction, gives the same result for
every such number of steps. -/
theorem scanDirection_steps_irrelevant (grid : Grid) (m : CoordMap) (d : Int × Int)
    (hd : d ∈ DIRECTIONS) :
    ∀ (n steps steps' : Nat) (r c : Int), n ≤ steps → n ≤ steps' →
      (if d.1 = 1 then (grid.length : Int) - r
        else if d.1 = -1 then r + 1
        else if d.2 = 1 then (gridWidth grid : Int) - c
        else c + 1) ≤ (n : Int) →
      scanDirection grid m d.1 d.2 steps r c = scanDirection grid m d.1 d.2 steps' r c := by
  intro n
  induction n with
  | zero =>
    intro steps steps' r c _ _ hahead
    have hout : ¬ (r ≥ 0 ∧ r < (grid.length : Int) ∧ c ≥ 0 ∧ c < (gridWidth grid : Int)) := by
      simp only [DIRECTIONS, List.mem_cons, List.mem_singleton, List.not_mem_nil, or_false] at hd
      rcases hd with rfl | rfl | rfl | rfl | rfl | rfl | rfl | rfl <;>
        simp at hahead <;> omega
    have hnone : ∀ k, scanDirection grid m d.1 d.2 k r c = none := by
      intro k
      cases k with
      | zero => rfl
      | succ k => unfold scanDirection; rw [if_neg hout]
    rw [hnone, hnone]
  | succ n ih =>
    intro steps steps' r c hs hs' hahead
    obtain ⟨k, rfl⟩ : ∃ k, steps = k + 1 := ⟨steps - 1, by omega⟩
    obtain ⟨k', rfl⟩ : ∃ k', steps' = k' + 1 := ⟨steps' - 1, by omega⟩
    unfold scanDirection
    split
    · rename_i hin
      split
      · rfl
      · apply ih k k' _ _ (by omega) (by omega)
        simp only [DIRECTIONS, List.mem_cons, List.mem_singleton, List.not_mem_nil,
          or_false] at hd
        rcases hd with rfl | rfl | rfl | rfl | rfl | rfl | rfl | rfl <;>
          simp at hahead ⊢ <;> omega
    · rfl

theorem scanDirection_bound_suffices (grid : Grid) (m : CoordMap) (d : Int × Int)
    (hd : d ∈ DIRECTIONS) (steps : Nat) (r c : Int)
    (hsteps : grid.length + gridWidth grid ≤ steps) :
    scanDirection grid m d.1 d.2 steps r c
      = scanDirection grid m d.1 d.2 (grid.length + gridWidth grid) r c := by
  by_cases hin : r ≥ 0 ∧ r < (grid.length : Int) ∧ c ≥ 0 ∧ c < (gridWidth grid : Int)
  · apply scanDirection_steps_irrelevant grid m d hd (grid.length + gridWidth grid) _ _ r c
      hsteps (le_refl _)
    simp only [DIRECTIONS, List.mem_cons, List.mem_singleton, List.not_mem_nil, or_false] at hd
    rcases hd with rfl | rfl | rfl | rfl | rfl | rfl | rfl | rfl <;> simp <;> omega
  · have hnone : ∀ k, scanDirection grid m d.1 d.2 k r c = none := by
      intro k
      cases k with
      | zero => rfl
      | succ k => unfold scanDirection; rw [if_neg hin]
    rw [hnone, hnone]

theorem visible_entry_earlier (grid : Grid) (bound : Nat × Nat)
    (hgood : IndexGood (buildSeatIndex grid) bound) (i : Nat) (pos : Nat × Nat)
    (hpos : (buildSeatIndex grid).seatPositions[i]? = some pos) (d : Int × Int)
    (hd : d ∈ [((-1 : Int), (-1 : Int)), (-1, 0), (-1, 1), (0, -1)]) (steps j : Nat)
    (h : scanDirection grid (buildSeatIndex grid).seatIndexByCoord d.1 d.2 steps
      ((pos.1 : Int) + d.1) ((pos.2 : Int) + d.2) = some (some j)) : j < i := by
  obtain ⟨k, hk⟩ := scanDirection_some grid _ d.1 d.2 steps _ _ j h
  obtain ⟨p, hkey, hj⟩ := hgood.2.2 _ j hk
  apply index_lt_of_lexLt _ hgood.1 i j p pos hj hpos
  simp only [Prod.mk.injEq] at hkey
  obtain ⟨h1, h2⟩ := hkey
  unfold lexLt
  simp only [List.mem_cons, List.mem_singleton, List.not_mem_nil, or_false] at hd
  rcases hd with rfl | rfl | rfl | rfl <;> simp only at h1 h2 <;> omega

theorem visible_later_count (grid : Grid) (bound : Nat × Nat)
    (hgood : IndexGood (buildSeatIndex grid) bound) (i : Nat) (pos : Nat × Nat)
    (hpos : (buildSeatIndex grid).seatPositions[i]? = some pos) (steps : Nat) :
    List.countP (laterEntry i)
      (DIRECTIONS.filterMap (fun d =>
        scanDirection grid (buildSeatIndex grid).seatIndexByCoord d.1 d.2 steps
          ((pos.1 : Int) + d.1) ((pos.2 : Int) + d.2))) ≤ 4 := by
  have hsplit : DIRECTIONS = [((-1 : Int), (-1 : Int)), (-1, 0), (-1, 1), (0, -1)]
      ++ [(0, 1), (1, -1), (1, 0), (1, 1)] := rfl
  rw [hsplit, List.filterMap_append, List.countP_append]
  have hfirst : List.countP (laterEntry i)
      (([((-1 : Int), (-1 : Int)), (-1, 0), (-1, 1), (0, -1)]).filterMap (fun d =>
        scanDirection grid (buildSeatIndex grid).seatIndexByCoord d.1 d.2 steps
          ((pos.1 : Int) + d.1) ((pos.2 : Int) + d.2))) = 0 := by
    rw [List.countP_eq_zero]
    intro e he
    rw [List.mem_filterMap] at he
    obtain ⟨d, hd, hscan⟩ := he
    cases e with
    | none => simp [laterEntry]
    | some j =>
      have := visible_entry_earlier grid bound hgood i pos hpos d hd steps j hscan
      simp only [laterEntry, decide_eq_true_eq]
      omega
  have hlast : List.countP (laterEntry i)
      (([((0 : Int), (1 : Int)), (1, -1), (1, 0), (1, 1)]).filterMap (fun d =>
        scanDirection grid (buildSeatIndex grid).seatIndexByCoord d.1 d.2 steps
          ((pos.1 : Int) + d.1) ((pos.2 : Int) + d.2))) ≤ 4 :=
    le_trans (List.countP_le_length _) (le_trans (List.length_filterMap_le _ _) (by simp))
  omega

theorem visible_later_lt (grid : Grid) (i : Nat) :
    List.countP (laterEntry i)
      ((precomputeVisibleNeighbors grid (buildSeatIndex grid).seatPositions
        (buildSeatIndex grid).seatIndexByCoord)[i]?.getD []) < 5 := by
  obtain ⟨bound, hgood⟩ := buildSeatIndex_good grid
  unfold precomputeVisibleNeighbors
  rw [List.getElem?_map]
  cases hpos : (buildSeatIndex grid).seatPositions[i]? with
  | none => simp
  | some pos =>
    simp only [Option.map_some', Option.getD_some]
    exact Nat.lt_succ_of_le (visible_later_count grid bound hgood i pos hpos _)

/-- C2, amended: with the visible neighbour lists and leave threshold 5,
`simulateUntilStable` terminates on every grid: from some number of rounds on
the bounded run returns a stable state, and no bound gives another result. -/
theorem stablePart2_terminates (grid : Grid) :
    ∃ stable : List Char,
      (∃ T : Nat, ∀ rounds, T < rounds → stablePart2 rounds grid = Run.done stable) ∧
      (∀ rounds result, stablePart2 rounds grid = Run.done result → result = stable) := by
  obtain ⟨T, stable, hT⟩ := simulateUntilStable_terminates
    (precomputeVisibleNeighbors grid (buildSeatIndex grid).seatPositions
      (buildSeatIndex grid).seatIndexByCoord) 5
    (initialSeatStates grid (buildSeatIndex grid).seatPositions)
    (by simp [initialSeatStates, precomputeVisibleNeighbors]) (visible_later_lt grid)
  refine ⟨stable, ⟨T, fun rounds hr => hT rounds hr⟩, ?_⟩
  intro rounds result hres
  have h1 := simulateUntilStable_mono _ 5 rounds _ result hres (max rounds (T + 1))
    (le_max_left _ _)
  have h2 := hT (max rounds (T + 1)) (by have := le_max_right rounds (T + 1); omega)
  rw [h2] at h1
  simpa using h1.symm

theorem octagon_alternates :
    runRound (initialSeatStates octagonGrid (buildSeatIndex octagonGrid).seatPositions)
        (precomputeAdjacentNeighbors octagonGrid (buildSeatIndex octagonGrid).seatPositions
          (buildSeatIndex octagonGrid).seatIndexByCoord) 4
      = Run.done (List.replicate 12 '#', true) ∧
    runRound (List.replicate 12 '#')
        (precomputeAdjacentNeighbors octagonGrid (buildSeatIndex octagonGrid).seatPositions
          (buildSeatIndex octagonGrid).seatIndexByCoord) 4
      = Run.done (initialSeatStates octagonGrid (buildSeatIndex octagonGrid).seatPositions,
          true) := by
  decide

theorem octagon_timeout (rounds : Nat) :
    simulateUntilStable rounds
        (initialSeatStates octagonGrid (buildSeatIndex octagonGrid).seatPositions)
        (precomputeAdjacentNeighbors octagonGrid (buildSeatIndex octagonGrid).seatPositions
          (buildSeatIndex octagonGrid).seatIndexByCoord) 4 = Run.timeout ∧
    simulateUntilStable rounds (List.replicate 12 '#')
        (precomputeAdjacentNeighbors octagonGrid (buildSeatIndex octagonGrid).seatPositions
          (buildSeatIndex octagonGrid).seatIndexByCoord) 4 = Run.timeout := by
  induction rounds with
  | zero => exact ⟨rfl, rfl⟩
  | succ rounds ih =>
    constructor
    · unfold simulateUntilStable
      rw [octagon_alternates.1]
      exact ih.2
    · unfold simulateUntilStable
      rw [octagon_alternates.2]
      exact ih.1

/-- C2, the claim as written fails: on the rectangular 4 by 4 grid
`.LL. / LLLL / LLLL / .LL.` every seat has at least four adjacent seats, the
states alternate between all empty and all occupied, and the run with the
adjacent lists and threshold 4 never returns, whatever the number of rounds. -/
theorem stablePart1_octagon_never_returns :
    WellFormed octagonGrid ∧ ∀ rounds, stablePart1 rounds octagonGrid = Run.timeout :=
  ⟨by decide, fun rounds => (octagon_timeout rounds).1⟩

theorem drop_eq_cons {α : Type} (l : List α) :
    ∀ (n : Nat) (x : α) (rest : List α), l.drop n = x :: rest →
      l[n]? = some x ∧ l.drop (n + 1) = rest := by
  induction l with
  | nil => intro n x rest h; simp at h
  | cons a l ih =>
    intro n x rest h
    cases n with
    | zero =>
      simp only [List.drop_zero, List.cons.injEq] at h
      obtain ⟨rfl, rfl⟩ := h
      simp
    | succ n =>
      simp only [List.drop_succ_cons] at h
      obtain ⟨h1, h2⟩ := ih n x rest h
      exact ⟨by simpa using h1, by simpa using h2⟩

theorem indexComplete_mono (grid : Grid) (acc : SeatIndex) (b b' : Nat × Nat)
    (hb : ∀ r c, lexLt (r, c) b' → IsSeatAt grid r c → lexLt (r, c) b)
    (h : IndexComplete grid acc b) : IndexComplete grid acc b' :=
  ⟨h.1, fun r c hlt hseat => h.2 r c (hb r c hlt hseat) hseat⟩

theorem buildRow_complete (grid : Grid) (row : Nat) (fullRow : List Char)
    (hrow : grid[row]? = some fullRow) (cells : List Char) :
    ∀ (col : Nat) (acc : SeatIndex), cells = fullRow.drop col →
      IndexComplete grid acc (row, col) →
      IndexComplete grid (buildRow row cells col acc) (row + 1, 0) := by
  induction cells with
  | nil =>
    intro col acc hcells h
    simp only [buildRow]
    apply indexComplete_mono grid acc _ _ _ h
    intro r c hlt hseat
    have hcol : fullRow.length ≤ col := by
      by_contra hc
      have := congrArg List.length hcells
      simp at this
      omega
    obtain ⟨cells', ch, hr, hc, -⟩ := hseat
    unfold lexLt at hlt ⊢
    simp only at hlt ⊢
    by_cases hlt' : r < row
    · exact Or.inl hlt'
    · right
      have hrr : r = row := by omega
      refine ⟨hrr, ?_⟩
      rw [hrr, hrow] at hr
      simp only [Option.some.injEq] at hr
      subst hr
      have : c < fullRow.length := by
        by_contra hge
        rw [List.getElem?_eq_none (by omega)] at hc
        exact absurd hc (by simp)
      omega
  | cons cell rest ih =>
    intro col acc hcells h
    obtain ⟨hcell, hrest⟩ := drop_eq_cons fullRow col cell rest hcells.symm
    simp only [buildRow]
    split
    · rename_i hne
      apply ih (col + 1) _ hrest.symm
      obtain ⟨hpos, hmap⟩ := h
      constructor
      · intro p hp
        simp only [List.mem_append, List.mem_singleton] at hp
        rcases hp with hp | rfl
        · exact hpos p hp
        · exact ⟨fullRow, cell, hrow, hcell, hne⟩
      · intro r c hlt hseat
        simp only [mapGet, mapSet, List.lookup_cons]
        by_cases hkey : ((r : Int), (c : Int)) = ((row : Int), (col : Int))
        · rw [hkey]
          simp
        · have hbeq : ((((r : Int), (c : Int))) == ((row : Int), (col : Int))) = false := by
            simpa using hkey
          rw [hbeq]
          apply hmap r c _ hseat
          simp only [Prod.mk.injEq, Nat.cast_inj, not_and] at hkey
          unfold lexLt at hlt ⊢
          simp only at hlt ⊢
          omega
    · rename_i hfloor
      have hfl : cell = '.' := by simpa using hfloor
      apply ih (col + 1) _ hrest.symm
      apply indexComplete_mono grid acc _ _ _ h
      intro r c hlt hseat
      unfold lexLt at hlt ⊢
      simp only at hlt ⊢
      by_cases hrc : r = row ∧ c = col
      · exfalso
        obtain ⟨cells', ch, hr, hc, hch⟩ := hseat
        rw [hrc.1, hrow] at hr
        simp only [Option.some.injEq] at hr
        subst hr
        rw [hrc.2, hcell] at hc
        simp only [Option.some.injEq] at hc
        exact hch (by rw [← hc, hfl])
      · omega

theorem buildRows_complete (grid : Grid) (rows : List (List Char)) :
    ∀ (row : Nat) (acc : SeatIndex), rows = grid.drop row →
      IndexComplete grid acc (row, 0) →
      IndexComplete grid (buildRows rows row acc) (grid.length, 0) := by
  induction rows with
  | nil =>
    intro row acc hrows h
    simp only [buildRows]
    apply indexComplete_mono grid acc _ _ _ h
    intro r c _ hseat
    have hlen : grid.length ≤ row := by
      by_contra hc
      have := congrArg List.length hrows
      simp at this
      omega
    obtain ⟨cells', ch, hr, -, -⟩ := hseat
    have : r < grid.length := by
      by_contra hge
      rw [List.getElem?_eq_none (by omega)] at hr
      exact absurd hr (by simp)
    unfold lexLt
    simp only
    omega
  | cons cells rest ih =>
    intro row acc hrows h
    obtain ⟨hcells, hrest⟩ := drop_eq_cons grid row cells rest hrows.symm
    simp only [buildRows]
    exact ih (row + 1) _ hrest.symm
      (buildRow_complete grid row cells hcells cells 0 acc (by simp) h)

theorem buildSeatIndex_complete (grid : Grid) :
    IndexComplete grid (buildSeatIndex grid) (grid.length, 0) := by
  unfold buildSeatIndex
  apply buildRows_complete grid grid 0 _ (by simp)
  refine ⟨fun p hp => absurd hp (List.not_mem_nil p), ?_⟩
  intro r c hlt
  unfold lexLt at hlt
  simp only at hlt
  omega

/-- What the later proofs use of `buildSeatIndex`: a key the map knows is a
seat position and its value the index of that position; every seat of the grid
has an index; and two indices with the same position are equal. -/
theorem seatIndex_facts (grid : Grid) :
    (∀ (key : Int × Int) (j : Nat),
      mapGet (buildSeatIndex grid).seatIndexByCoord key = some j →
        ∃ p : Nat × Nat, key = ((p.1 : Int), (p.2 : Int)) ∧
          (buildSeatIndex grid).seatPositions[j]? = some p) ∧
    (∀ (j : Nat) (p : Nat × Nat), (buildSeatIndex grid).seatPositions[j]? = some p →
      IsSeatAt grid p.1 p.2 ∧
        mapGet (buildSeatIndex grid).seatIndexByCoord ((p.1 : Int), (p.2 : Int)) = some j) ∧
    (∀ r c : Nat, IsSeatAt grid r c →
      ∃ j, mapGet (buildSeatIndex grid).seatIndexByCoord ((r : Int), (c : Int)) = some j ∧
        (buildSeatIndex grid).seatPositions[j]? = some (r, c)) ∧
    (∀ (i j : Nat) (p : Nat × Nat), (buildSeatIndex grid).seatPositions[i]? = some p →
      (buildSeatIndex grid).seatPositions[j]? = some p → i = j) := by
  obtain ⟨bound, hpw, -, hmap⟩ := buildSeatIndex_good grid
  obtain ⟨hpos, hall⟩ := buildSeatIndex_complete grid
  have hinj : ∀ (i j : Nat) (p : Nat × Nat), (buildSeatIndex grid).seatPositions[i]? = some p →
      (buildSeatIndex grid).seatPositions[j]? = some p → i = j := by
    intro i j p hi hj
    obtain ⟨hi', hie⟩ := List.getElem?_eq_some.mp hi
    obtain ⟨hj', hje⟩ := List.getElem?_eq_some.mp hj
    rcases Nat.lt_trichotomy i j with hlt | heq | hgt
    · have := (List.pairwise_iff_getElem.mp hpw) i j hi' hj' hlt
      rw [hie, hje] at this
      unfold lexLt at this
      omega
    · exact heq
    · have := (List.pairwise_iff_getElem.mp hpw) j i hj' hi' hgt
      rw [hie, hje] at this
      unfold lexLt at this
      omega
  have hseat : ∀ r c : Nat, IsSeatAt grid r c →
      ∃ j, mapGet (buildSeatIndex grid).seatIndexByCoord ((r : Int), (c : Int)) = some j ∧
        (buildSeatIndex grid).seatPositions[j]? = some (r, c) := by
    intro r c hs
    have hlt : lexLt (r, c) (grid.length, 0) := by
      obtain ⟨cells', ch, hr, -, -⟩ := hs
      have : r < grid.length := by
        by_contra hge
        rw [List.getElem?_eq_none (by omega)] at hr
        exact absurd hr (by simp)
      exact Or.inl this
    obtain ⟨j, hj⟩ := hall r c hlt hs
    obtain ⟨p, hkey, hp⟩ := hmap _ j hj
    simp only [Prod.mk.injEq, Nat.cast_inj] at hkey
    refine ⟨j, hj, ?_⟩
    rw [hp]
    congr 1
    exact Prod.ext hkey.1.symm hkey.2.symm
  refine ⟨hmap, ?_, hseat, hinj⟩
  intro j p hp
  have hs := hpos p (List.getElem?_mem hp)
  refine ⟨hs, ?_⟩
  obtain ⟨j', hj', hp'⟩ := hseat p.1 p.2 hs
  rw [hj', hinj j' j p hp' hp]

theorem cellAt_natCast (grid : Grid) (r c : Nat) :
    cellAt grid (r : Int) (c : Int) = (grid[r]?).bind (fun cells => cells[c]?) := by
  unfold cellAt
  rw [if_neg (by omega)]
  simp only [Int.toNat_ofNat]
  cases grid[r]? <;> rfl

theorem isSeatAt_iff (grid : Grid) (r c : Nat) :
    IsSeatAt grid r c ↔ ∃ ch, cellAt grid (r : Int) (c : Int) = some ch ∧ ch ≠ '.' := by
  rw [cellAt_natCast]
  unfold IsSeatAt
  constructor
  · rintro ⟨cells, ch, hr, hc, hne⟩
    exact ⟨ch, by rw [hr]; exact hc, hne⟩
  · rintro ⟨ch, h, hne⟩
    cases hr : grid[r]? with
    | none => rw [hr] at h; simp at h
    | some cells => rw [hr] at h; exact ⟨cells, ch, rfl, h, hne⟩

theorem cellAt_inBounds (grid : Grid) (hrect : Rectangular grid) (r c : Int) (ch : Char)
    (h : cellAt grid r c = some ch) :
    r ≥ 0 ∧ r < (grid.length : Int) ∧ c ≥ 0 ∧ c < (gridWidth grid : Int) := by
  unfold cellAt at h
  split at h
  · simp at h
  · rename_i hneg
    cases hr : grid[r.toNat]? with
    | none => rw [hr] at h; simp at h
    | some cells =>
      rw [hr] at h
      simp only at h
      obtain ⟨h1, -⟩ := List.getElem?_eq_some.mp hr
      obtain ⟨h2, -⟩ := List.getElem?_eq_some.mp h
      have h3 := hrect cells (List.getElem?_mem hr)
      omega

theorem inBounds_cellAt (grid : Grid) (hrect : Rectangular grid) (r c : Int)
    (h : r ≥ 0 ∧ r < (grid.length : Int) ∧ c ≥ 0 ∧ c < (gridWidth grid : Int)) :
    ∃ ch, cellAt grid r c = some ch := by
  unfold cellAt
  rw [if_neg (by omega)]
  have h1 : r.toNat < grid.length := by omega
  rw [List.getElem?_eq_getElem h1]
  simp only
  have h3 := hrect _ (List.getElem_mem h1)
  have h2 : c.toNat < (grid[r.toNat]).length := by omega
  exact ⟨_, List.getElem?_eq_getElem h2⟩

/-- What a scan of `precomputeVisibleNeighbors` pushes on a rectangular grid:
the map entry of the first cell, `k` steps ahead, that is not floor, the cells
before it being floor. -/
theorem scanDirection_iff (grid : Grid) (hrect : Rectangular grid) (m : CoordMap)
    (dRow dCol : Int) :
    ∀ (steps : Nat) (r c : Int) (res : Option Nat),
      scanDirection grid m dRow dCol steps r c = some res ↔
        ∃ k : Nat, k < steps ∧
          (∀ t : Nat, t < k →
            cellAt grid (r + (t : Int) * dRow) (c + (t : Int) * dCol) = some '.') ∧
          (∃ ch, cellAt grid (r + (k : Int) * dRow) (c + (k : Int) * dCol) = some ch ∧
            ch ≠ '.') ∧
          res = mapGet m (r + (k : Int) * dRow, c + (k : Int) * dCol) := by
  intro steps
  induction steps with
  | zero => intro r c res; simp [scanDirection]
  | succ steps ih =>
    intro r c res
    have e1 : ∀ k : Nat, r + ((k + 1 : Nat) : Int) * dRow = r + dRow + (k : Int) * dRow := by
      intro k; push_cast; ring
    have e2 : ∀ k : Nat, c + ((k + 1 : Nat) : Int) * dCol = c + dCol + (k : Int) * dCol := by
      intro k; push_cast; ring
    constructor
    · intro h
      unfold scanDirection at h
      split at h
      · rename_i hin
        obtain ⟨ch, hch⟩ := inBounds_cellAt grid hrect r c hin
        split at h
        · rename_i hne
          refine ⟨0, by omega, fun t ht => absurd ht (by omega), ⟨ch, ?_, ?_⟩, ?_⟩
          · simpa using hch
          · intro hfl
            rw [hch, hfl] at hne
            exact hne rfl
          · simp only [Option.some.injEq] at h
            simpa using h.symm
        · rename_i hfl
          have hfl' : cellAt grid r c = some '.' := by simpa using hfl
          obtain ⟨k, hk, hfloor, hseat, hres⟩ := (ih _ _ res).mp h
          refine ⟨k + 1, by omega, ?_, ?_, ?_⟩
          · intro t ht
            cases t with
            | zero => simpa using hfl'
            | succ t =>
              rw [e1, e2]
              exact hfloor t (by omega)
          · rw [e1, e2]; exact hseat
          · rw [e1, e2]; exact hres
      · simp at h
    · rintro ⟨k, hk, hfloor, ⟨ch, hch, hne⟩, hres⟩
      have hin : r ≥ 0 ∧ r < (grid.length : Int) ∧ c ≥ 0 ∧ c < (gridWidth grid : Int) := by
        cases k with
        | zero =>
          simp only [Nat.cast_zero, zero_mul, add_zero] at hch
          exact cellAt_inBounds grid hrect r c ch hch
        | succ k =>
          have := hfloor 0 (by omega)
          simp only [Nat.cast_zero, zero_mul, add_zero] at this
          exact cellAt_inBounds grid hrect r c _ this
      unfold scanDirection
      rw [if_pos hin]
      cases k with
      | zero =>
        simp only [Nat.cast_zero, zero_mul, add_zero] at hch hres
        have : cellAt grid r c ≠ some '.' := by
          rw [hch]
          intro hc
          simp only [Option.some.injEq] at hc
          exact hne hc
        rw [if_pos this, hres]
      | succ k =>
        have hfl := hfloor 0 (by omega)
        simp only [Nat.cast_zero, zero_mul, add_zero] at hfl
        rw [if_neg (by simp [hfl])]
        apply (ih _ _ res).mpr
        refine ⟨k, by omega, ?_, ⟨ch, ?_, hne⟩, ?_⟩
        · intro t ht
          have := hfloor (t + 1) (by omega)
          rw [e1, e2] at this
          exact this
        · rw [e1, e2] at hch; exact hch
        · rw [e1, e2] at hres; exact hres

theorem neg_mem_DIRECTIONS (d : Int × Int) (hd : d ∈ DIRECTIONS) :
    (-d.1, -d.2) ∈ DIRECTIONS := by
  simp only [DIRECTIONS, List.mem_cons, List.mem_singleton, List.not_mem_nil, or_false] at hd
  rcases hd with rfl | rfl | rfl | rfl | rfl | rfl | rfl | rfl <;> decide

theorem sees_symm (grid : Grid) (p q : Nat × Nat) (h : Sees grid p q) : Sees grid q p := by
  obtain ⟨d, hd, k, h1, h2, hfloor⟩ := h
  refine ⟨(-d.1, -d.2), neg_mem_DIRECTIONS d hd, k, ?_, ?_, ?_⟩
  · rw [h1]; ring
  · rw [h2]; ring
  · intro t ht1 ht2
    have := hfloor (k + 1 - t) (by omega) (by omega)
    have hc : ((k + 1 - t : Nat) : Int) = (k : Int) + 1 - (t : Int) := by omega
    rw [hc] at this
    have e1 : (q.1 : Int) + (t : Int) * (-d.1, -d.2).1
        = (p.1 : Int) + ((k : Int) + 1 - (t : Int)) * d.1 := by
      rw [h1]; ring
    have e2 : (q.2 : Int) + (t : Int) * (-d.1, -d.2).2
        = (p.2 : Int) + ((k : Int) + 1 - (t : Int)) * d.2 := by
      rw [h2]; ring
    rw [e1, e2]
    exact this

theorem touches_symm (p q : Nat × Nat) (h : Touches p q) : Touches q p := by
  obtain ⟨d, hd, h1, h2⟩ := h
  refine ⟨(-d.1, -d.2), neg_mem_DIRECTIONS d hd, ?_, ?_⟩
  · rw [h1]; ring
  · rw [h2]; ring

theorem sees_of_touches (grid : Grid) (p q : Nat × Nat) (h : Touches p q) : Sees grid p q := by
  obtain ⟨d, hd, h1, h2⟩ := h
  refine ⟨d, hd, 0, ?_, ?_, ?_⟩
  · rw [h1]; simp
  · rw [h2]; simp
  · intro t ht1 ht2; omega

theorem touches_of_sees_no_floor (grid : Grid) (hno : ∀ cells ∈ grid, '.' ∉ cells)
    (p q : Nat × Nat) (h : Sees grid p q) : Touches p q := by
  obtain ⟨d, hd, k, h1, h2, hfloor⟩ := h
  cases k with
  | zero =>
    refine ⟨d, hd, ?_, ?_⟩
    · rw [h1]; simp
    · rw [h2]; simp
  | succ k =>
    exfalso
    have hfl := hfloor 1 (by omega) (by omega)
    unfold cellAt at hfl
    split at hfl
    · simp at hfl
    · cases hr : grid[((p.1 : Int) + ((1 : Nat) : Int) * d.1).toNat]? with
      | none => rw [hr] at hfl; simp at hfl
      | some cells =>
        rw [hr] at hfl
        simp only at hfl
        exact hno cells (List.getElem?_mem hr) (List.getElem?_mem hfl)

theorem seat_inBounds (grid : Grid) (hrect : Rectangular grid) (p : Nat × Nat)
    (h : IsSeatAt grid p.1 p.2) :
    (p.1 : Int) < (grid.length : Int) ∧ (p.2 : Int) < (gridWidth grid : Int) := by
  obtain ⟨ch, hch, -⟩ := (isSeatAt_iff grid p.1 p.2).mp h
  have := cellAt_inBounds grid hrect _ _ ch hch
  exact ⟨this.2.1, this.2.2.2⟩

/-- The entries of the visible list of the seat at `p` on a rectangular grid:
the indices of the seat positions `p` sees. -/
theorem visible_mem_iff (grid : Grid) (hrect : Rectangular grid) (i : Nat) (p : Nat × Nat)
    (hp : (buildSeatIndex grid).seatPositions[i]? = some p) (e : Option Nat) :
    e ∈ (visibleNeighbors grid)[i]?.getD [] ↔
      ∃ (j : Nat) (q : Nat × Nat), e = some j ∧
        (buildSeatIndex grid).seatPositions[j]? = some q ∧ Sees grid p q := by
  obtain ⟨hkey, hidx, hseat, -⟩ := seatIndex_facts grid
  unfold visibleNeighbors precomputeVisibleNeighbors
  rw [List.getElem?_map, hp]
  simp only [Option.map_some', Option.getD_some, List.mem_filterMap]
  constructor
  · rintro ⟨d, hd, hscan⟩
    obtain ⟨k, -, hfloor, ⟨ch, hch, hne⟩, hres⟩ :=
      (scanDirection_iff grid hrect _ d.1 d.2 _ _ _ e).mp hscan
    obtain ⟨hr0, -, hc0, -⟩ := cellAt_inBounds grid hrect _ _ ch hch
    obtain ⟨r, hr⟩ := Int.eq_ofNat_of_zero_le hr0
    obtain ⟨c, hc⟩ := Int.eq_ofNat_of_zero_le hc0
    rw [hr, hc] at hch hres
    obtain ⟨j, hj, hq⟩ := hseat r c ((isSeatAt_iff grid r c).mpr ⟨ch, hch, hne⟩)
    refine ⟨j, (r, c), by rw [hres, hj], hq, d, hd, k, ?_, ?_, ?_⟩
    · simp only; rw [← hr]; ring
    · simp only; rw [← hc]; ring
    · intro t ht1 ht2
      have := hfloor (t - 1) (by omega)
      have hc : ((t - 1 : Nat) : Int) = (t : Int) - 1 := by omega
      rw [hc] at this
      have e1 : (p.1 : Int) + (t : Int) * d.1 = (p.1 : Int) + d.1 + ((t : Int) - 1) * d.1 := by
        ring
      have e2 : (p.2 : Int) + (t : Int) * d.2 = (p.2 : Int) + d.2 + ((t : Int) - 1) * d.2 := by
        ring
      rw [e1, e2]
      exact this
  · rintro ⟨j, q, rfl, hq, d, hd, k, h1, h2, hfloor⟩
    obtain ⟨hqs, hqm⟩ := hidx j q hq
    obtain ⟨hps, -⟩ := hidx i p hp
    have hpb := seat_inBounds grid hrect p hps
    have hqb := seat_inBounds grid hrect q hqs
    have e1 : (p.1 : Int) + d.1 + (k : Int) * d.1 = (q.1 : Int) := by rw [h1]; ring
    have e2 : (p.2 : Int) + d.2 + (k : Int) * d.2 = (q.2 : Int) := by rw [h2]; ring
    refine ⟨d, hd, (scanDirection_iff grid hrect _ d.1 d.2 _ _ _ (some j)).mpr
      ⟨k, ?_, ?_, ?_, ?_⟩⟩
    · simp only [DIRECTIONS, List.mem_cons, List.mem_singleton, List.not_mem_nil,
        or_false] at hd
      rcases hd with rfl | rfl | rfl | rfl | rfl | rfl | rfl | rfl <;>
        simp only at h1 h2 <;> omega
    · intro t ht
      have := hfloor (t + 1) (by omega) (by omega)
      have e3 : (p.1 : Int) + ((t + 1 : Nat) : Int) * d.1
          = (p.1 : Int) + d.1 + (t : Int) * d.1 := by push_cast; ring
      have e4 : (p.2 : Int) + ((t + 1 : Nat) : Int) * d.2
          = (p.2 : Int) + d.2 + (t : Int) * d.2 := by push_cast; ring
      rw [e3, e4] at this
      exact this
    · rw [e1, e2]
      exact (isSeatAt_iff grid q.1 q.2).mp hqs
    · rw [e1, e2, hqm]

theorem adjacentInDirection_some (grid : Grid) (p : Nat × Nat) (d : Int × Int)
    (e : Option Nat)
    (hadj : adjacentInDirection grid (buildSeatIndex grid).seatIndexByCoord p.1 p.2 d = some e) :
    ∃ (j : Nat) (q : Nat × Nat), e = some j ∧
      (buildSeatIndex grid).seatPositions[j]? = some q ∧
      (q.1 : Int) = (p.1 : Int) + d.1 ∧ (q.2 : Int) = (p.2 : Int) + d.2 := by
  obtain ⟨hkey, -, -, -⟩ := seatIndex_facts grid
  unfold adjacentInDirection at hadj
  simp only at hadj
  split at hadj
  · simp at hadj
  · split at hadj
    · simp at hadj
    · split at hadj
      · rename_i hhas
        simp only [Option.some.injEq] at hadj
        cases hget : mapGet (buildSeatIndex grid).seatIndexByCoord
            ((p.1 : Int) + d.1, (p.2 : Int) + d.2) with
        | none =>
          unfold mapHas at hhas
          unfold mapGet at hget
          rw [hget] at hhas
          exact absurd hhas (by simp)
        | some j =>
          obtain ⟨q, hq, hqp⟩ := hkey _ j hget
          simp only [Prod.mk.injEq] at hq
          exact ⟨j, q, by rw [← hadj, hget], hqp, hq.1.symm, hq.2.symm⟩
      · simp at hadj

/-- The entries of the adjacent list of the seat at `p` on a rectangular grid:
the indices of the seat positions that touch `p`. -/
theorem adjacent_mem_iff (grid : Grid) (hrect : Rectangular grid) (i : Nat) (p : Nat × Nat)
    (hp : (buildSeatIndex grid).seatPositions[i]? = some p) (e : Option Nat) :
    e ∈ (adjacentNeighbors grid)[i]?.getD [] ↔
      ∃ (j : Nat) (q : Nat × Nat), e = some j ∧
        (buildSeatIndex grid).seatPositions[j]? = some q ∧ Touches p q := by
  obtain ⟨-, hidx, -, -⟩ := seatIndex_facts grid
  unfold adjacentNeighbors precomputeAdjacentNeighbors
  rw [List.getElem?_map, hp]
  simp only [Option.map_some', Option.getD_some, List.mem_filterMap]
  constructor
  · rintro ⟨d, hd, hadj⟩
    obtain ⟨j, q, hj, hq, h1, h2⟩ := adjacentInDirection_some grid p d e hadj
    exact ⟨j, q, hj, hq, d, hd, h1, h2⟩
  · rintro ⟨j, q, rfl, hq, d, hd, h1, h2⟩
    obtain ⟨hqs, hqm⟩ := hidx j q hq
    have hqb := seat_inBounds grid hrect q hqs
    refine ⟨d, hd, ?_⟩
    unfold adjacentInDirection
    simp only
    have hhas : mapHas (buildSeatIndex grid).seatIndexByCoord ((q.1 : Int), (q.2 : Int))
        = true := by
      unfold mapHas
      unfold mapGet at hqm
      rw [hqm]
      rfl
    rw [← h1, ← h2, if_neg (by omega), if_neg (by omega), if_pos hhas, hqm]

theorem list_nonempty_index {α : Type} (l : List (List α)) (i : Nat) (x : α)
    (h : x ∈ l[i]?.getD []) : i < l.length := by
  by_contra hge
  rw [List.getElem?_eq_none (by omega)] at h
  simp at h

theorem visible_symm_imp (grid : Grid) (hrect : Rectangular grid) (i j : Nat)
    (h : some j ∈ (visibleNeighbors grid)[i]?.getD []) :
    some i ∈ (visibleNeighbors grid)[j]?.getD [] := by
  have hi := list_nonempty_index _ i _ h
  simp only [visibleNeighbors, precomputeVisibleNeighbors, List.length_map] at hi
  have hp := List.getElem?_eq_getElem hi
  obtain ⟨j', q, hj', hq, hsees⟩ := (visible_mem_iff grid hrect i _ hp (some j)).mp h
  simp only [Option.some.injEq] at hj'
  subst hj'
  exact (visible_mem_iff grid hrect j q hq (some i)).mpr
    ⟨i, _, rfl, hp, sees_symm grid _ _ hsees⟩

theorem adjacent_symm_imp (grid : Grid) (hrect : Rectangular grid) (i j : Nat)
    (h : some j ∈ (adjacentNeighbors grid)[i]?.getD []) :
    some i ∈ (adjacentNeighbors grid)[j]?.getD [] := by
  have hi := list_nonempty_index _ i _ h
  simp only [adjacentNeighbors, precomputeAdjacentNeighbors, List.length_map] at hi
  have hp := List.getElem?_eq_getElem hi
  obtain ⟨j', q, hj', hq, htouch⟩ := (adjacent_mem_iff grid hrect i _ hp (some j)).mp h
  simp only [Option.some.injEq] at hj'
  subst hj'
  exact (adjacent_mem_iff grid hrect j q hq (some i)).mpr
    ⟨i, _, rfl, hp, touches_symm _ _ htouch⟩

theorem adjacent_nodup (grid : Grid) (i : Nat) :
    ((adjacentNeighbors grid)[i]?.getD []).Nodup := by
  unfold adjacentNeighbors precomputeAdjacentNeighbors
  rw [List.getElem?_map]
  cases hp : (buildSeatIndex grid).seatPositions[i]? with
  | none => simp
  | some p =>
    simp only [Option.map_some', Option.getD_some]
    apply List.Nodup.filterMap _ (by decide)
    intro d d' e hd hd'
    obtain ⟨j, q, hj, hq, h1, h2⟩ := adjacentInDirection_some grid p d e hd
    obtain ⟨j', q', hj', hq', h1', h2'⟩ := adjacentInDirection_some grid p d' e hd'
    rw [hj] at hj'
    simp only [Option.some.injEq] at hj'
    subst hj'
    rw [hq] at hq'
    simp only [Option.some.injEq] at hq'
    subst hq'
    apply Prod.ext <;> omega

/-- C25: on every rectangular grid the neighbour lists are symmetric: seat `j`
is in the visible list of seat `i` exactly when seat `i` is in the visible list
of seat `j`, and the same holds for the adjacent lists. -/
theorem neighbour_lists_symmetric (grid : Grid) (hrect : Rectangular grid) (i j : Nat) :
    (some j ∈ (visibleNeighbors grid)[i]?.getD [] ↔
      some i ∈ (visibleNeighbors grid)[j]?.getD []) ∧
    (some j ∈ (adjacentNeighbors grid)[i]?.getD [] ↔
      some i ∈ (adjacentNeighbors grid)[j]?.getD []) :=
  ⟨⟨visible_symm_imp grid hrect i j, visible_symm_imp grid hrect j i⟩,
   ⟨adjacent_symm_imp grid hrect i j, adjacent_symm_imp grid hrect j i⟩⟩

theorem neighbour_lists_symmetric_witness :
    Rectangular ["L.L".toList, "L..".toList, "..#".toList] ∧
    ((some 2 ∈ (visibleNeighbors ["L.L".toList, "L..".toList, "..#".toList])[0]?.getD [] ↔
      some 0 ∈ (visibleNeighbors ["L.L".toList, "L..".toList, "..#".toList])[2]?.getD []) ∧
    (some 2 ∈ (adjacentNeighbors ["L.L".toList, "L..".toList, "..#".toList])[0]?.getD [] ↔
      some 0 ∈ (adjacentNeighbors ["L.L".toList, "L..".toList, "..#".toList])[2]?.getD [])) :=
  ⟨by decide, neighbour_lists_symmetric _ (by decide) 0 2⟩

/-- C26: on every rectangular grid the adjacent list of a seat `i` has at most
eight entries and no duplicates, and every entry of it is in the visible list
of `i`; on a grid without a floor cell the two lists have the same entries. -/
theorem adjacent_list_within_visible (grid : Grid) (hrect : Rectangular grid) (i : Nat) :
    ((adjacentNeighbors grid)[i]?.getD []).length ≤ 8 ∧
    ((adjacentNeighbors grid)[i]?.getD []).Nodup ∧
    (∀ e ∈ (adjacentNeighbors grid)[i]?.getD [], e ∈ (visibleNeighbors grid)[i]?.getD []) ∧
    ((∀ cells ∈ grid, '.' ∉ cells) →
      ∀ e, e ∈ (adjacentNeighbors grid)[i]?.getD [] ↔
        e ∈ (visibleNeighbors grid)[i]?.getD []) := by
  have hsub : ∀ e ∈ (adjacentNeighbors grid)[i]?.getD [],
      e ∈ (visibleNeighbors grid)[i]?.getD [] := by
    intro e he
    have hi := list_nonempty_index _ i _ he
    simp only [adjacentNeighbors, precomputeAdjacentNeighbors, List.length_map] at hi
    have hp := List.getElem?_eq_getElem hi
    obtain ⟨j, q, hj, hq, htouch⟩ := (adjacent_mem_iff grid hrect i _ hp e).mp he
    exact (visible_mem_iff grid hrect i _ hp e).mpr
      ⟨j, q, hj, hq, sees_of_touches grid _ _ htouch⟩
  refine ⟨?_, adjacent_nodup grid i, hsub, ?_⟩
  · unfold adjacentNeighbors precomputeAdjacentNeighbors
    rw [List.getElem?_map]
    cases (buildSeatIndex grid).seatPositions[i]? with
    | none => simp
    | some p =>
      simp only [Option.map_some', Option.getD_some]
      exact le_trans (List.length_filterMap_le _ _) (by simp [DIRECTIONS])
  · intro hno e
    refine ⟨hsub e, ?_⟩
    intro he
    have hi := list_nonempty_index _ i _ he
    simp only [visibleNeighbors, precomputeVisibleNeighbors, List.length_map] at hi
    have hp := List.getElem?_eq_getElem hi
    obtain ⟨j, q, hj, hq, hsees⟩ := (visible_mem_iff grid hrect i _ hp e).mp he
    exact (adjacent_mem_iff grid hrect i _ hp e).mpr
      ⟨j, q, hj, hq, touches_of_sees_no_floor grid hno _ _ hsees⟩

theorem adjacent_list_within_visible_witness :
    Rectangular ["L#L".toList, "LL#".toList] ∧
    (((adjacentNeighbors ["L#L".toList, "LL#".toList])[1]?.getD []).length ≤ 8 ∧
    ((adjacentNeighbors ["L#L".toList, "LL#".toList])[1]?.getD []).Nodup ∧
    (∀ e ∈ (adjacentNeighbors ["L#L".toList, "LL#".toList])[1]?.getD [],
      e ∈ (visibleNeighbors ["L#L".toList, "LL#".toList])[1]?.getD []) ∧
    ((∀ cells ∈ ["L#L".toList, "LL#".toList], '.' ∉ cells) →
      ∀ e, e ∈ (adjacentNeighbors ["L#L".toList, "LL#".toList])[1]?.getD [] ↔
        e ∈ (visibleNeighbors ["L#L".toList, "LL#".toList])[1]?.getD [])) :=
  ⟨by decide, adjacent_list_within_visible _ (by decide) 1⟩

end Day11

namespace Day12

theorem step1_ne_timeout (s : Ship1) (ins : Instruction) : step1 s ins ≠ Run.timeout := by
  unfold step1
  split_ifs <;> simp

theorem step1_threw_iff (s : Ship1) (ins : Instruction) :
    step1 s ins = Run.threw ↔ ¬ KnownAction ins.action := by
  unfold step1 KnownAction
  split_ifs <;> simp_all

theorem step2_ne_timeout (s : Ship2) (ins : Instruction) : step2 s ins ≠ Run.timeout := by
  unfold step2
  split_ifs <;> simp

theorem step2_threw_iff (s : Ship2) (ins : Instruction) :
    step2 s ins = Run.threw ↔ ¬ KnownAction ins.action := by
  unfold step2 KnownAction
  split_ifs with h1 h2 h3 h4 h5 h6
  · simp [h1]
  · simp [h2]
  · simp [h3]
  · simp [h4]
  · rcases h5 with h5 | h5 <;> simp [h5]
  · simp [h6]
  · simp only [true_iff]
    rintro (h | h | h | h | h | h | h)
    · exact h1 h
    · exact h2 h
    · exact h3 h
    · exact h4 h
    · exact h5 (Or.inl h)
    · exact h5 (Or.inr h)
    · exact h6 h

theorem run1_cases (instructions : List Instruction) : ∀ s : Ship1,
    (run1 instructions s = Run.threw ↔ ∃ ins ∈ instructions, ¬ KnownAction ins.action) ∧
      run1 instructions s ≠ Run.timeout := by
  induction instructions with
  | nil => intro s; simp [run1]
  | cons ins rest ih =>
    intro s
    unfold run1
    cases h : step1 s ins with
    | timeout => exact absurd h (step1_ne_timeout s ins)
    | threw =>
      have := (step1_threw_iff s ins).mp h
      simp only [List.mem_cons, exists_eq_or_imp, ne_eq, not_false_eq_true, and_true,
        reduceCtorEq]
      exact ⟨fun _ => Or.inl this, fun _ => trivial⟩
    | done s' =>
      have hk : KnownAction ins.action := by
        by_contra hn
        rw [(step1_threw_iff s ins).mpr hn] at h
        exact absurd h (by simp)
      simp only [List.mem_cons, exists_eq_or_imp]
      refine ⟨?_, (ih s').2⟩
      rw [(ih s').1]
      exact ⟨fun hex => Or.inr hex, fun hor => hor.resolve_left (fun hn => hn hk)⟩

theorem run2_cases (instructions : List Instruction) : ∀ s : Ship2,
    (run2 instructions s = Run.threw ↔ ∃ ins ∈ instructions, ¬ KnownAction ins.action) ∧
      run2 instructions s ≠ Run.timeout := by
  induction instructions with
  | nil => intro s; simp [run2]
  | cons ins rest ih =>
    intro s
    unfold run2
    cases h : step2 s ins with
    | timeout => exact absurd h (step2_ne_timeout s ins)
    | threw =>
      have := (step2_threw_iff s ins).mp h
      simp only [List.mem_cons, exists_eq_or_imp, ne_eq, not_false_eq_true, and_true,
        reduceCtorEq]
      exact ⟨fun _ => Or.inl this, fun _ => trivial⟩
    | done s' =>
      have hk : KnownAction ins.action := by
        by_contra hn
        rw [(step2_threw_iff s ins).mpr hn] at h
        exact absurd h (by simp)
      simp only [List.mem_cons, exists_eq_or_imp]
      refine ⟨?_, (ih s').2⟩
      rw [(ih s').1]
      exact ⟨fun hex => Or.inr hex, fun hor => hor.resolve_left (fun hn => hn hk)⟩

theorem map_eq_threw_iff {α β : Type} (f : α → β) (r : Run α) :
    r.map f = Run.threw ↔ r = Run.threw := by
  cases r <;> simp [Run.map]

theorem map_done_of_known {α β : Type} (f : α → β) (r : Run α) (h1 : r ≠ Run.threw)
    (h2 : r ≠ Run.timeout) : ∃ a, r = Run.done a ∧ r.map f = Run.done (f a) := by
  cases r with
  | done a => exact ⟨a, rfl, rfl⟩
  | threw => exact absurd rfl h1
  | timeout => exact absurd rfl h2

theorem jsRem_natCast_four (k : Nat) : jsRem (k : ℚ) 4 = ((k % 4 : Nat) : ℚ) := by
  unfold jsRem truncate
  have hnn : (0 : ℚ) ≤ (k : ℚ) / 4 := by positivity
  rw [if_pos hnn]
  have hfloor : ⌊(k : ℚ) / 4⌋ = ((k / 4 : Nat) : Int) := by
    have := Rat.floor_natCast_div_natCast k 4
    simpa using this
  rw [hfloor]
  have hk : (k : ℚ) = 4 * ((k / 4 : Nat) : ℚ) + ((k % 4 : Nat) : ℚ) := by
    exact_mod_cast (Nat.div_add_mod k 4).symm
  rw [Int.cast_natCast]
  linarith

theorem rotateRight90_four (p : ℚ × ℚ) : (fun q : ℚ × ℚ => (q.2, -q.1))^[4] p = p := by
  simp [Function.iterate_succ]

theorem rotateLeft90_four (p : ℚ × ℚ) : (fun q : ℚ × ℚ => (-q.2, q.1))^[4] p = p := by
  simp [Function.iterate_succ]

theorem iterate_mod_four (f : ℚ × ℚ → ℚ × ℚ) (h4 : ∀ p, f^[4] p = p) (k : Nat) (p : ℚ × ℚ) :
    f^[k % 4] p = f^[k] p := by
  conv_rhs => rw [← Nat.mod_add_div k 4]
  rw [Function.iterate_add_apply]
  congr 1
  induction k / 4 with
  | zero => rfl
  | succ n ih =>
    rw [Nat.mul_succ, Function.iterate_add_apply, h4]
    exact ih

theorem rotateLoop_count (direction : Option Char) (m : Nat) :
    ∀ (steps i : Nat) (p : ℚ × ℚ), m ≤ i + steps →
      rotateLoop direction (m : ℚ) steps (i : ℚ) p
        = (fun q : ℚ × ℚ =>
            if direction = some 'R' then rotateRight90 q.1 q.2
            else rotateLeft90 q.1 q.2)^[m - i] p := by
  intro steps
  induction steps with
  | zero =>
    intro i p h
    rw [show m - i = 0 by omega]
    rfl
  | succ steps ih =>
    intro i p h
    unfold rotateLoop
    by_cases hlt : (i : ℚ) < (m : ℚ)
    · have hlt' : i < m := by exact_mod_cast hlt
      rw [if_pos hlt]
      have hcast : (i : ℚ) + 1 = ((i + 1 : Nat) : ℚ) := by push_cast; ring
      rw [hcast, ih (i + 1) _ (by omega), show m - i = (m - (i + 1)) + 1 by omega,
        Function.iterate_succ_apply]
    · have hge : m ≤ i := by
        by_contra hc
        exact hlt (by exact_mod_cast Nat.lt_of_not_le hc)
      rw [if_neg hlt, show m - i = 0 by omega]
      rfl

theorem rotateWaypoint_multiple (wx wy : ℚ) (direction : Option Char) (k : Nat) :
    rotateWaypoint wx wy direction (90 * (k : ℚ))
      = (fun q : ℚ × ℚ =>
          if direction = some 'R' then rotateRight90 q.1 q.2
          else rotateLeft90 q.1 q.2)^[k % 4] (wx, wy) := by
  unfold rotateWaypoint
  have hdiv : 90 * (k : ℚ) / 90 = (k : ℚ) := by field_simp
  simp only [hdiv, jsRem_natCast_four]
  have := rotateLoop_count direction (k % 4) 4 0 (wx, wy)
    (by have := Nat.mod_lt k (show 0 < 4 by norm_num); omega)
  simpa using this

/-- C16: on the instructions F10, N3, F7, R90, F11 `solvePart1` returns 25 and
`solvePart2` returns 286. -/
theorem example_distances :
    solvePart1 exampleInstructions = Run.done 25 ∧
      solvePart2 exampleInstructions = Run.done 286 := by
  constructor
  · simp +decide [solvePart1, exampleInstructions, run1, step1, forward1, headings, jsRem,
      truncate, manhattanDistance, Run.map]
    norm_num
    simp +decide
    norm_num
  · simp +decide [solvePart2, exampleInstructions, run2, step2, turn2, rotateWaypoint,
      rotateLoop, rotateRight90, rotateLeft90, jsRem, truncate, manhattanDistance, Run.map]
    norm_num

/-- C17, the claim as written fails: the list R45, F10 holds a rotation whose
value is not a multiple of 90, yet `solvePart1` returns 10 and `solvePart2`
returns 110; no error is raised. -/
theorem rotation_not_multiple_counterexample :
    (∃ ins ∈ [Instruction.mk (some 'R') 45, Instruction.mk (some 'F') 10],
        (ins.action = some 'L' ∨ ins.action = some 'R') ∧ ¬ ∃ k : Int, ins.value = 90 * (k : ℚ)) ∧
      solvePart1 [Instruction.mk (some 'R') 45, Instruction.mk (some 'F') 10] = Run.done 10 ∧
      solvePart2 [Instruction.mk (some 'R') 45, Instruction.mk (some 'F') 10] = Run.done 110 := by
  refine ⟨⟨Instruction.mk (some 'R') 45, by simp, Or.inr rfl, ?_⟩, ?_, ?_⟩
  · rintro ⟨k, hk⟩
    have h2 : (1 : ℚ) = 2 * (k : ℚ) := by
      simp only at hk
      linarith
    have h3 : (1 : Int) = 2 * k := by exact_mod_cast h2
    omega
  · simp +decide [solvePart1, run1, step1, forward1, headings, jsRem, truncate,
      manhattanDistance, Run.map]
    norm_num
    simp +decide
  · simp +decide [solvePart2, run2, step2, turn2, rotateWaypoint, rotateLoop, rotateRight90,
      rotateLeft90, jsRem, truncate, manhattanDistance, Run.map]
    norm_num

/-- C17, amended: whatever the values of its L and R instructions are, a list
whose action codes are all among N, S, E, W, L, R, F makes `solvePart1` and
`solvePart2` return a distance; a rotation value is never checked. -/
theorem known_actions_return_distance (instructions : List Instruction)
    (h : ∀ ins ∈ instructions, KnownAction ins.action) :
    ∃ d1 d2 : ℚ, solvePart1 instructions = Run.done d1 ∧
      solvePart2 instructions = Run.done d2 := by
  have hno : ¬ ∃ ins ∈ instructions, ¬ KnownAction ins.action := by
    rintro ⟨ins, hmem, hn⟩
    exact hn (h ins hmem)
  obtain ⟨h1, h1'⟩ := run1_cases instructions ⟨0, 0, 0⟩
  obtain ⟨h2, h2'⟩ := run2_cases instructions ⟨0, 0, 10, 1⟩
  obtain ⟨a, -, ha⟩ := map_done_of_known (fun s : Ship1 => manhattanDistance s.shipX s.shipY)
    _ (fun hc => hno (h1.mp hc)) h1'
  obtain ⟨b, -, hb⟩ := map_done_of_known (fun s : Ship2 => manhattanDistance s.shipX s.shipY)
    _ (fun hc => hno (h2.mp hc)) h2'
  exact ⟨_, _, ha, hb⟩

theorem known_actions_return_distance_witness :
    ∃ d1 d2 : ℚ,
      solvePart1 [Instruction.mk (some 'R') 45, Instruction.mk (some 'F') 10] = Run.done d1 ∧
      solvePart2 [Instruction.mk (some 'R') 45, Instruction.mk (some 'F') 10] = Run.done d2 :=
  known_actions_return_distance [Instruction.mk (some 'R') 45, Instruction.mk (some 'F') 10]
    (by decide)

/-- C18: a list that holds an instruction whose action code is not one of N, S,
E, W, L, R, F makes both `solvePart1` and `solvePart2` raise; a list with only
those seven codes makes neither raise. -/
theorem unknown_action_raises :
    (∀ instructions : List Instruction,
      (∃ ins ∈ instructions, ¬ KnownAction ins.action) →
        solvePart1 instructions = Run.threw ∧ solvePart2 instructions = Run.threw) ∧
    (∀ instructions : List Instruction,
      (∀ ins ∈ instructions, KnownAction ins.action) →
        solvePart1 instructions ≠ Run.threw ∧ solvePart2 instructions ≠ Run.threw) := by
  constructor
  · intro instructions hex
    constructor
    · unfold solvePart1
      rw [map_eq_threw_iff]
      exact (run1_cases instructions _).1.mpr hex
    · unfold solvePart2
      rw [map_eq_threw_iff]
      exact (run2_cases instructions _).1.mpr hex
  · intro instructions hall
    have hno : ¬ ∃ ins ∈ instructions, ¬ KnownAction ins.action := by
      rintro ⟨ins, hmem, hn⟩
      exact hn (hall ins hmem)
    constructor
    · unfold solvePart1
      rw [ne_eq, map_eq_threw_iff]
      exact fun hc => hno ((run1_cases instructions _).1.mp hc)
    · unfold solvePart2
      rw [ne_eq, map_eq_threw_iff]
      exact fun hc => hno ((run2_cases instructions _).1.mp hc)

theorem unknown_action_raises_witness :
    solvePart1 [Instruction.mk (some 'F') 10, Instruction.mk (some 'X') 3] = Run.threw ∧
      solvePart2 [Instruction.mk (some 'F') 10, Instruction.mk (some 'X') 3] = Run.threw :=
  unknown_action_raises.1 [Instruction.mk (some 'F') 10, Instruction.mk (some 'X') 3]
    ⟨Instruction.mk (some 'X') 3, by simp, by decide⟩

theorem ceil_neg_quarter : ⌈(-(4 : ℚ)⁻¹)⌉ = 0 := by
  rw [Int.ceil_eq_iff]
  norm_num

/-- C22, the code at the failing input: from heading index 0 the instruction
L450 leaves the index -1, outside 0..3 (five quarter turns to the left lead to
index 3, north); F10 then moves west, so that L450, F10, E10 ends at distance 0
where the quarter turns of the claim give 20. -/
theorem heading_after_L450 :
    headingAfter [Instruction.mk (some 'L') 450] = Run.done (-1) ∧
      solvePart1 [Instruction.mk (some 'L') 450, Instruction.mk (some 'F') 10,
        Instruction.mk (some 'E') 10] = Run.done 0 := by
  have hj : jsRem (-(450 / 90) + 4) 4 = -1 := by
    unfold jsRem truncate
    norm_num [ceil_neg_quarter]
  constructor
  · simp +decide [headingAfter, run1, step1, Run.map, hj]
  · simp +decide [solvePart1, run1, step1, Run.map, hj, forward1, headings, manhattanDistance]

/-- C23: for a rotation by `90 * k` degrees, `rotateWaypoint` with "R" equals
the map (x, y) -> (y, -x) applied `k` times and with "L" the map
(x, y) -> (-y, x) applied `k` times. -/
theorem rotateWaypoint_quarter_turns (wx wy : ℚ) (k : Nat) :
    rotateWaypoint wx wy (some 'R') (90 * (k : ℚ))
        = (fun p : ℚ × ℚ => (p.2, -p.1))^[k] (wx, wy) ∧
      rotateWaypoint wx wy (some 'L') (90 * (k : ℚ))
        = (fun p : ℚ × ℚ => (-p.2, p.1))^[k] (wx, wy) := by
  constructor
  · rw [rotateWaypoint_multiple, ← iterate_mod_four _ rotateRight90_four k]
    simp [rotateRight90]
  · rw [rotateWaypoint_multiple, ← iterate_mod_four _ rotateLeft90_four k]
    have : (some 'L' : Option Char) ≠ some 'R' := by decide
    simp [rotateLeft90, this]

end Day12

namespace Day13

theorem gcdLoop_natCast (fuel : Nat) : ∀ a b : Nat, b < fuel →
    gcdLoop fuel (a : Int) (b : Int) = ((Nat.gcd a b : Nat) : Int) := by
  induction fuel with
  | zero => intro a b h; omega
  | succ n ih =>
    intro a b h
    unfold gcdLoop
    by_cases hb : b = 0
    · subst hb; simp
    · have hb' : (b : Int) ≠ 0 := by exact_mod_cast hb
      rw [if_neg hb']
      have hmod : Int.tmod (a : Int) (b : Int) = ((a % b : Nat) : Int) := by
        rw [Int.tmod_eq_emod (Int.ofNat_nonneg a) (Int.ofNat_nonneg b)]; norm_cast
      rw [hmod, ih b (a % b) (by have := Nat.mod_lt a (Nat.pos_of_ne_zero hb); omega)]
      congr 1
      rw [Nat.gcd_comm b (a % b), Nat.gcd_comm a b, Nat.gcd_rec b a]

theorem gcdBigInt_eq_gcd (a b : Int) : gcdBigInt a b = ((Int.gcd a b : Nat) : Int) := by
  unfold gcdBigInt
  have hx : (if a < 0 then -a else a) = ((a.natAbs : Nat) : Int) := by
    split <;> omega
  have hy : (if b < 0 then -b else b) = ((b.natAbs : Nat) : Int) := by
    split <;> omega
  simp only [hx, hy]
  rw [gcdLoop_natCast _ _ _ (by simp [Int.natAbs_abs])]
  rfl

theorem lcmBigInt_of_coprime (a b : Int) (h : Int.gcd a b = 1) :
    lcmBigInt a b = Run.done (a * b) := by
  unfold lcmBigInt
  rw [gcdBigInt_eq_gcd, h]
  simp

theorem alignLoop_reaches (step offsetBig busId : Int) (hb : busId ≠ 0) :
    ∀ (k : Nat) (time : Int), busId ∣ time + (k : Int) * step + offsetBig →
      ∃ k0 : Nat, k0 ≤ k ∧ busId ∣ time + (k0 : Int) * step + offsetBig ∧
        (∀ j : Nat, j < k0 → ¬ busId ∣ time + (j : Int) * step + offsetBig) ∧
        ∀ fuel, k0 < fuel → alignLoop fuel time step offsetBig busId
          = Run.done (time + (k0 : Int) * step) := by
  intro k
  induction k with
  | zero =>
    intro time h
    refine ⟨0, le_refl _, h, fun j hj => absurd hj (Nat.not_lt_zero j), ?_⟩
    intro fuel hf
    obtain ⟨n, rfl⟩ : ∃ n, fuel = n + 1 := ⟨fuel - 1, by omega⟩
    have h0 : busId ∣ time + offsetBig := by simpa using h
    simp [alignLoop, hb, Int.tmod_eq_zero_of_dvd h0]
  | succ k ih =>
    intro time h
    by_cases h0 : busId ∣ time + offsetBig
    · refine ⟨0, Nat.zero_le _, by simpa using h0, fun j hj => absurd hj (Nat.not_lt_zero j), ?_⟩
      intro fuel hf
      obtain ⟨n, rfl⟩ : ∃ n, fuel = n + 1 := ⟨fuel - 1, by omega⟩
      simp [alignLoop, hb, Int.tmod_eq_zero_of_dvd h0]
    · have h' : busId ∣ (time + step) + (k : Int) * step + offsetBig := by
        have e : (time + step) + (k : Int) * step + offsetBig
            = time + ((k + 1 : Nat) : Int) * step + offsetBig := by push_cast; ring
        rw [e]; exact h
      obtain ⟨k0, hk0, hd, hmin, hrun⟩ := ih (time + step) h'
      refine ⟨k0 + 1, by omega, ?_, ?_, ?_⟩
      · have e : time + ((k0 + 1 : Nat) : Int) * step + offsetBig
            = (time + step) + (k0 : Int) * step + offsetBig := by push_cast; ring
        rw [e]; exact hd
      · intro j hj
        cases j with
        | zero => simpa using h0
        | succ j =>
          have e : time + ((j + 1 : Nat) : Int) * step + offsetBig
              = (time + step) + (j : Int) * step + offsetBig := by push_cast; ring
          rw [e]; exact hmin j (by omega)
      · intro fuel hf
        obtain ⟨n, rfl⟩ : ∃ n, fuel = n + 1 := ⟨fuel - 1, by omega⟩
        have hne : Int.tmod (time + offsetBig) busId ≠ 0 :=
          fun hz => h0 (Int.dvd_of_tmod_eq_zero hz)
        have e : time + ((k0 + 1 : Nat) : Int) * step = (time + step) + (k0 : Int) * step := by
          push_cast; ring
        rw [e, ← hrun n (by omega)]
        simp [alignLoop, hb, hne]

theorem exists_aligning_multiple (time step offsetBig busId : Int) (hpos : 0 < busId)
    (hco : IsCoprime step busId) :
    ∃ k : Nat, busId ∣ time + (k : Int) * step + offsetBig := by
  obtain ⟨a, b, hab⟩ := hco
  refine ⟨((-(time + offsetBig) * a) % busId).toNat, ?_⟩
  have hnn : 0 ≤ (-(time + offsetBig) * a) % busId := Int.emod_nonneg _ (ne_of_gt hpos)
  rw [Int.toNat_of_nonneg hnn, Int.emod_def]
  refine ⟨(time + offsetBig) * b - (-(time + offsetBig) * a / busId) * step, ?_⟩
  linear_combination (-(time + offsetBig)) * hab

theorem aligned_iff_getElem (tokens : List Token) : ∀ (offset : Nat) (t : Int),
    Aligned tokens offset t ↔
      ∀ (i : Nat) (p : Int), tokens[i]? = some (Token.bus p) → p ∣ t + ((offset + i : Nat) : Int) := by
  induction tokens with
  | nil => intro offset t; simp [Aligned]
  | cons tok rest ih =>
    intro offset t
    have shift : (∀ (i : Nat) (p : Int), rest[i]? = some (Token.bus p) →
          p ∣ t + ((offset + 1 + i : Nat) : Int)) ↔
        (∀ (i : Nat) (p : Int), (tok :: rest)[i + 1]? = some (Token.bus p) →
          p ∣ t + ((offset + (i + 1) : Nat) : Int)) := by
      constructor
      · intro h i p hi
        have := h i p (by simpa using hi)
        rwa [show offset + 1 + i = offset + (i + 1) by omega] at this
      · intro h i p hi
        have := h i p (by simpa using hi)
        rwa [show offset + (i + 1) = offset + 1 + i by omega] at this
    cases tok with
    | x =>
      simp only [Aligned]
      rw [ih (offset + 1) t, shift]
      constructor
      · intro h i p hi
        cases i with
        | zero => simp at hi
        | succ i => exact h i p hi
      · intro h i p hi
        exact h (i + 1) p hi
    | bus q =>
      simp only [Aligned]
      rw [ih (offset + 1) t, shift]
      constructor
      · rintro ⟨h0, h⟩ i p hi
        cases i with
        | zero =>
          simp at hi
          subst hi
          simpa using h0
        | succ i => exact h i p hi
      · intro h
        refine ⟨?_, fun i p hi => h (i + 1) p hi⟩
        simpa using h 0 q (by simp)

theorem solveLoop_least (tokens : List Token) :
    ∀ (offset : Nat) (time step : Int) (Sat : Int → Prop),
      0 ≤ time → 0 < step →
      (∀ k : Int, 0 ≤ k → Sat (time + k * step)) →
      (∀ t', Sat t' → step ∣ t' - time) →
      (∀ t', 0 ≤ t' → Sat t' → time ≤ t') →
      (∀ p ∈ activePeriods tokens, 0 < p) →
      (∀ p ∈ activePeriods tokens, IsCoprime step p) →
      (activePeriods tokens).Pairwise IsCoprime →
      ∃ t : Int, 0 ≤ t ∧ Sat t ∧ Aligned tokens offset t ∧
        (∀ t', 0 ≤ t' → Sat t' → Aligned tokens offset t' → t ≤ t') ∧
        ∃ fuel, ∀ fuel', fuel ≤ fuel' →
          solveLoop fuel' tokens offset time step = Run.done t := by
  induction tokens with
  | nil =>
    intro offset time step Sat ht hs hsat hdvd hmin _ _ _
    refine ⟨time, ht, by simpa using hsat 0 (le_refl _), trivial,
      fun t' h0 h1 _ => hmin t' h0 h1, 0, fun fuel' _ => by simp [solveLoop]⟩
  | cons tok rest ih =>
    intro offset time step Sat ht hs hsat hdvd hmin hpos hco hpw
    cases tok with
    | x =>
      simp only [activePeriods] at hpos hco hpw
      obtain ⟨t, h0, h1, h2, h3, fuel, hrun⟩ :=
        ih (offset + 1) time step Sat ht hs hsat hdvd hmin hpos hco hpw
      exact ⟨t, h0, h1, h2, h3, fuel, fun fuel' hf => by
        simpa [solveLoop] using hrun fuel' hf⟩
    | bus q =>
      simp only [activePeriods, List.mem_cons, forall_eq_or_imp, List.pairwise_cons] at hpos hco hpw
      obtain ⟨hq, hpos⟩ := hpos
      obtain ⟨hcq, hco⟩ := hco
      obtain ⟨hqrest, hpw⟩ := hpw
      obtain ⟨k, hk⟩ := exists_aligning_multiple time step (offset : Int) q hq hcq
      obtain ⟨k0, -, hd, hleast, hrun⟩ :=
        alignLoop_reaches step (offset : Int) q (ne_of_gt hq) k time hk
      have hk0 : (0 : Int) ≤ (k0 : Int) := Int.ofNat_nonneg k0
      obtain ⟨t, h0, ⟨h1, h1q⟩, h2, h3, fuel, hrest⟩ :=
        ih (offset + 1) (time + (k0 : Int) * step) (step * q)
          (fun t => Sat t ∧ q ∣ t + (offset : Int))
          (by positivity) (by positivity)
          (by
            intro c hc
            constructor
            · have e : time + (k0 : Int) * step + c * (step * q)
                  = time + ((k0 : Int) + c * q) * step := by ring
              rw [e]
              exact hsat _ (by positivity)
            · have e : time + (k0 : Int) * step + c * (step * q) + (offset : Int)
                  = (time + (k0 : Int) * step + (offset : Int)) + q * (c * step) := by ring
              rw [e]
              exact dvd_add hd (dvd_mul_right _ _))
          (by
            rintro t' ⟨hs', hq'⟩
            apply IsCoprime.mul_dvd hcq
            · have e : t' - (time + (k0 : Int) * step) = (t' - time) - step * (k0 : Int) := by ring
              rw [e]
              exact dvd_sub (hdvd t' hs') (dvd_mul_right _ _)
            · have e : t' - (time + (k0 : Int) * step)
                  = (t' + (offset : Int)) - (time + (k0 : Int) * step + (offset : Int)) := by ring
              rw [e]
              exact dvd_sub hq' hd)
          (by
            rintro t' ht' ⟨hs', hq'⟩
            have hle : time ≤ t' := hmin t' ht' hs'
            obtain ⟨c, hc⟩ := hdvd t' hs'
            have hcnn : 0 ≤ c := by
              by_contra hneg
              have : step * c < 0 := mul_neg_of_pos_of_neg hs (by omega)
              omega
            have ht'eq : t' = time + ((c.toNat : Nat) : Int) * step := by
              rw [Int.toNat_of_nonneg hcnn]; linarith
            have hge : k0 ≤ c.toNat := by
              by_contra hlt
              apply hleast c.toNat (by omega)
              rw [← ht'eq]; exact hq'
            have : (k0 : Int) * step ≤ ((c.toNat : Nat) : Int) * step :=
              mul_le_mul_of_nonneg_right (by exact_mod_cast hge) (le_of_lt hs)
            rw [ht'eq]; linarith)
          hpos
          (fun p hp => IsCoprime.mul_left (hco p hp) (hqrest p hp))
          hpw
      refine ⟨t, h0, h1, ⟨h1q, h2⟩, ?_, max fuel (k0 + 1), ?_⟩
      · rintro t' ht' hs' ⟨hq', ha'⟩
        exact h3 t' ht' ⟨hs', hq'⟩ ha'
      · intro fuel' hf
        have hg : Int.gcd step q = 1 := Int.isCoprime_iff_gcd_eq_one.mp hcq
        simp only [solveLoop]
        rw [hrun fuel' (by omega), lcmBigInt_of_coprime step q hg]
        exact hrest fuel' (by omega)

theorem alignLoop_mono (step offsetBig busId : Int) :
    ∀ (fuel : Nat) (time v : Int), alignLoop fuel time step offsetBig busId = Run.done v →
      ∀ fuel', fuel ≤ fuel' → alignLoop fuel' time step offsetBig busId = Run.done v := by
  intro fuel
  induction fuel with
  | zero => intro time v h; simp [alignLoop] at h
  | succ fuel ih =>
    intro time v h fuel' hle
    obtain ⟨n, rfl⟩ : ∃ n, fuel' = n + 1 := ⟨fuel' - 1, by omega⟩
    unfold alignLoop at h ⊢
    split
    · rename_i hb; rw [if_pos hb] at h; exact h
    · rename_i hb
      rw [if_neg hb] at h
      split
      · rename_i hm
        rw [if_pos hm] at h
        exact ih _ v h n (by omega)
      · rename_i hm
        rw [if_neg hm] at h
        exact h

theorem solveLoop_mono (fuel fuel' : Nat) (hle : fuel ≤ fuel') (tokens : List Token) :
    ∀ (offset : Nat) (time step v : Int), solveLoop fuel tokens offset time step = Run.done v →
      solveLoop fuel' tokens offset time step = Run.done v := by
  induction tokens with
  | nil => intro offset time step v h; simpa [solveLoop] using h
  | cons tok rest ih =>
    intro offset time step v h
    cases tok with
    | x =>
      simp only [solveLoop] at h ⊢
      exact ih _ _ _ v h
    | bus q =>
      simp only [solveLoop] at h ⊢
      cases ha : alignLoop fuel time step (offset : Int) q with
      | threw => simp [ha] at h
      | timeout => simp [ha] at h
      | done t =>
        rw [ha] at h
        rw [alignLoop_mono step (offset : Int) q fuel time t ha fuel' hle]
        simp only at h ⊢
        cases hl : lcmBigInt step q with
        | threw => simp [hl] at h
        | timeout => simp [hl] at h
        | done s =>
          rw [hl] at h
          simp only at h ⊢
          exact ih _ _ _ v h

/-- C1: for a schedule whose active periods are positive and pairwise coprime,
`solvePart2` returns the decimal text of the smallest non-negative `t` with
`(t + i) mod p = 0` for every active slot at index `i` with period `p`: every
large enough bound on the inner loop gives that text, and no bound gives
another result. -/
theorem solvePart2_smallest_timestamp (tokens : List Token)
    (hpos : ∀ p ∈ activePeriods tokens, 0 < p)
    (hco : (activePeriods tokens).Pairwise (fun p q => Int.gcd p q = 1)) :
    ∃ t : Int, 0 ≤ t ∧
      (∀ (i : Nat) (p : Int), tokens[i]? = some (Token.bus p) → (t + (i : Int)) % p = 0) ∧
      (∀ t' : Int, 0 ≤ t' →
        (∀ (i : Nat) (p : Int), tokens[i]? = some (Token.bus p) → (t' + (i : Int)) % p = 0) →
        t ≤ t') ∧
      (∃ fuel, ∀ fuel', fuel ≤ fuel' → solvePart2 fuel' tokens = Run.done (toString t)) ∧
      (∀ fuel text, solvePart2 fuel tokens = Run.done text → text = toString t) := by
  have hpw : (activePeriods tokens).Pairwise IsCoprime :=
    hco.imp (fun h => Int.isCoprime_iff_gcd_eq_one.mpr h)
  obtain ⟨t, h0, -, h2, h3, fuel, hrun⟩ :=
    solveLoop_least tokens 0 0 1 (fun _ => True) (le_refl _) one_pos
      (fun _ _ => trivial) (fun t' _ => one_dvd _) (fun t' h _ => h) hpos
      (fun p _ => isCoprime_one_left) hpw
  refine ⟨t, h0, ?_, ?_, ⟨fuel, fun fuel' hf => ?_⟩, ?_⟩
  · intro i p hi
    have := (aligned_iff_getElem tokens 0 t).mp h2 i p hi
    exact Int.emod_eq_zero_of_dvd (by simpa using this)
  · intro t' ht' hall
    apply h3 t' ht' trivial
    rw [aligned_iff_getElem]
    intro i p hi
    simpa using Int.dvd_of_emod_eq_zero (hall i p hi)
  · simp [solvePart2, hrun fuel' hf, Run.map]
  · intro fuel0 text htext
    unfold solvePart2 at htext
    cases hv : solveLoop fuel0 tokens 0 0 1 with
    | threw => simp [hv, Run.map] at htext
    | timeout => simp [hv, Run.map] at htext
    | done v =>
      rw [hv] at htext
      simp only [Run.map, Run.done.injEq] at htext
      have h1 := solveLoop_mono fuel0 (max fuel0 fuel) (le_max_left _ _) tokens 0 0 1 v hv
      rw [hrun (max fuel0 fuel) (le_max_right _ _)] at h1
      simp only [Run.done.injEq] at h1
      rw [← htext, h1]

theorem solvePart2_smallest_timestamp_witness :
    ∃ t : Int, 0 ≤ t ∧
      (∀ (i : Nat) (p : Int),
        [Token.bus 3, Token.x, Token.bus 5][i]? = some (Token.bus p) → (t + (i : Int)) % p = 0) ∧
      (∀ t' : Int, 0 ≤ t' →
        (∀ (i : Nat) (p : Int),
          [Token.bus 3, Token.x, Token.bus 5][i]? = some (Token.bus p) → (t' + (i : Int)) % p = 0) →
        t ≤ t') ∧
      (∃ fuel, ∀ fuel', fuel ≤ fuel' →
        solvePart2 fuel' [Token.bus 3, Token.x, Token.bus 5] = Run.done (toString t)) ∧
      (∀ fuel text, solvePart2 fuel [Token.bus 3, Token.x, Token.bus 5] = Run.done text →
        text = toString t) :=
  solvePart2_smallest_timestamp [Token.bus 3, Token.x, Token.bus 5] (by decide) (by decide)

theorem wait_eq_waitFor (t b : Int) (ht : 0 ≤ t) (hb : 0 < b) (hbound : b ≤ 2 ^ 26) :
    ((JsNumber.finite b).sub ((JsNumber.finite t).rem (JsNumber.finite b))).rem
      (JsNumber.finite b) = JsNumber.finite (waitFor t b) := by
  have hne : b ≠ 0 := ne_of_gt hb
  have h1 : Int.tmod t b = t % b := Int.tmod_eq_emod ht (le_of_lt hb)
  have hlt : t % b < b := Int.emod_lt_of_pos t hb
  have h0 : 0 ≤ t % b := Int.emod_nonneg t hne
  have h2 : Int.tmod (b - t % b) b = (b - t % b) % b :=
    Int.tmod_eq_emod (by omega) (le_of_lt hb)
  have hsub : (JsNumber.finite b).sub (JsNumber.finite (t % b)) = JsNumber.finite (b - t % b) := by
    apply JsNumber.sub_finite
    norm_num at hbound ⊢
    omega
  simp only [JsNumber.rem, if_neg hne, h1, hsub, h2, waitFor]

theorem part1Loop_spec (t : Int) (ht : 0 ≤ t) (rest : List Int) :
    ∀ (b0 : Int), (∀ x ∈ rest, 0 < x ∧ x ≤ 2 ^ 26) →
      ∃ (b : Int) (i : Nat),
        part1Loop (JsNumber.finite t) (rest.map JsNumber.finite) (some (JsNumber.finite b0))
            (JsNumber.finite (waitFor t b0))
          = (some (JsNumber.finite b), JsNumber.finite (waitFor t b)) ∧
        (b0 :: rest)[i]? = some b ∧
        (∀ x ∈ b0 :: rest, waitFor t b ≤ waitFor t x) ∧
        (∀ (j : Nat) (y : Int), j < i → (b0 :: rest)[j]? = some y →
          waitFor t b < waitFor t y) := by
  induction rest with
  | nil =>
    intro b0 _
    refine ⟨b0, 0, rfl, rfl, ?_, ?_⟩
    · intro x hx
      simp only [List.mem_singleton] at hx
      rw [hx]
    · intro j y hj
      omega
  | cons c rest ih =>
    intro b0 hpos
    have hc := hpos c (List.mem_cons_self _ _)
    have hrest : ∀ x ∈ rest, 0 < x ∧ x ≤ 2 ^ 26 :=
      fun x hx => hpos x (List.mem_cons_of_mem _ hx)
    rw [List.map_cons]
    unfold part1Loop
    simp only [wait_eq_waitFor t c ht hc.1 hc.2, JsNumber.lt, decide_eq_true_eq]
    by_cases hlt : waitFor t c < waitFor t b0
    · rw [if_pos hlt]
      obtain ⟨b, i, hrun, hget, hmin, hfirst⟩ := ih c hrest
      refine ⟨b, i + 1, hrun, by simpa using hget, ?_, ?_⟩
      · intro x hx
        rcases List.mem_cons.mp hx with rfl | hx
        · exact le_trans (hmin c (List.mem_cons_self _ _)) (le_of_lt hlt)
        · exact hmin x hx
      · intro j y hj hy
        cases j with
        | zero =>
          simp only [List.getElem?_cons_zero, Option.some.injEq] at hy
          rw [← hy]
          exact lt_of_le_of_lt (hmin c (List.mem_cons_self _ _)) hlt
        | succ j =>
          exact hfirst j y (by omega) (by simpa using hy)
    · rw [if_neg hlt]
      obtain ⟨b, i, hrun, hget, hmin, hfirst⟩ := ih b0 hrest
      cases i with
      | zero =>
        simp only [List.getElem?_cons_zero, Option.some.injEq] at hget
        subst hget
        refine ⟨b0, 0, hrun, rfl, ?_, fun j y hj => absurd hj (Nat.not_lt_zero j)⟩
        intro x hx
        rcases List.mem_cons.mp hx with rfl | hx
        · exact le_refl _
        · rcases List.mem_cons.mp hx with rfl | hx
          · exact le_of_not_lt hlt
          · exact hmin x (List.mem_cons_of_mem _ hx)
      | succ i =>
        have hget' : rest[i]? = some b := by simpa using hget
        refine ⟨b, i + 2, hrun, by simpa using hget', ?_, ?_⟩
        · intro x hx
          rcases List.mem_cons.mp hx with rfl | hx
          · exact hmin x (List.mem_cons_self _ _)
          · rcases List.mem_cons.mp hx with rfl | hx
            · have := hfirst 0 b0 (by omega) (by simp)
              exact le_trans (le_of_lt this) (le_of_not_lt hlt)
            · exact hmin x (List.mem_cons_of_mem _ hx)
        · intro j y hj hy
          cases j with
          | zero => exact hfirst 0 y (by omega) (by simpa using hy)
          | succ j =>
            cases j with
            | zero =>
              simp only [List.getElem?_cons_succ, List.getElem?_cons_zero,
                Option.some.injEq] at hy
              rw [← hy]
              have := hfirst 0 b0 (by omega) (by simp)
              exact lt_of_lt_of_le this (le_of_not_lt hlt)
            | succ j =>
              exact hfirst (j + 1) y (by omega) (by simpa using hy)

theorem waitFor_least (t b : Int) (hb : 0 < b) :
    0 ≤ waitFor t b ∧ b ∣ t + waitFor t b ∧
      ∀ w : Int, 0 ≤ w → b ∣ t + w → waitFor t b ≤ w := by
  have hne : b ≠ 0 := ne_of_gt hb
  have h0 : 0 ≤ waitFor t b := Int.emod_nonneg _ hne
  have hlt : waitFor t b < b := Int.emod_lt_of_pos _ hb
  have hdvd : b ∣ t + waitFor t b := by
    unfold waitFor
    have e1 : t + (b - t % b) % b = (t - t % b) + ((b - t % b) % b - (b - t % b)) + b := by ring
    rw [e1]
    refine dvd_add (dvd_add (Int.dvd_sub_of_emod_eq rfl) ?_) (dvd_refl b)
    have h := Int.dvd_sub_of_emod_eq (rfl : (b - t % b) % b = (b - t % b) % b)
    have e2 : (b - t % b) % b - (b - t % b) = -((b - t % b) - (b - t % b) % b) := by ring
    rw [e2]
    exact (dvd_neg.mpr h)
  refine ⟨h0, hdvd, ?_⟩
  intro w hw hwd
  by_contra hlt'
  have hd : b ∣ waitFor t b - w := by
    have : waitFor t b - w = (t + waitFor t b) - (t + w) := by ring
    rw [this]
    exact dvd_sub hdvd hwd
  have hpos : 0 < waitFor t b - w := by omega
  have := Int.le_of_dvd hpos hd
  omega

/-- C19, the claim as written fails: for the timestamp 1 and the one bus
2^60 the difference 2^60 - 1 rounds to 2^60, so the wait the code computes is 0
and `solvePart1` returns 0, while `(b - (t mod b)) mod b` is 2^60 - 1. -/
theorem solvePart1_wait_rounding_counterexample :
    solvePart1 (JsNumber.finite 1) [JsNumber.finite 1152921504606846976] = JsNumber.finite 0 ∧
      waitFor 1 1152921504606846976 = 1152921504606846975 := by
  constructor
  · rfl
  · decide

/-- C19, amended: for an earliest timestamp `t` with `0 ≤ t` and a non-empty
list of positive bus IDs of at most 2^26, `solvePart1` returns `b * w` where
`w = (b - (t mod b)) mod b` is the minimum of that wait over the list, `b` is
the first bus attaining it, and `w` is the least non-negative integer with
`t + w` divisible by `b`. -/
theorem solvePart1_min_wait (t : Int) (busIds : List Int) (ht : 0 ≤ t) (hne : busIds ≠ [])
    (hpos : ∀ x ∈ busIds, 0 < x ∧ x ≤ 2 ^ 26) :
    ∃ (b : Int) (i : Nat),
      solvePart1 (JsNumber.finite t) (busIds.map JsNumber.finite)
        = JsNumber.finite (b * waitFor t b) ∧
      busIds[i]? = some b ∧
      (∀ x ∈ busIds, waitFor t b ≤ waitFor t x) ∧
      (∀ (j : Nat) (y : Int), j < i → busIds[j]? = some y → waitFor t b < waitFor t y) ∧
      0 ≤ waitFor t b ∧ b ∣ t + waitFor t b ∧
      (∀ w : Int, 0 ≤ w → b ∣ t + w → waitFor t b ≤ w) := by
  obtain ⟨b0, rest, rfl⟩ := List.exists_cons_of_ne_nil hne
  have hb0 := hpos b0 (List.mem_cons_self _ _)
  obtain ⟨b, i, hrun, hget, hmin, hfirst⟩ :=
    part1Loop_spec t ht rest b0 (fun x hx => hpos x (List.mem_cons_of_mem _ hx))
  have hb := hpos b (List.getElem?_mem hget)
  obtain ⟨w0, wd, wl⟩ := waitFor_least t b hb.1
  refine ⟨b, i, ?_, hget, hmin, hfirst, w0, wd, wl⟩
  have hwlt : waitFor t b < b := Int.emod_lt_of_pos _ hb.1
  rw [List.map_cons]
  unfold solvePart1 part1Loop
  simp only [wait_eq_waitFor t b0 ht hb0.1 hb0.2, JsNumber.lt, Bool.not_false, if_true, hrun]
  apply JsNumber.mul_finite
  have h1 : b.natAbs ≤ 2 ^ 26 := by
    have := hb.2
    norm_num at this ⊢
    omega
  have h2 : (waitFor t b).natAbs ≤ 2 ^ 26 := by
    have := hb.2
    norm_num at this ⊢
    omega
  exact lt_of_le_of_lt (JsNumber.natAbs_mul_le _ _ _ _ h1 h2) (by norm_num)

theorem solvePart1_min_wait_witness :
    ∃ (b : Int) (i : Nat),
      solvePart1 (JsNumber.finite 939) ([7, 13, 59, 31, 19].map JsNumber.finite)
        = JsNumber.finite (b * waitFor 939 b) ∧
      [7, 13, 59, 31, 19][i]? = some b ∧
      (∀ x ∈ [7, 13, 59, 31, 19], waitFor 939 b ≤ waitFor 939 x) ∧
      (∀ (j : Nat) (y : Int), j < i → [7, 13, 59, 31, 19][j]? = some y →
        waitFor 939 b < waitFor 939 y) ∧
      0 ≤ waitFor 939 b ∧ b ∣ 939 + waitFor 939 b ∧
      (∀ w : Int, 0 ≤ w → b ∣ 939 + w → waitFor 939 b ≤ w) :=
  solvePart1_min_wait 939 [7, 13, 59, 31, 19] (by decide) (by decide) (by decide)

/-- C20: for the earliest timestamp 939 and the schedule 7,13,x,x,59,x,31,19,
`solvePart1` on the active IDs returns 295 and `solvePart2` on the full token
list returns "1068781" (for every bound of 100 or more on its inner loop). -/
theorem example_answers :
    solvePart1 (JsNumber.finite 939) [JsNumber.finite 7, JsNumber.finite 13,
        JsNumber.finite 59, JsNumber.finite 31, JsNumber.finite 19] = JsNumber.finite 295 ∧
      ∀ fuel, 100 ≤ fuel → solvePart2 fuel exampleTokens = Run.done "1068781" := by
  refine ⟨by decide, ?_⟩
  intro fuel hfuel
  have h100 : solveLoop 100 exampleTokens 0 0 1 = Run.done 1068781 := by decide
  have := solveLoop_mono 100 fuel hfuel exampleTokens 0 0 1 1068781 h100
  unfold solvePart2
  rw [this]
  decide

theorem exists_aligning_multiple_lt (time step offsetBig busId : Int) (hpos : 0 < busId)
    (hco : IsCoprime step busId) :
    ∃ k : Nat, (k : Int) < busId ∧ busId ∣ time + (k : Int) * step + offsetBig := by
  obtain ⟨a, b, hab⟩ := hco
  refine ⟨((-(time + offsetBig) * a) % busId).toNat, ?_, ?_⟩
  · rw [Int.toNat_of_nonneg (Int.emod_nonneg _ (ne_of_gt hpos))]
    exact Int.emod_lt_of_pos _ hpos
  · rw [Int.toNat_of_nonneg (Int.emod_nonneg _ (ne_of_gt hpos)), Int.emod_def]
    refine ⟨(time + offsetBig) * b - (-(time + offsetBig) * a / busId) * step, ?_⟩
    linear_combination (-(time + offsetBig)) * hab

theorem solveLoop_eq_loopState (fuel : Nat) (tokens : List Token) :
    ∀ (offset : Nat) (time step : Int),
      solveLoop fuel tokens offset time step
        = (loopState fuel tokens offset time step).map Prod.fst := by
  induction tokens with
  | nil => intro offset time step; rfl
  | cons tok rest ih =>
    intro offset time step
    cases tok with
    | x => simp only [solveLoop, loopState]; exact ih _ _ _
    | bus q =>
      simp only [solveLoop, loopState]
      cases alignLoop fuel time step (offset : Int) q with
      | threw => rfl
      | timeout => rfl
      | done t =>
        simp only
        cases lcmBigInt step q with
        | threw => rfl
        | timeout => rfl
        | done s => simp only; exact ih _ _ _

theorem activePeriods_append (a b : List Token) :
    activePeriods (a ++ b) = activePeriods a ++ activePeriods b := by
  induction a with
  | nil => rfl
  | cons tok rest ih =>
    cases tok with
    | x => simpa [activePeriods] using ih
    | bus q => simp [activePeriods, ih]

theorem loopState_spec (tokens : List Token) :
    ∀ (offset : Nat) (time step : Int), 0 ≤ time → time < step →
      (∀ p ∈ activePeriods tokens, 0 < p) →
      (∀ p ∈ activePeriods tokens, IsCoprime step p) →
      (activePeriods tokens).Pairwise IsCoprime →
      ∃ t : Int,
        (∃ fuel, ∀ fuel', fuel ≤ fuel' →
          loopState fuel' tokens offset time step
            = Run.done (t, step * (activePeriods tokens).prod)) ∧
        0 ≤ t ∧ t < step * (activePeriods tokens).prod ∧ step ∣ t - time ∧
        Aligned tokens offset t := by
  induction tokens with
  | nil =>
    intro offset time step h0 hlt _ _ _
    exact ⟨time, ⟨0, fun fuel' _ => by simp [loopState, activePeriods]⟩, h0,
      by simpa [activePeriods] using hlt, by simp, trivial⟩
  | cons tok rest ih =>
    intro offset time step h0 hlt hpos hco hpw
    cases tok with
    | x =>
      simp only [activePeriods] at hpos hco hpw ⊢
      obtain ⟨t, ⟨fuel, hrun⟩, h1, h2, h3, h4⟩ := ih (offset + 1) time step h0 hlt hpos hco hpw
      exact ⟨t, ⟨fuel, fun fuel' hf => by simpa [loopState] using hrun fuel' hf⟩, h1, h2, h3, h4⟩
    | bus q =>
      simp only [activePeriods, List.mem_cons, forall_eq_or_imp, List.pairwise_cons,
        List.prod_cons] at hpos hco hpw ⊢
      obtain ⟨hq, hpos⟩ := hpos
      obtain ⟨hcq, hco⟩ := hco
      obtain ⟨hqrest, hpw⟩ := hpw
      have hstep : 0 < step := lt_of_le_of_lt h0 hlt
      obtain ⟨k, hkq, hk⟩ := exists_aligning_multiple_lt time step (offset : Int) q hq hcq
      obtain ⟨k0, hk0k, hd, -, hrun⟩ :=
        alignLoop_reaches step (offset : Int) q (ne_of_gt hq) k time hk
      have hk0q : (k0 : Int) + 1 ≤ q := by
        have : (k0 : Int) ≤ (k : Int) := by exact_mod_cast hk0k
        omega
      have hbound : time + (k0 : Int) * step < step * q := by
        have h1 : ((k0 : Int) + 1) * step ≤ q * step :=
          mul_le_mul_of_nonneg_right hk0q (le_of_lt hstep)
        nlinarith
      obtain ⟨t, ⟨fuel, hrest⟩, h1, h2, h3, h4⟩ :=
        ih (offset + 1) (time + (k0 : Int) * step) (step * q) (by positivity) hbound hpos
          (fun p hp => IsCoprime.mul_left (hco p hp) (hqrest p hp)) hpw
      have hsq : step * q ∣ t - (time + (k0 : Int) * step) := h3
      refine ⟨t, ⟨max fuel (k0 + 1), ?_⟩, h1, by rw [← mul_assoc]; exact h2, ?_, ?_, h4⟩
      · intro fuel' hf
        have hg : Int.gcd step q = 1 := Int.isCoprime_iff_gcd_eq_one.mp hcq
        simp only [loopState]
        rw [hrun fuel' (by omega), lcmBigInt_of_coprime step q hg]
        simp only
        rw [hrest fuel' (by omega), mul_assoc]
      · have e : t - time = (t - (time + (k0 : Int) * step)) + step * (k0 : Int) := by ring
        rw [e]
        exact dvd_add (dvd_trans (dvd_mul_right step q) hsq) (dvd_mul_right _ _)
      · have e : t + (offset : Int)
            = (t - (time + (k0 : Int) * step)) + (time + (k0 : Int) * step + (offset : Int)) := by
          ring
        rw [e]
        exact dvd_add (dvd_trans (dvd_mul_left q step) hsq) hd

theorem isCoprime_list_prod (p : Int) (l : List Int) (h : ∀ q ∈ l, IsCoprime p q) :
    IsCoprime p l.prod := by
  induction l with
  | nil => simpa using isCoprime_one_right
  | cons q rest ih =>
    rw [List.prod_cons]
    exact IsCoprime.mul_right (h q (List.mem_cons_self _ _))
      (ih (fun r hr => h r (List.mem_cons_of_mem _ hr)))

theorem lcmList_eq_prod (l : List Int) (hpos : ∀ p ∈ l, 0 < p)
    (hpw : l.Pairwise IsCoprime) : (lcmList l : Int) = l.prod := by
  induction l with
  | nil => simp [lcmList]
  | cons p rest ih =>
    simp only [List.mem_cons, forall_eq_or_imp, List.pairwise_cons] at hpos hpw
    have ihr := ih hpos.2 hpw.2
    have hprod : 0 < rest.prod := List.prod_pos (fun a ha => hpos.2 a ha)
    have hcop : IsCoprime p rest.prod := isCoprime_list_prod p rest hpw.1
    simp only [lcmList, List.prod_cons, ihr]
    have hg : Int.gcd p rest.prod = 1 := Int.isCoprime_iff_gcd_eq_one.mp hcop
    have hmul := Int.gcd_mul_lcm p rest.prod
    rw [hg, one_mul] at hmul
    rw [hmul]
    have : 0 ≤ p * rest.prod := le_of_lt (mul_pos hpos.1 hprod)
    omega

/-- C27: for a schedule with pairwise coprime positive periods, after the first
`n` slots (for every `n`) the step is the least common multiple, which is the
product, of the periods processed so far, and the candidate time is
non-negative, smaller than the step and satisfies every congruence processed so
far; the returned timestamp is smaller than the product of all active periods. -/
theorem solvePart2_loop_invariant (tokens : List Token)
    (hpos : ∀ p ∈ activePeriods tokens, 0 < p)
    (hco : (activePeriods tokens).Pairwise (fun p q => Int.gcd p q = 1)) :
    (∀ n : Nat, ∃ time step : Int,
      (∃ fuel, ∀ fuel', fuel ≤ fuel' →
        loopState fuel' (tokens.take n) 0 0 1 = Run.done (time, step)) ∧
      step = (lcmList (activePeriods (tokens.take n)) : Int) ∧
      step = (activePeriods (tokens.take n)).prod ∧
      0 ≤ time ∧ time < step ∧
      ∀ (i : Nat) (p : Int), (tokens.take n)[i]? = some (Token.bus p) →
        (time + (i : Int)) % p = 0) ∧
    ∃ t : Int,
      (∃ fuel, ∀ fuel', fuel ≤ fuel' → solvePart2 fuel' tokens = Run.done (toString t)) ∧
      0 ≤ t ∧ t < (activePeriods tokens).prod := by
  have hpw : (activePeriods tokens).Pairwise IsCoprime :=
    hco.imp (fun h => Int.isCoprime_iff_gcd_eq_one.mpr h)
  have hprefix : ∀ n : Nat, (∀ p ∈ activePeriods (tokens.take n), 0 < p) ∧
      (activePeriods (tokens.take n)).Pairwise IsCoprime := by
    intro n
    have happ : activePeriods tokens
        = activePeriods (tokens.take n) ++ activePeriods (tokens.drop n) := by
      rw [← activePeriods_append, List.take_append_drop]
    constructor
    · intro p hp
      exact hpos p (by rw [happ]; exact List.mem_append_left _ hp)
    · rw [happ] at hpw
      exact (List.pairwise_append.mp hpw).1
  constructor
  · intro n
    obtain ⟨hp, hc⟩ := hprefix n
    obtain ⟨t, ⟨fuel, hrun⟩, h1, h2, -, h4⟩ :=
      loopState_spec (tokens.take n) 0 0 1 (le_refl _) one_pos hp
        (fun p _ => isCoprime_one_left) hc
    rw [one_mul] at h2
    refine ⟨t, (activePeriods (tokens.take n)).prod, ⟨fuel, fun fuel' hf => ?_⟩,
      (lcmList_eq_prod _ hp hc).symm, rfl, h1, h2, ?_⟩
    · rw [hrun fuel' hf, one_mul]
    · intro i p hi
      have := (aligned_iff_getElem (tokens.take n) 0 t).mp h4 i p hi
      exact Int.emod_eq_zero_of_dvd (by simpa using this)
  · obtain ⟨t, ⟨fuel, hrun⟩, h1, h2, -, -⟩ :=
      loopState_spec tokens 0 0 1 (le_refl _) one_pos hpos (fun p _ => isCoprime_one_left) hpw
    rw [one_mul] at h2
    refine ⟨t, ⟨fuel, fun fuel' hf => ?_⟩, h1, h2⟩
    unfold solvePart2
    rw [solveLoop_eq_loopState, hrun fuel' hf]
    rfl

theorem solvePart2_loop_invariant_witness :
    (∀ n : Nat, ∃ time step : Int,
      (∃ fuel, ∀ fuel', fuel ≤ fuel' →
        loopState fuel' ([Token.bus 3, Token.x, Token.bus 5].take n) 0 0 1
          = Run.done (time, step)) ∧
      step = (lcmList (activePeriods ([Token.bus 3, Token.x, Token.bus 5].take n)) : Int) ∧
      step = (activePeriods ([Token.bus 3, Token.x, Token.bus 5].take n)).prod ∧
      0 ≤ time ∧ time < step ∧
      ∀ (i : Nat) (p : Int),
        ([Token.bus 3, Token.x, Token.bus 5].take n)[i]? = some (Token.bus p) →
        (time + (i : Int)) % p = 0) ∧
    ∃ t : Int,
      (∃ fuel, ∀ fuel', fuel ≤ fuel' →
        solvePart2 fuel' [Token.bus 3, Token.x, Token.bus 5] = Run.done (toString t)) ∧
      0 ≤ t ∧ t < (activePeriods [Token.bus 3, Token.x, Token.bus 5]).prod :=
  solvePart2_loop_invariant [Token.bus 3, Token.x, Token.bus 5] (by decide) (by decide)

end Day13

